import Mathlib

/-!
# SimpleThreadPool: a fixed-size worker pool

A shallow embedding of `HW ~ Multithreading/SimpleThreadPool.{hpp,cpp}`.

The pool is a transition system.  Every block of the source that runs under
`std::unique_lock<std::mutex> lock(mut)` is one atomic step, since the mutex
makes those blocks mutually exclusive.  Code that runs outside the lock (the
call `task()` in `WorkOn`, each iteration of the join loop of `Destroy`) is a
step of its own, so that it interleaves freely with the steps of the other
threads.  The notification that follows a locked block (`notify_one` in `Post`,
`notify_all` in `Destroy`) is taken together with that block: it only turns
sleeping workers into ready ones, and a ready worker does nothing before its
own next step.  A worker asleep in `condition.wait` may also wake up
spuriously at any time.

Threads of control:
* the owner of the pool (the caller of `Post`, `Destroy` and the destructor),
* one thread per worker, running `WorkOn`.

A callable is modelled by what invoking it does: it returns a value or it
throws.  Callables do not touch the pool themselves.
-/

namespace ThreadPool

/-! ## Values, exceptions, callables -/

deriving instance DecidableEq for Except

/-- Result values of tasks (the `int` of `Multiply`). -/
abbrev Val := Int

/-- A thrown C++ object: either derived from `std::exception` (it has a
dynamic type and a `what()` message) or anything else. -/
inductive Exn where
  | typed (kind : String) (what : String)
  | unknown (code : Nat)
  deriving DecidableEq, Repr

/-- A zero-argument callable `Fnc_T task`, given by the effect of `task()`. -/
inductive Callable where
  | returns (v : Val)
  | throws (e : Exn)
  deriving DecidableEq, Repr

/-- The shared state behind a `std::future` (the Result Cell). -/
inductive Cell where
  | notReady
  | value (v : Val)
  | failure (e : Exn)
  deriving DecidableEq, Repr

/-- Whether a Result Cell has left the not-yet-ready state. -/
def Cell.ready : Cell → Bool
  | .notReady => false
  | _ => true

/-- The content a Result Cell gets when its callable has run. -/
def Callable.outcome : Callable → Cell
  | .returns v => .value v
  | .throws e => .failure e

/-- A `std::packaged_task<ReturnType()>`: the stored callable and the shared
state it writes. -/
structure PackagedTask where
  fn : Callable
  cell : Cell
  deriving DecidableEq, Repr

/-- The call `(*packagedTask)()`: runs the stored callable and stores the
returned value or the thrown exception in the shared state.  Nothing
escapes to the caller, except `std::future_error` when the shared state was
already written. -/
def PackagedTask.invoke (p : PackagedTask) : PackagedTask × Option Exn :=
  match p.cell with
  | .notReady => ({ p with cell := p.fn.outcome }, none)
  | _ => (p, some (.typed "std::future_error" "promise already satisfied"))

/-- The error of a shared state whose packaged task was destroyed before it
was called: `std::future_error` with the code `broken_promise`. -/
def broken_promise : Exn :=
  .typed "std::future_error" "broken_promise"

/-- The destructor of `std::packaged_task`: the shared state is abandoned; when
it is not ready it is made ready with the error `broken_promise`. -/
def PackagedTask.abandon (p : PackagedTask) : PackagedTask :=
  match p.cell with
  | .notReady => { p with cell := .failure broken_promise }
  | _ => p

/-- A `std::future<ReturnType>`: a reference to the shared state of the
packaged task at the given address, or no state at all. -/
structure Future where
  state : Option Nat
  deriving DecidableEq, Repr

/-! ## Threads -/

/-- Where a worker thread is inside `WorkOn`. -/
inductive WorkerPc where
  /-- at the top of `while (true)`, or woken up inside `condition.wait`:
  about to take the lock and test the wait predicate -/
  | ready
  /-- asleep inside `condition.wait`, the lock released -/
  | blocked
  /-- past the locked block with a task moved out of the queue, about to
  call `task()` -/
  | running (task : Nat)
  /-- returned from `WorkOn` -/
  | exited
  deriving DecidableEq, Repr

/-- How many steps a worker may still take before it sleeps or exits, not
counting the tasks still in the queue. -/
def WorkerPc.weight : WorkerPc → Nat
  | .ready => 1
  | .running _ => 2
  | .blocked => 0
  | .exited => 0

/-- An element of `std::vector<std::thread> threads`. -/
structure Thread where
  id : Nat
  joinable : Bool
  deriving DecidableEq, Repr

/-- Where the owner of the pool is. -/
inductive OwnerPc where
  /-- outside every member function -/
  | idle
  /-- inside `Destroy`, in the join loop at the given index; `dtor` tells
  that `Destroy` was called by the destructor -/
  | joining (i : Nat) (dtor : Bool)
  /-- the destructor has run to its end -/
  | destroyed
  /-- `std::terminate` was called (a joinable `std::thread` was destroyed) -/
  | terminated
  deriving DecidableEq, Repr

/-- What went to `std::cerr`. -/
inductive LogLine where
  | zeroThreads
  | caught (tid : Nat) (what : String)
  | caughtUnknown (tid : Nat)
  deriving DecidableEq, Repr

/-! ## The pool -/

/-- The members of `class SimpleThreadPool`, the threads and packaged tasks
it has created, and a history of what happened. -/
structure SimpleThreadPool where
  /-- `size_t m_threadCount` -/
  m_threadCount : Nat
  /-- `std::vector<std::thread> threads` -/
  threads : List Thread
  /-- `std::queue<std::function<void()>> tasks`, front first; a unit of work
  `[packagedTask]() { (*packagedTask)(); }` is given by the address of the
  packaged task it captures; once the destructor has run, what the queue held
  when it was destroyed -/
  tasks : List Nat
  /-- `bool stop` -/
  stop : Bool
  /-- the packaged tasks made by `std::make_shared` in `Post`, by address
  (kept after their last owner is gone, as a record) -/
  heap : List PackagedTask
  /-- the worker threads that were started, by thread id; a thread asleep on
  `condition` is `blocked` -/
  workers : List WorkerPc
  /-- the owner thread -/
  owner : OwnerPc
  /-- history: addresses in the order `tasks.emplace` was called -/
  enqueued : List Nat
  /-- history: addresses in the order `tasks.pop` was called -/
  dequeued : List Nat
  /-- history: addresses in the order `task()` was called, with the worker -/
  executed : List (Nat × Nat)
  /-- history: thread ids in the order `worker.join()` returned -/
  joined : List Nat
  /-- history: number of `condition.notify_one()` calls -/
  notifiedOne : Nat
  /-- history: number of `condition.notify_all()` calls -/
  notifiedAll : Nat
  /-- history: lines written to `std::cerr` -/
  cerr : List LogLine
  deriving DecidableEq, Repr

namespace SimpleThreadPool

/-! ### The condition variable -/

/-- `condition.notify_one()`: one thread asleep on the condition wakes up, if
there is one.  Which one is not determined by the code: `choice` names it, and
when `choice` is not asleep the sleeper with the smallest id is taken. -/
def notify_one (ws : List WorkerPc) (choice : Nat) : List WorkerPc :=
  if ws[choice]? = some .blocked then ws.set choice .ready
  else ws.set (ws.indexOf .blocked) .ready

/-- `condition.notify_all()`: every thread asleep on the condition wakes up. -/
def notify_all (ws : List WorkerPc) : List WorkerPc :=
  ws.map fun w => if w = .blocked then .ready else w

/-! ### Constructor -/

/-- The threads `threads.emplace_back(&SimpleThreadPool::WorkOn, this)` for
`i = 0 .. n-1`. -/
def spawn (n : Nat) : List Thread :=
  (List.range n).map fun i => { id := i, joinable := true }

/-- `SimpleThreadPool::SimpleThreadPool(std::size_t threadCount)`. -/
def construct (threadCount : Nat) : SimpleThreadPool :=
  let s : SimpleThreadPool :=
    { m_threadCount := threadCount, threads := [], tasks := [], stop := false,
      heap := [], workers := [], owner := .idle, enqueued := [], dequeued := [],
      executed := [], joined := [], notifiedOne := 0, notifiedAll := 0, cerr := [] }
  if threadCount = 0 then
    { s with cerr := s.cerr ++ [.zeroThreads] }
  else
    { s with threads := spawn s.m_threadCount,
             workers := List.replicate s.m_threadCount .ready }

/-! ### Post -/

/-- `SimpleThreadPool::Post(Fnc_T task)`: the result (the future, or the
exception thrown) and the pool afterwards. -/
def Post (s : SimpleThreadPool) (task : Callable) (choice : Nat) :
    Except Exn Future × SimpleThreadPool :=
  -- auto packagedTask = std::make_shared<std::packaged_task<ReturnType()>>(std::move(task));
  let packagedTask := s.heap.length
  let s := { s with heap := s.heap ++ [{ fn := task, cell := .notReady }] }
  -- std::future<ReturnType> future = packagedTask->get_future();
  let future : Future := { state := some packagedTask }
  -- { std::unique_lock<std::mutex> lock(mut);
  if s.stop then
    (.error (.typed "std::runtime_error" "Post on stopped SimpleThreadPool"), s)
  else
    -- tasks.emplace([packagedTask]() { (*packagedTask)(); }); }
    let s := { s with tasks := s.tasks ++ [packagedTask],
                      enqueued := s.enqueued ++ [packagedTask] }
    -- condition.notify_one();
    let s := { s with workers := notify_one s.workers choice,
                      notifiedOne := s.notifiedOne + 1 }
    (.ok future, s)

/-! ### Destroy -/

/-- `SimpleThreadPool::Destroy()`, up to the join loop: the locked block and
the notification. -/
def Destroy_enter (s : SimpleThreadPool) (dtor : Bool) : SimpleThreadPool :=
  -- { lock(mut); if (stop) already_stopping = true; else stop = true; }
  let already_stopping := s.stop
  let s := if s.stop then s else { s with stop := true }
  -- if (already_stopping) { } else { condition.notify_all(); }
  let s := if already_stopping then s
    else { s with workers := notify_all s.workers, notifiedAll := s.notifiedAll + 1 }
  { s with owner := .joining 0 dtor }

/-- The destruction of the member `tasks`: every unit of work still in the
queue is destroyed, and with it the packaged task that it captures and of
which it is the only owner. -/
def destroyTasks (heap : List PackagedTask) : List Nat → List PackagedTask
  | [] => heap
  | a :: rest =>
    match heap[a]? with
    | some p => destroyTasks (heap.set a p.abandon) rest
    | none => destroyTasks heap rest

/-- The end of `SimpleThreadPool::~SimpleThreadPool()`: the members are
destroyed in the reverse order of their declaration, so `tasks` before
`threads`; destroying a joinable `std::thread` calls `std::terminate`. -/
def destroy_members (s : SimpleThreadPool) : SimpleThreadPool :=
  let s := { s with heap := destroyTasks s.heap s.tasks }
  if s.threads.any (·.joinable) then { s with owner := .terminated }
  else { s with owner := .destroyed }

/-- One iteration of `for (std::thread& worker : threads)` in `Destroy`, at
index `i`; `none` while `worker.join()` has to wait for the thread.  Past the
last element: `threads.clear()` and the return from `Destroy`; when the
destructor was the caller it goes on to its end, the destruction of the
members. -/
def Destroy_join (s : SimpleThreadPool) (i : Nat) (dtor : Bool) : Option SimpleThreadPool :=
  match s.threads[i]? with
  | some worker =>
    if worker.joinable then
      if s.workers[worker.id]? = some .exited then
        some { s with threads := s.threads.set i { worker with joinable := false },
                      joined := s.joined ++ [worker.id],
                      owner := .joining (i + 1) dtor }
      else none
    else some { s with owner := .joining (i + 1) dtor }
  | none =>
    -- threads.clear();
    let s := { s with threads := [] }
    some (if dtor then destroy_members s else { s with owner := .idle })

/-- `SimpleThreadPool::~SimpleThreadPool()`, its first step: the call of
`Destroy` when the stop flag is clear; otherwise the destructor goes to its
end at once, the destruction of the members. -/
def destructor (s : SimpleThreadPool) : SimpleThreadPool :=
  -- if (!stop) { Destroy(); }
  if !s.stop then Destroy_enter s true else destroy_members s

/-! ### WorkOn -/

/-- What the locked block of `WorkOn` decides once `condition.wait` is over. -/
inductive Taken where
  | exit
  | task (t : Nat) (rest : List Nat)
  | again
  deriving DecidableEq, Repr

/-- The predicate of `condition.wait(lock, [this] { return stop || !tasks.empty(); })`. -/
def waitOver (stop : Bool) (tasks : List Nat) : Bool :=
  stop || !tasks.isEmpty

/-- The locked block of `WorkOn` after `condition.wait`. -/
def WorkOn_take (stop : Bool) (tasks : List Nat) : Taken :=
  -- if (stop && tasks.empty()) return;
  if stop && tasks.isEmpty then .exit
  else
    -- if (!tasks.empty()) { task = std::move(tasks.front()); tasks.pop(); } else continue;
    match tasks with
    | t :: rest => .task t rest
    | [] => .again

/-- The locked block of `WorkOn` for the worker `tid`: it goes to sleep when
the wait predicate is false; otherwise it exits, takes the front task, or
goes round the loop again. -/
def WorkOn_locked (s : SimpleThreadPool) (tid : Nat) : Option SimpleThreadPool :=
  if s.workers[tid]? = some .ready then
    if waitOver s.stop s.tasks then
      match WorkOn_take s.stop s.tasks with
      | .exit => some { s with workers := s.workers.set tid .exited }
      | .task t rest =>
        some { s with tasks := rest, dequeued := s.dequeued ++ [t],
                      workers := s.workers.set tid (.running t) }
      | .again => some s
    else some { s with workers := s.workers.set tid .blocked }
  else none

/-- The unit of work `[packagedTask]() { (*packagedTask)(); }` called on the
heap. -/
def invokeUnit (heap : List PackagedTask) (a : Nat) : List PackagedTask × Option Exn :=
  match heap[a]? with
  | some p => (heap.set a p.invoke.1, p.invoke.2)
  | none => (heap, none)

/-- The handlers of `try { task(); } catch (const std::exception& e) ... catch (...)`. -/
def WorkOn_catch (tid : Nat) : Option Exn → List LogLine
  | none => []
  | some (.typed _ what) => [.caught tid what]
  | some (.unknown _) => [.caughtUnknown tid]

/-- The unlocked part of `WorkOn` for the worker `tid`: `task()` inside the
try block, then back to the top of the loop. -/
def WorkOn_run (s : SimpleThreadPool) (tid : Nat) : Option SimpleThreadPool :=
  match s.workers[tid]? with
  | some (.running t) =>
    let r := invokeUnit s.heap t
    some { s with heap := r.1, executed := s.executed ++ [(t, tid)],
                  cerr := s.cerr ++ WorkOn_catch tid r.2,
                  workers := s.workers.set tid .ready }
  | _ => none

/-- A spurious wake-up of the worker `tid` inside `condition.wait`. -/
def spuriousWake (s : SimpleThreadPool) (tid : Nat) : Option SimpleThreadPool :=
  if s.workers[tid]? = some .blocked then
    some { s with workers := s.workers.set tid .ready }
  else none

/-! ### Executions -/

/-- One atomic step of one thread. -/
inductive Action where
  | post (task : Callable) (choice : Nat)
  | destroy
  | join
  | destruct
  | lock (tid : Nat)
  | run (tid : Nat)
  | spurious (tid : Nat)
  deriving DecidableEq, Repr

/-- The pool after the step `a`, or `none` when `a` cannot be taken now. -/
def step (s : SimpleThreadPool) : Action → Option SimpleThreadPool
  | .post task choice => if s.owner = .idle then some (s.Post task choice).2 else none
  | .destroy => if s.owner = .idle then some (s.Destroy_enter false) else none
  | .join =>
    match s.owner with
    | .joining i dtor => s.Destroy_join i dtor
    | _ => none
  | .destruct => if s.owner = .idle then some s.destructor else none
  | .lock tid => s.WorkOn_locked tid
  | .run tid => s.WorkOn_run tid
  | .spurious tid => s.spuriousWake tid

/-- The pool after a sequence of steps. -/
def exec (s : SimpleThreadPool) : List Action → Option SimpleThreadPool
  | [] => some s
  | a :: as =>
    match s.step a with
    | some s' => exec s' as
    | none => none

/-- The states of a pool constructed with `n` threads. -/
def Reachable (n : Nat) (s : SimpleThreadPool) : Prop :=
  ∃ as, exec (construct n) as = some s

/-! ### Reading a future -/

/-- What `future.get()` does. -/
inductive Got where
  | waits
  | value (v : Val)
  | rethrown (e : Exn)
  | noState
  deriving DecidableEq, Repr

/-- The call `future.get()` in the pool state `s`: it waits while the shared
state is not ready, else it returns the stored value or rethrows the stored
exception. -/
def get (s : SimpleThreadPool) (f : Future) : Got :=
  match f.state with
  | none => .noState
  | some a =>
    match s.heap[a]? with
    | none => .noState
    | some p =>
      match p.cell with
      | .notReady => .waits
      | .value v => .value v
      | .failure e => .rethrown e

/-! ## Invariants and sample pools -/

/-- The addresses of the packaged tasks whose unit of work was called. -/
def ran (s : SimpleThreadPool) : List Nat := s.executed.map Prod.fst

/-- The invariant of a pool constructed with `n` threads. -/
structure Inv (n : Nat) (s : SimpleThreadPool) : Prop where
  /-- the thread count is the one given to the constructor -/
  count : s.m_threadCount = n
  /-- `n` worker threads were started -/
  nworkers : s.workers.length = n
  /-- what was dequeued, then the queue, is what was enqueued -/
  fifo : s.dequeued ++ s.tasks = s.enqueued
  /-- every enqueued unit of work points into the heap -/
  enq_lt : ∀ a ∈ s.enqueued, a < s.heap.length
  /-- no unit of work was enqueued twice -/
  enq_nodup : s.enqueued.Nodup
  /-- before shutdown every `Post` was accepted -/
  all_enq : s.stop = false → s.enqueued = List.range s.heap.length
  /-- a task that a worker is about to call was dequeued -/
  run_deq : ∀ (i t : Nat), s.workers[i]? = some (.running t) → t ∈ s.dequeued
  /-- a task that a worker is about to call was not called before -/
  run_fresh : ∀ (i t : Nat), s.workers[i]? = some (.running t) → t ∉ s.ran
  /-- no two workers are about to call the same task -/
  run_inj : ∀ (i j t : Nat), s.workers[i]? = some (.running t) →
    s.workers[j]? = some (.running t) → i = j
  /-- a task that was called was dequeued -/
  exe_deq : ∀ t ∈ s.ran, t ∈ s.dequeued
  /-- a dequeued task was called or a worker is about to call it -/
  deq_cases : ∀ t ∈ s.dequeued, t ∈ s.ran ∨ ∃ i : Nat, s.workers[i]? = some (.running t)
  /-- no task was called twice -/
  exe_nodup : s.ran.Nodup
  /-- the shared state of a task that was called holds its outcome -/
  cell_done : ∀ a p, s.heap[a]? = some p → a ∈ s.ran → p.cell = p.fn.outcome
  /-- while the pool exists the shared state of a task that was not called is
  not ready -/
  cell_wait : s.owner ≠ .destroyed →
    ∀ a p, s.heap[a]? = some p → a ∉ s.ran → p.cell = .notReady
  /-- once the pool is destroyed the shared state of a task that was not
  called holds `broken_promise` when the task was still queued, and is not
  ready otherwise -/
  cell_gone : s.owner = .destroyed →
    ∀ a p, s.heap[a]? = some p → a ∉ s.ran →
      p.cell = if a ∈ s.tasks then .failure broken_promise else .notReady
  /-- nothing reached the handlers of `WorkOn` -/
  quiet : s.cerr = if n = 0 then [.zeroThreads] else []
  /-- a worker has exited only if the stop flag is set and the queue is empty -/
  exit_stop : (∃ i : Nat, s.workers[i]? = some .exited) → s.stop = true ∧ s.tasks = []
  /-- once the stop flag is set no worker is asleep -/
  stop_awake : s.stop = true → ∀ i : Nat, s.workers[i]? ≠ some .blocked
  /-- while a task is queued some worker is not asleep -/
  awake : s.tasks ≠ [] → 0 < n → ∃ w ∈ s.workers, w ≠ .blocked
  /-- the vector of threads is empty or has its `n` elements -/
  thr_len : s.threads = [] ∨ s.threads.length = n
  /-- the element at index `i` is the handle of worker `i` -/
  thr_id : ∀ (i : Nat) (t : Thread), s.threads[i]? = some t → t.id = i
  /-- a handle that is not joinable was joined by the join loop in progress -/
  thr_done : ∀ (i : Nat) (t : Thread), s.threads[i]? = some t → t.joinable = false →
    s.workers[i]? = some .exited ∧ ∃ j d, s.owner = .joining j d ∧ i < j
  /-- the vector of threads of a pool with workers is empty only after `Destroy` -/
  thr_empty : s.threads = [] → 0 < n →
    s.stop = true ∧ ∀ (i : Nat) (w : WorkerPc), s.workers[i]? = some w → w = .exited
  /-- inside the join loop the stop flag is set and the handles passed are joined -/
  own_join : ∀ (i : Nat) (d : Bool), s.owner = .joining i d →
    s.stop = true ∧ i ≤ s.threads.length ∧
    ∀ (j : Nat) (t : Thread), j < i → s.threads[j]? = some t → t.joinable = false
  /-- after `Destroy` has returned the vector of threads is empty -/
  own_idle : s.owner = .idle → s.stop = true → s.threads = []
  /-- the destructor ends with the stop flag set and no thread handle left -/
  own_destroyed : s.owner = .destroyed → s.stop = true ∧ s.threads = []
  /-- `std::terminate` is never called -/
  own_term : s.owner ≠ .terminated
  /-- before shutdown the owner is outside `Destroy` and all handles exist -/
  stop_idle : s.stop = false → s.owner = .idle ∧ s.threads.length = n
  /-- no thread was joined twice -/
  join_once : s.joined.Nodup
  /-- a joined thread has exited and its handle is not joinable -/
  join_thr : ∀ i ∈ s.joined, (∀ t : Thread, s.threads[i]? = some t → t.joinable = false) ∧
    s.workers[i]? = some .exited

/-! ### What a step never undoes -/

/-- The state `s'` comes after `s`: packaged tasks stay where they are with
their callable, accepted and executed tasks stay so, new tasks get new
addresses, the stop flag is not cleared. -/
structure Later (s s' : SimpleThreadPool) : Prop where
  heap_fn : ∀ (a : Nat) (p : PackagedTask), s.heap[a]? = some p →
    ∃ p', s'.heap[a]? = some p' ∧ p'.fn = p.fn
  heap_len : s.heap.length ≤ s'.heap.length
  enq_old : ∀ a ∈ s.enqueued, a ∈ s'.enqueued
  enq_new : ∀ a ∈ s'.enqueued, a ∈ s.enqueued ∨ s.heap.length ≤ a
  stop_mono : s.stop = true → s'.stop = true
  ran_mono : ∀ a ∈ s.ran, a ∈ s'.ran

/-! ### Progress, results, shutdown -/

/-- A bound on the number of steps that the workers (spurious wake-ups apart)
and the join loop can still take when nothing more is submitted. -/
def pending (s : SimpleThreadPool) : Nat :=
  3 * s.tasks.length + (s.workers.map WorkerPc.weight).sum +
    match s.owner with
    | .joining i _ => s.threads.length + 1 - i
    | _ => 0

/-- No worker is ready to take the lock or running a task: every worker is
asleep or has exited. -/
def settled (s : SimpleThreadPool) : Prop :=
  ∀ w ∈ s.workers, w = .blocked ∨ w = .exited

instance (s : SimpleThreadPool) : Decidable s.settled := by
  unfold settled; infer_instance

/-- What `get` does on the future of a callable that has run. -/
def resultOf : Callable → Got
  | .returns v => .value v
  | .throws e => .rethrown e

/-- The callables passed to `Post` in a sequence of steps, in order. -/
def submitted : List Action → List Callable
  | [] => []
  | .post task _ :: as => task :: submitted as
  | _ :: as => submitted as

/-- `int Multiply(int a, int b)` of `main.cpp`: its return value. -/
def Multiply (a b : Int) : Int :=
  a * b

/-- The task `[i]() { return Multiply(i, i + 1); }` of `main.cpp`. -/
def multiplyTask (i : Int) : Callable :=
  .returns (Multiply i (i + 1))

/-- The number of worker threads that have not returned from `WorkOn`. -/
def live (s : SimpleThreadPool) : Nat :=
  s.workers.countP fun w => decide (w ≠ .exited)

/-- `Destroy` is not in progress and the stop flag is set: a call of `Destroy`
has returned. -/
def shutDown (s : SimpleThreadPool) : Prop :=
  s.stop = true ∧ (s.owner = .idle ∨ s.owner = .destroyed)

instance (s : SimpleThreadPool) : Decidable s.shutDown := by
  unfold shutDown; infer_instance

/-! ### The destructor, the join record, one-shot futures -/

/-- A step that is not a call of a member function by the owner: a step of a
worker or an iteration of the join loop. -/
def Action.inner : Action → Bool
  | .join => true
  | .lock _ => true
  | .run _ => true
  | .spurious _ => true
  | _ => false

/-- The state of a run of the destructor that goes with the state `s` of a run
of `Destroy` called by the owner itself: inside the join loop the caller is the
destructor, and where `Destroy` has returned the destructor has gone on to its
end, the destruction of the members. -/
def asDestructor (s : SimpleThreadPool) : SimpleThreadPool :=
  match s.owner with
  | .joining i _ => { s with owner := .joining i true }
  | .idle => destroy_members s
  | _ => s

/-- The handles that are not joinable were joined, and once the vector of
threads is empty all `n` workers were joined. -/
structure JoinInv (n : Nat) (s : SimpleThreadPool) : Prop where
  done_joined : ∀ (i : Nat) (t : Thread), s.threads[i]? = some t → t.joinable = false →
    i ∈ s.joined
  empty_joined : s.threads = [] → ∀ i : Nat, i < n → i ∈ s.joined

/-- What `future.get()` does on a shared state with the given content. -/
def Got.ofCell : Cell → Got
  | .notReady => .waits
  | .value v => .value v
  | .failure e => .rethrown e

/-- Whether the future refers to a shared state (`future.valid()`). -/
def valid (f : Future) : Bool :=
  f.state.isSome

/-- The call `future.get()` with its effect on the future: while the shared
state is not ready the call waits and the future is as before; once it is
ready the call returns the stored value or rethrows the stored exception and
releases the shared state, so that `valid()` is false afterwards.  On a
future without shared state the call is an error (`std::future_error` with
`no_state` in the implementations, undefined behaviour by the standard). -/
def getAndRelease (s : SimpleThreadPool) (f : Future) : Got × Future :=
  match s.get f with
  | .waits => (.waits, f)
  | .noState => (.noState, f)
  | .value v => (.value v, { state := none })
  | .rethrown e => (.rethrown e, { state := none })

/-! ### Sample pools -/

/-- One worker, `Destroy` called on the fresh pool and run to its end. -/
def stoppedSchedule : List Action := [.destroy, .lock 0, .join, .join]

/-- A pool of one worker on which `Destroy` has returned. -/
def stoppedPool : SimpleThreadPool :=
  ((construct 1).exec stoppedSchedule).getD (construct 1)

/-- Four submissions to a pool of two workers, interleaved with worker steps. -/
def busySchedule : List Action :=
  [.post (.returns 1) 0, .post (.throws (.unknown 3)) 0, .lock 1, .lock 0, .run 1,
   .post (.returns 5) 0, .post (.returns 6) 0, .lock 1]

/-- A pool of two workers with two tasks running and one task queued. -/
def busyPool : SimpleThreadPool :=
  ((construct 2).exec busySchedule).getD (construct 2)

/-- The steps that bring the tasks of `busyPool` and one more to their end. -/
def settleSchedule : List Action :=
  [.run 0, .run 1, .lock 0, .lock 1, .run 0, .run 1, .lock 0, .lock 1]

/-- The pool `busyPool` after one more submission, all tasks run, the workers
asleep. -/
def settledPool : SimpleThreadPool :=
  ((busyPool.Post (.returns 9) 0).2.exec settleSchedule).getD busyPool

/-- The pool `busyPool` after the submission of a task that throws, all tasks
run, the workers asleep. -/
def failedPool : SimpleThreadPool :=
  ((busyPool.Post (.throws (.typed "DomainError" "x")) 0).2.exec settleSchedule).getD busyPool

/-- The steps of `busySchedule`, then `Destroy` called and run to its end
while the workers drain the queue. -/
def drainSchedule : List Action :=
  busySchedule ++ [.destroy, .run 1, .lock 1, .run 0, .lock 0, .join, .run 1, .lock 1,
    .join, .join]

/-- The pool `busyPool` after `Destroy` has returned. -/
def drainedPool : SimpleThreadPool :=
  ((construct 2).exec drainSchedule).getD (construct 2)

/-- A pool constructed with no worker, after one submission and a `Destroy`
that has returned. -/
def orphanPool : SimpleThreadPool :=
  ((construct 0).exec [.post (.returns 1) 0, .destroy, .join]).getD (construct 0)

/-- A pool constructed with no worker, destroyed after one task that throws
was accepted. -/
def abandonedPool : SimpleThreadPool :=
  ((construct 0).exec
    [.post (.throws (.typed "DomainError" "x")) 0, .destruct, .join]).getD (construct 0)

/-- A pool constructed with no worker, destroyed after one task was accepted. -/
def brokenPool : SimpleThreadPool :=
  ((construct 0).exec [.post (.returns 1) 0, .destruct, .join]).getD (construct 0)

/-- The submissions of `main.cpp` that return `int`, on `pool(4)`, with one
way for the workers to run them. -/
def mainSchedule : List Action :=
  [.lock 0, .lock 1, .post (multiplyTask 0) 0, .post (multiplyTask 1) 3,
   .post (multiplyTask 2) 0, .lock 0, .lock 1, .run 1, .post (multiplyTask 3) 0,
   .post (multiplyTask 4) 0, .post (.returns (Multiply 10 5)) 0, .lock 2, .lock 3, .lock 1,
   .run 0, .run 2, .run 3, .run 1, .lock 0, .run 0, .lock 0, .lock 1, .lock 2, .lock 3]

/-- The pool of `main.cpp` after `mainSchedule`. -/
def mainPool : SimpleThreadPool :=
  ((construct 4).exec mainSchedule).getD (construct 4)

/-- Two submissions to a pool of two workers, each worker taking one. -/
def overlapSchedule : List Action :=
  [.post (.returns 1) 0, .post (.returns 2) 0, .lock 0, .lock 1]

/-- The same two submissions, both run by worker 0 before worker 1 takes its
first step. -/
def serialSchedule : List Action :=
  [.post (.returns 1) 0, .post (.returns 2) 0, .lock 0, .run 0, .lock 0, .run 0, .lock 1]

/-- The pool `busyPool` after `Destroy` was called and worker 1 has finished
its task: the stop flag is set and a task is still queued. -/
def stoppingPool : SimpleThreadPool :=
  ((construct 2).exec (busySchedule ++ [.destroy, .run 1])).getD (construct 2)

end SimpleThreadPool

/-!
## The pool with its mutex

The same member functions, with `std::mutex mut` in the state and one step
for each stretch of code between two operations on the mutex or the condition
variable.  Only what the locking depends on is kept: the stop flag, the queue,
where each thread is.  A unit of work is given by its number.
The destructor, which calls `Destroy` when the stop flag is clear, has no
operation on the mutex of its own and is not a step here.
-/

namespace Locking

/-- A thread of the program: the owner of the pool or the worker `tid`. -/
inductive ThreadId where
  | owner
  | worker (tid : Nat)
  deriving DecidableEq, Repr

/-- Where a worker is in `WorkOn`. -/
inductive Pc where
  /-- at `std::unique_lock<std::mutex> lock(mut)`, not yet holding the mutex -/
  | top
  /-- holding the mutex, about to test the predicate of `condition.wait` -/
  | test
  /-- inside `condition.wait`, the mutex released, asleep -/
  | asleep
  /-- inside `condition.wait`, woken up, about to lock the mutex again -/
  | woken
  /-- holding the mutex, the task moved out of the queue, at the end of the
  scope of `lock` -/
  | unlock (task : Nat)
  /-- past the scope of `lock`, inside `task()` -/
  | call (task : Nat)
  /-- returned from `WorkOn` -/
  | exited
  deriving DecidableEq, Repr

/-- Where the owner of the pool is. -/
inductive OwnerPc where
  /-- outside every member function -/
  | idle
  /-- in `Post`, holding the mutex, about to test the stop flag -/
  | postLocked (task : Nat)
  /-- in `Post`, past the scope of `lock`, about to call `notify_one` -/
  | postNotify
  /-- in `Destroy`, holding the mutex -/
  | destroyLocked
  /-- in `Destroy`, past the scope of `lock`, before `notify_all` -/
  | destroyNotify (already_stopping : Bool)
  /-- in the join loop of `Destroy`, at the given index -/
  | joining (i : Nat)
  deriving DecidableEq, Repr

/-- Whether the worker is inside a scope of `std::unique_lock<std::mutex> lock(mut)`,
the lock taken. -/
def Pc.inLock : Pc → Bool
  | .test => true
  | .unlock _ => true
  | _ => false

/-- Whether the owner is inside a scope of `std::unique_lock<std::mutex> lock(mut)`,
the lock taken. -/
def OwnerPc.inLock : OwnerPc → Bool
  | .postLocked _ => true
  | .destroyLocked => true
  | _ => false

/-- The members of the pool that the locking depends on, and its threads. -/
structure Pool where
  /-- `bool stop` -/
  stop : Bool
  /-- `std::queue<std::function<void()>> tasks`, front first -/
  tasks : List Nat
  /-- `std::mutex mut`: the thread that holds it, if any -/
  mutex : Option ThreadId
  /-- the worker threads, by thread id -/
  workers : List Pc
  /-- the owner thread -/
  owner : OwnerPc
  /-- the size of `std::vector<std::thread> threads` -/
  threads : Nat
  /-- the number of calls of `Post` so far -/
  posted : Nat
  deriving DecidableEq, Repr

namespace Pool

/-- `condition.notify_one()`: one thread asleep on the condition is woken, if
there is one; `choice` names it, and when `choice` is not asleep the sleeper
with the smallest id is taken. -/
def notify_one (ws : List Pc) (choice : Nat) : List Pc :=
  if ws[choice]? = some .asleep then ws.set choice .woken
  else ws.set (ws.indexOf .asleep) .woken

/-- `condition.notify_all()`: every thread asleep on the condition is woken. -/
def notify_all (ws : List Pc) : List Pc :=
  ws.map fun w => if w = .asleep then .woken else w

/-- `SimpleThreadPool::SimpleThreadPool(std::size_t threadCount)`. -/
def construct (threadCount : Nat) : Pool :=
  { stop := false, tasks := [], mutex := none, workers := List.replicate threadCount .top,
    owner := .idle, threads := threadCount, posted := 0 }

/-- `Post`, up to `std::unique_lock<std::mutex> lock(mut)`: the call can go on
when the mutex is free. -/
def Post_lock (s : Pool) : Option Pool :=
  if s.owner = .idle ∧ s.mutex = none then
    some { s with mutex := some .owner, owner := .postLocked s.posted, posted := s.posted + 1 }
  else none

/-- `Post`, the scope of `lock`: the test of the stop flag, `tasks.emplace`,
the release of the mutex at the end of the scope or by the `throw`. -/
def Post_locked (s : Pool) : Option Pool :=
  match s.owner with
  | .postLocked task =>
    if s.stop then some { s with mutex := none, owner := .idle }
    else some { s with tasks := s.tasks ++ [task], mutex := none, owner := .postNotify }
  | _ => none

/-- `Post`, `condition.notify_one()` and the return. -/
def Post_notify (s : Pool) (choice : Nat) : Option Pool :=
  if s.owner = .postNotify then
    some { s with workers := notify_one s.workers choice, owner := .idle }
  else none

/-- `Destroy`, up to `std::unique_lock<std::mutex> lock(mut)`. -/
def Destroy_lock (s : Pool) : Option Pool :=
  if s.owner = .idle ∧ s.mutex = none then
    some { s with mutex := some .owner, owner := .destroyLocked }
  else none

/-- `Destroy`, the scope of `lock`. -/
def Destroy_locked (s : Pool) : Option Pool :=
  if s.owner = .destroyLocked then
    -- if (stop) already_stopping = true; else stop = true;
    some { s with stop := true, mutex := none, owner := .destroyNotify s.stop }
  else none

/-- `Destroy`, `if (already_stopping) { } else { condition.notify_all(); }`. -/
def Destroy_notify (s : Pool) : Option Pool :=
  match s.owner with
  | .destroyNotify already_stopping =>
    if already_stopping then some { s with owner := .joining 0 }
    else some { s with workers := notify_all s.workers, owner := .joining 0 }
  | _ => none

/-- `Destroy`, one round of the join loop (`none` while `worker.join()`
waits), and after the last one `threads.clear()` and the return. -/
def Destroy_join (s : Pool) : Option Pool :=
  match s.owner with
  | .joining i =>
    if i < s.threads then
      if s.workers[i]? = some .exited then some { s with owner := .joining (i + 1) } else none
    else some { s with threads := 0, owner := .idle }
  | _ => none

/-- `WorkOn`, `std::unique_lock<std::mutex> lock(mut)` at the top of the loop,
or the lock taken again inside `condition.wait` after a wake-up: the worker
goes on when the mutex is free. -/
def WorkOn_lock (s : Pool) (tid : Nat) : Option Pool :=
  if (s.workers[tid]? = some .top ∨ s.workers[tid]? = some .woken) ∧ s.mutex = none then
    some { s with mutex := some (.worker tid), workers := s.workers.set tid .test }
  else none

/-- `WorkOn`, the scope of `lock` from the test of the wait predicate on. -/
def WorkOn_locked (s : Pool) (tid : Nat) : Option Pool :=
  if s.workers[tid]? = some .test then
    -- condition.wait(lock, [this] { return stop || !tasks.empty(); });
    if !(s.stop || !s.tasks.isEmpty) then
      some { s with mutex := none, workers := s.workers.set tid .asleep }
    -- if (stop && tasks.empty()) return;
    else if s.stop && s.tasks.isEmpty then
      some { s with mutex := none, workers := s.workers.set tid .exited }
    else
      -- if (!tasks.empty()) { task = std::move(tasks.front()); tasks.pop(); } else continue;
      match s.tasks with
      | task :: rest => some { s with tasks := rest, workers := s.workers.set tid (.unlock task) }
      | [] => some { s with mutex := none, workers := s.workers.set tid .top }
  else none

/-- `WorkOn`, the end of the scope of `lock`: the mutex is released. -/
def WorkOn_unlock (s : Pool) (tid : Nat) : Option Pool :=
  match s.workers[tid]? with
  | some (.unlock task) => some { s with mutex := none, workers := s.workers.set tid (.call task) }
  | _ => none

/-- `WorkOn`, `try { task(); } catch ...` coming to its end. -/
def WorkOn_call (s : Pool) (tid : Nat) : Option Pool :=
  match s.workers[tid]? with
  | some (.call _) => some { s with workers := s.workers.set tid .top }
  | _ => none

/-- A spurious wake-up of the worker `tid` inside `condition.wait`. -/
def spuriousWake (s : Pool) (tid : Nat) : Option Pool :=
  if s.workers[tid]? = some .asleep then
    some { s with workers := s.workers.set tid .woken }
  else none

/-- One step of one thread. -/
inductive Action where
  | postLock
  | postLocked
  | postNotify (choice : Nat)
  | destroyLock
  | destroyLocked
  | destroyNotify
  | join
  | lock (tid : Nat)
  | locked (tid : Nat)
  | unlock (tid : Nat)
  | call (tid : Nat)
  | spurious (tid : Nat)
  deriving DecidableEq, Repr

/-- The thread that takes the step. -/
def Action.thread : Action → ThreadId
  | .lock tid => .worker tid
  | .locked tid => .worker tid
  | .unlock tid => .worker tid
  | .call tid => .worker tid
  | .spurious tid => .worker tid
  | _ => .owner

/-- Whether the step is the end of a call `task()`. -/
def Action.isCall : Action → Bool
  | .call _ => true
  | _ => false

/-- The pool after the step `a`, or `none` when `a` cannot be taken now. -/
def step (s : Pool) : Action → Option Pool
  | .postLock => s.Post_lock
  | .postLocked => s.Post_locked
  | .postNotify choice => s.Post_notify choice
  | .destroyLock => s.Destroy_lock
  | .destroyLocked => s.Destroy_locked
  | .destroyNotify => s.Destroy_notify
  | .join => s.Destroy_join
  | .lock tid => s.WorkOn_lock tid
  | .locked tid => s.WorkOn_locked tid
  | .unlock tid => s.WorkOn_unlock tid
  | .call tid => s.WorkOn_call tid
  | .spurious tid => s.spuriousWake tid

/-- The pool after a sequence of steps. -/
def exec (s : Pool) : List Action → Option Pool
  | [] => some s
  | a :: as =>
    match s.step a with
    | some s' => exec s' as
    | none => none

/-- The states of a pool constructed with `n` threads. -/
def Reachable (n : Nat) (s : Pool) : Prop :=
  ∃ as, exec (construct n) as = some s

/-- The mutex is held by the thread that is inside a scope of `lock`, and by
no other. -/
structure Held (mutex : Option ThreadId) (workers : List Pc) (owner : OwnerPc) : Prop where
  worker_holds : ∀ (i : Nat) (w : Pc), workers[i]? = some w →
    (mutex = some (.worker i) ↔ w.inLock = true)
  worker_known : ∀ i : Nat, mutex = some (.worker i) → i < workers.length
  owner_holds : mutex = some .owner ↔ owner.inLock = true

/-- The invariant of the pool with its mutex. -/
def MutexInv (s : Pool) : Prop :=
  Held s.mutex s.workers s.owner

/-- Two tasks posted, both workers inside `task()`, the owner inside `Post`
holding the mutex. -/
def callSchedule : List Action :=
  [.postLock, .postLocked, .postNotify 0, .lock 0, .locked 0, .unlock 0,
   .postLock, .postLocked, .postNotify 0, .lock 1, .locked 1, .unlock 1, .postLock]

/-- The pool of two workers after `callSchedule`. -/
def callPool : Pool :=
  ((construct 2).exec callSchedule).getD (construct 2)

end Pool

end Locking

end ThreadPool

/-!
# MyVector: a copy-on-write vector of named objects

A shallow embedding of the class `MyVector<T>` of
`HW ~ Analysis of error types using code review examples/RevisedImplementation.hpp`.

The objects of type `MyVector<T>` of a program and the `MyVectorData<T>`
blocks that their `std::shared_ptr` members manage are kept in a `Memory`;
a member function takes the memory and the object it is called on and gives
the memory afterwards and what it returns.  `m_data.use_count()` is the number
of objects whose `m_data` points to the same block.  A reference or iterator is
the block and the position it points to.  Capacity is not part of the state.
-/

namespace CodeReview

/-- What a call gives: a result, a thrown exception, or undefined behaviour
by the dereference of a null `m_data`. -/
inductive Access (α : Type) where
  | ok (a : α)
  | throws (e : ThreadPool.Exn)
  | undefined
  deriving DecidableEq, Repr

/-- `struct MyVectorData<T>`: `std::vector<std::pair<T, std::string>> items`. -/
structure MyVectorData (T : Type) where
  items : List (T × String)
  deriving DecidableEq, Repr

/-- `class MyVector<T>`: its member `std::shared_ptr<MyVectorData<T>> m_data`,
the address of the block or null. -/
structure MyVector where
  m_data : Option Nat
  deriving DecidableEq, Repr

/-- The blocks allocated by `std::make_shared`, by address (kept after their
last owner is gone, as a record), and the `MyVector` objects of the program. -/
structure Memory (T : Type) where
  heap : List (MyVectorData T)
  objects : List MyVector
  deriving DecidableEq, Repr

/-- A `reference`, `T&` or `iterator`: the block and the position in its
`items`. -/
structure Ref where
  block : Nat
  pos : Nat
  deriving DecidableEq, Repr

namespace MyVector

variable {T : Type}

/-- `std::out_of_range("Index out of range")`. -/
def out_of_range : ThreadPool.Exn :=
  .typed "std::out_of_range" "Index out of range"

/-- `std::invalid_argument("Name not found in MyVector: " + name)`. -/
def invalid_argument (name : String) : ThreadPool.Exn :=
  .typed "std::invalid_argument" ("Name not found in MyVector: " ++ name)

/-- The member `m_data` of the object `v`. -/
def dataOf (M : Memory T) (v : Nat) : Option Nat :=
  match M.objects[v]? with
  | some x => x.m_data
  | none => none

/-- `m_data.use_count()` for the block at `a`: the number of objects that
share it. -/
def use_count (M : Memory T) (a : Nat) : Nat :=
  M.objects.countP fun x => decide (x.m_data = some a)

/-- The block `*m_data` of the object `v`, when `m_data` is not null. -/
def deref (M : Memory T) (v : Nat) : Option (MyVectorData T) :=
  match dataOf M v with
  | some a => M.heap[a]?
  | none => none

/-- The sequence of (object, name) pairs seen through the object `v`. -/
def items (M : Memory T) (v : Nat) : List (T × String) :=
  match deref M v with
  | some d => d.items
  | none => []

/-- `MyVector::size() const`: `m_data ? m_data->items.size() : 0`. -/
def size (M : Memory T) (v : Nat) : Nat :=
  match deref M v with
  | some d => d.items.length
  | none => 0

/-- `MyVector::empty() const`: `!m_data || m_data->items.empty()`. -/
def empty (M : Memory T) (v : Nat) : Bool :=
  match deref M v with
  | some d => d.items.isEmpty
  | none => true

/-- `MyVector()`: a new object with a new empty block. -/
def construct (M : Memory T) : Memory T :=
  { heap := M.heap ++ [{ items := [] }],
    objects := M.objects ++ [{ m_data := some M.heap.length }] }

/-- `MyVector(const MyVector& other)`: a new object that shares the block of
`other`. -/
def copy_construct (M : Memory T) (other : Nat) : Memory T :=
  { M with objects := M.objects ++ [{ m_data := dataOf M other }] }

/-- `MyVector& operator=(const MyVector& other)` called on `v`. -/
def copy_assign (M : Memory T) (v other : Nat) : Memory T :=
  { M with objects := M.objects.set v { m_data := dataOf M other } }

/-- `MyVector(MyVector&& other)`: a new object that takes the block of `other`,
whose `m_data` is null afterwards. -/
def move_construct (M : Memory T) (other : Nat) : Memory T :=
  { M with objects := M.objects.set other { m_data := none } ++ [{ m_data := dataOf M other }] }

/-- `MyVector::detach()` called on `v`. -/
def detach (M : Memory T) (v : Nat) : Memory T :=
  match M.objects[v]? with
  | none => M
  | some x =>
    match x.m_data with
    | none =>
      -- if (!m_data) m_data = std::make_shared<MyVectorData<T>>();
      { heap := M.heap ++ [{ items := [] }],
        objects := M.objects.set v { m_data := some M.heap.length } }
    | some a =>
      -- else if (m_data.use_count() > 1) m_data = std::make_shared<MyVectorData<T>>(*m_data);
      if use_count M a > 1 then
        match M.heap[a]? with
        | some d =>
          { heap := M.heap ++ [{ items := d.items }],
            objects := M.objects.set v { m_data := some M.heap.length } }
        | none => M
      else M

/-- The items of the block of `v` replaced by `g` of them. -/
def update (M : Memory T) (v : Nat) (g : List (T × String) → List (T × String)) : Memory T :=
  match dataOf M v with
  | some a =>
    match M.heap[a]? with
    | some d => { M with heap := M.heap.set a { items := g d.items } }
    | none => M
  | none => M

/-- `void push_back(const T& obj, const std::string& name)` called on `v`. -/
def push_back (M : Memory T) (v : Nat) (obj : T) (name : String) : Memory T :=
  update (detach M v) v fun l => l ++ [(obj, name)]

/-- `void clear()` called on `v`. -/
def clear (M : Memory T) (v : Nat) : Memory T :=
  update (detach M v) v fun _ => []

/-- `void reserve(size_type new_cap)` called on `v`: the elements stay. -/
def reserve (M : Memory T) (v : Nat) (_new_cap : Nat) : Memory T :=
  update (detach M v) v fun l => l

/-- `const_reference operator[](size_type index) const` called on `v`. -/
def subscript_const (M : Memory T) (v : Nat) (index : Nat) : Access (T × String) :=
  match deref M v with
  | none => .undefined
  | some d =>
    if index ≥ d.items.length then .throws out_of_range
    else
      match d.items[index]? with
      | some p => .ok p
      | none => .undefined

/-- `reference operator[](size_type index)` called on `v`: the memory after
`detach()` and the reference returned. -/
def subscript (M : Memory T) (v : Nat) (index : Nat) : Memory T × Access Ref :=
  let M := detach M v
  match dataOf M v, deref M v with
  | some a, some d =>
    if index ≥ d.items.length then (M, .throws out_of_range)
    else (M, .ok { block := a, pos := index })
  | _, _ => (M, .undefined)

/-- `std::find_if(first, last, p)` on the items: the position of the first
item for which `p` holds, or the length of the list (the end iterator). -/
def find_if (l : List (T × String)) (p : T × String → Bool) : Nat :=
  match l with
  | [] => 0
  | x :: xs => if p x then 0 else find_if xs p + 1

/-- `const T& operator[](const std::string& name) const` called on `v`. -/
def named_const (M : Memory T) (v : Nat) (name : String) : Access T :=
  match deref M v with
  | none => .undefined
  | some d =>
    let it := find_if d.items fun element => element.2 == name
    if it = d.items.length then .throws (invalid_argument name)
    else
      match d.items[it]? with
      | some p => .ok p.1
      | none => .undefined

/-- `T& operator[](const std::string& name)` called on `v`: the memory after
`detach()` and the reference returned, to the object of the item found. -/
def named (M : Memory T) (v : Nat) (name : String) : Memory T × Access Ref :=
  let M := detach M v
  match dataOf M v, deref M v with
  | some a, some d =>
    let it := find_if d.items fun element => element.2 == name
    if it = d.items.length then (M, .throws (invalid_argument name))
    else (M, .ok { block := a, pos := it })
  | _, _ => (M, .undefined)

/-- `iterator begin()` called on `v`. -/
def begin_it (M : Memory T) (v : Nat) : Memory T × Access Ref :=
  let M := detach M v
  match dataOf M v with
  | some a => (M, .ok { block := a, pos := 0 })
  | none => (M, .undefined)

/-- `iterator end()` called on `v`. -/
def end_it (M : Memory T) (v : Nat) : Memory T × Access Ref :=
  let M := detach M v
  match dataOf M v with
  | some a => (M, .ok { block := a, pos := size M v })
  | none => (M, .undefined)

/-- The pair that a reference or iterator points to. -/
def read (M : Memory T) (r : Ref) : Option (T × String) :=
  match M.heap[r.block]? with
  | some d => d.items[r.pos]?
  | none => none

/-- An assignment through a reference or iterator. -/
def write (M : Memory T) (r : Ref) (val : T × String) : Memory T :=
  match M.heap[r.block]? with
  | some d => { M with heap := M.heap.set r.block { items := d.items.set r.pos val } }
  | none => M

/-- Every `m_data` that is not null points to a block. -/
def WF (M : Memory T) : Prop :=
  ∀ x ∈ M.objects, ∀ a ∈ x.m_data, a < M.heap.length

instance (M : Memory T) : Decidable (WF M) := by
  unfold WF; infer_instance

/-- A memory with two objects that share a block of three items, two of them
with the same name. -/
def sharedMemory : Memory Int :=
  copy_construct
    (push_back (push_back (push_back (construct { heap := [], objects := [] }) 0 10 "a")
      0 20 "b") 0 30 "a") 0

/-- An assignment to the object part through a `T&`. -/
def write_first (M : Memory T) (r : Ref) (obj : T) : Memory T :=
  match M.heap[r.block]? with
  | some d =>
    match d.items[r.pos]? with
    | some p => { M with heap := M.heap.set r.block { items := d.items.set r.pos (obj, p.2) } }
    | none => M
  | none => M

/-- The mutating operations on a `MyVector`; a non-const `operator[]`, `begin()`
or `end()` comes with the assignment made through what it returns. -/
inductive Mutation (T : Type) where
  /-- `v.push_back(obj, name)` -/
  | push_back (obj : T) (name : String)
  /-- `v.clear()` -/
  | clear
  /-- `v.reserve(new_cap)` -/
  | reserve (new_cap : Nat)
  /-- `v[index] = val` -/
  | subscript_write (index : Nat) (val : T × String)
  /-- `v[name] = obj` -/
  | named_write (name : String) (obj : T)
  /-- `*(v.begin() + k) = val` -/
  | begin_write (k : Nat) (val : T × String)
  /-- `v.begin()`, the iterator not written through -/
  | begin_call
  /-- `v.end()` -/
  | end_call

/-- The memory after the object `v` has gone through the mutation. -/
def mutate (M : Memory T) (v : Nat) : Mutation T → Memory T
  | .push_back obj name => push_back M v obj name
  | .clear => clear M v
  | .reserve new_cap => reserve M v new_cap
  | .subscript_write index val =>
    match subscript M v index with
    | (M', .ok r) => write M' r val
    | (M', _) => M'
  | .named_write name obj =>
    match named M v name with
    | (M', .ok r) => write_first M' r obj
    | (M', _) => M'
  | .begin_write k val =>
    match begin_it M v with
    | (M', .ok r) => write M' { r with pos := r.pos + k } val
    | (M', _) => M'
  | .begin_call => (begin_it M v).1
  | .end_call => (end_it M v).1

/-- The memory after the object `v` has gone through the mutations in turn. -/
def mutateAll (M : Memory T) (v : Nat) : List (Mutation T) → Memory T
  | [] => M
  | m :: ms => mutateAll (mutate M v m) v ms

/-- The object `v` given a new block with the items `l`. -/
def realloc (M : Memory T) (v : Nat) (l : List (T × String)) : Memory T :=
  { heap := M.heap ++ [{ items := l }],
    objects := M.objects.set v { m_data := some M.heap.length } }

/-- The block at `a` replaced. -/
def setBlock (M : Memory T) (a : Nat) (blk : MyVectorData T) : Memory T :=
  { M with heap := M.heap.set a blk }

end MyVector

end CodeReview

/-!
# Report generators: CSV escaping and the factory

A shallow embedding of `CsvReportGenerator::escapeCsv` (`HW#1/CsvReportGenerator.cpp`)
and of `ReportGeneratorFactory::createReportGenerator`
(`HW#1/ReportGeneratorFactory.cpp`).  A `std::string` is the list of its
`char`s.
-/

namespace Report

/-- The `char` with the given code. -/
abbrev chr (code : Nat) : Char := Char.ofNat code

/-- The double quote. -/
abbrev dquote : Char := chr 34

/-- The comma. -/
abbrev comma : Char := chr 44

/-- The newline, `\n`. -/
abbrev newline : Char := chr 10

/-- `std::string::find_first_of(chars)`: the position of the first `char` of
`input` that is one of `chars`; `none` is `std::string::npos`. -/
def find_first_of : List Char → List Char → Option Nat
  | [], _ => none
  | c :: cs, chars => if c ∈ chars then some 0 else (find_first_of cs chars).map (· + 1)

/-- `CsvReportGenerator::escapeCsv(const std::string& input)`. -/
def escapeCsv (input : List Char) : List Char :=
  -- if (input.find_first_of(",\"\n") == std::string::npos) return input;
  if find_first_of input [comma, dquote, newline] = none then input
  else
    -- ss << '"';
    let ss : List Char := [dquote]
    -- for (char c : input) { if (c == '"') ss << "\"\""; else ss << c; }
    let ss := input.foldl (fun ss c => if c = dquote then ss ++ [dquote, dquote] else ss ++ [c]) ss
    -- ss << '"'; return ss.str();
    ss ++ [dquote]

/-- The string with every double quote replaced by two double quotes. -/
def doubleQuotes (s : List Char) : List Char :=
  s.flatMap fun c => if c = dquote then [dquote, dquote] else [c]

/-- Each doubled double quote replaced by one, from left to right. -/
def undouble : List Char → List Char
  | a :: b :: cs =>
    if a = dquote ∧ b = dquote then dquote :: undouble cs else a :: undouble (b :: cs)
  | cs => cs

/-- The CSV field rule for reading a field back: a field that starts with a
double quote has its enclosing quotes removed and each doubled double quote
replaced by one; any other field is taken as it is.  The source has no
reader of CSV files: this is the rule that a reader of the report applies. -/
def decodeCsvField (field : List Char) : List Char :=
  match field with
  | [] => []
  | c :: rest => if c = dquote then undouble rest.dropLast else field

/-- The concrete generators that the factory makes. -/
inductive Generator where
  | TxtReportGenerator
  | CsvReportGenerator
  deriving DecidableEq, Repr

/-- `std::tolower(c)` for an `unsigned char c`, in the "C" locale (the program
does not call `setlocale`): the letters `A` to `Z` go to `a` to `z`, every
other `char` stays. -/
def tolower (c : Char) : Char :=
  if 65 ≤ c.toNat ∧ c.toNat ≤ 90 then Char.ofNat (c.toNat + 32) else c

/-- `static std::string toLower(std::string s)`: `std::transform` with
`std::tolower` over the string. -/
def toLower (s : List Char) : List Char :=
  s.map tolower

/-- `std::invalid_argument("Unsupported report format requested: " + formatType)`. -/
def unsupported (formatType : List Char) : ThreadPool.Exn :=
  .typed "std::invalid_argument"
    ("Unsupported report format requested: " ++ String.mk formatType)

/-- `ReportGeneratorFactory::createReportGenerator(const std::string& formatType)`. -/
def createReportGenerator (formatType : List Char) : Except ThreadPool.Exn Generator :=
  let lowerFormat := toLower formatType
  if lowerFormat = "txt".toList then .ok .TxtReportGenerator
  else if lowerFormat = "csv".toList then .ok .CsvReportGenerator
  else .error (unsupported formatType)

/-- Two `char`s are equal ignoring ASCII case: they are the same, or one is a
letter `A` to `Z` and the other the same letter in lower case. -/
def sameLetter (a b : Char) : Bool :=
  a == b || (65 ≤ a.toNat && a.toNat ≤ 90 && b.toNat == a.toNat + 32) ||
    (65 ≤ b.toNat && b.toNat ≤ 90 && a.toNat == b.toNat + 32)

/-- Two strings are equal ignoring ASCII case: same length, and equal
ignoring ASCII case position by position. -/
def eqIgnoreAsciiCase : List Char → List Char → Bool
  | [], [] => true
  | a :: as, b :: bs => sameLetter a b && eqIgnoreAsciiCase as bs
  | _, _ => false

end Report

/-!
# The echo server

A shallow embedding of the loop of `handle_client`
(`HW ~ Fundamentals of networking/server.cpp`): from what `recv` puts into the
buffer to the responses passed to `send`.  A `std::string` is the list of its
`char`s.  The connection is a stream of bytes; `recv` and `send` are taken not
to fail, so that the loop is left when the client has disconnected or
`g_running` is cleared.
-/

namespace EchoServer

/-- The terminating zero `'\0'`. -/
abbrev NUL : Char := Char.ofNat 0

/-- The newline `'\n'`. -/
abbrev LF : Char := Char.ofNat 10

/-- The carriage return `'\r'`. -/
abbrev CR : Char := Char.ofNat 13

/-- `constexpr int BUFFER_SIZE = 1024`. -/
def BUFFER_SIZE : Nat := 1024

/-- The call `recv(client_socket, buffer, len, 0)` on a stream socket, where
`pending` is what the client sends from now on until it disconnects and
`arrived` is how many of these bytes have reached the socket when the call
returns (the call blocks until there is one).  The call takes at most `len`
bytes; it gives the bytes written to the start of `buffer`, whose number is
the return value, and what is left of the stream.  Nothing pending: the client
has disconnected and the return value is 0. -/
def recv (pending : List Char) (arrived : Nat) (len : Nat) : List Char × List Char :=
  let count := min (max arrived 1) len
  (pending.take count, pending.drop count)

/-- `std::string message(buffer)`: the `char`s of `buffer` before the first
`'\0'`. -/
def message_of (buffer : List Char) : List Char :=
  buffer.takeWhile fun c => c != NUL

/-- The loop
`while (!message.empty() && (message.back() == '\n' || message.back() == '\r')) message.pop_back();`
run for at most `fuel` rounds. -/
def trimLoop : Nat → List Char → List Char
  | 0, message => message
  | fuel + 1, message =>
    match message.getLast? with
    | some back => if back = LF ∨ back = CR then trimLoop fuel message.dropLast else message
    | none => message

/-- The trimming loop of `handle_client`: it ends after at most
`message.length` rounds. -/
def trim (message : List Char) : List Char :=
  trimLoop message.length message

/-- The `response` for the trimmed `message`. -/
def respond (message : List Char) : List Char :=
  -- if (message == "hello") response = "world\n"; else response = message + "\n";
  if message = "hello".toList then "world".toList ++ [LF] else message ++ [LF]

/-- The loop `while (g_running)` of `handle_client`, on a connection on which
the client sends `pending` and then disconnects.  The first argument has one
entry for each call of `recv` that is made while `g_running` holds: how many
bytes have reached the socket by then.  The result is the responses passed to
`send`, in order. -/
def handle_client : List Nat → List Char → List (List Char)
  | [], _ => []
  | arrived :: arrivals, pending =>
    -- memset(buffer, 0, BUFFER_SIZE);
    -- ssize_t bytes_received = recv(client_socket, buffer, BUFFER_SIZE - 1, 0);
    let received := (recv pending arrived (BUFFER_SIZE - 1)).1
    let bytes_received := received.length
    -- if (bytes_received <= 0) { ... break; }
    if bytes_received ≤ 0 then []
    else
      -- buffer[bytes_received] = '\0'; std::string message(buffer);
      let message := message_of (received ++ [NUL])
      let message := trim message
      respond message :: handle_client arrivals (recv pending arrived (BUFFER_SIZE - 1)).2

/-- Whether the `char` is `'\n'` or `'\r'`. -/
def isLineEnd (c : Char) : Bool :=
  c == LF || c == CR

/-- The message with all trailing `'\n'` and `'\r'` removed. -/
def withoutLineEnd (message : List Char) : List Char :=
  message.rdropWhile isLineEnd

end EchoServer

/-! # SimpleThreadPool: proofs -/

namespace ThreadPool

namespace SimpleThreadPool

/-! ## Notifications -/

theorem notify_one_length (ws : List WorkerPc) (c : Nat) : (notify_one ws c).length = ws.length := by
  unfold notify_one; split <;> simp

theorem notify_all_length (ws : List WorkerPc) : (notify_all ws).length = ws.length := by
  simp [notify_all]

/-- A notification does not touch a thread that is not asleep. -/
theorem notify_one_keep (ws : List WorkerPc) (c i : Nat) (w : WorkerPc)
    (hr : w ≠ .ready) (hb : w ≠ .blocked) :
    (notify_one ws c)[i]? = some w ↔ ws[i]? = some w := by
  unfold notify_one
  split
  · rename_i h
    rw [List.getElem?_set]
    split
    · subst_vars
      rw [h]
      split <;> simp [hb, Ne.symm hr, Ne.symm hb]
    · rfl
  · rw [List.getElem?_set]
    split
    · rename_i h
      split
      · rename_i hlt
        have := List.getElem_indexOf hlt
        rw [← h, List.getElem?_eq_getElem hlt, this]
        simp [Ne.symm hr, Ne.symm hb]
      · rename_i hlt
        rw [← h, List.getElem?_eq_none (by omega)]
    · rfl

theorem notify_all_keep (ws : List WorkerPc) (i : Nat) (w : WorkerPc)
    (hr : w ≠ .ready) (hb : w ≠ .blocked) :
    (notify_all ws)[i]? = some w ↔ ws[i]? = some w := by
  unfold notify_all
  rw [List.getElem?_map]
  cases h : ws[i]? with
  | none => simp
  | some x =>
    simp only [Option.map_some', Option.some.injEq]
    by_cases hx : x = .blocked
    · subst hx; simp [Ne.symm hr, Ne.symm hb]
    · simp [hx]

theorem notify_all_awake (ws : List WorkerPc) : WorkerPc.blocked ∉ notify_all ws := by
  unfold notify_all
  simp only [List.mem_map, not_exists, not_and]
  intro x _
  by_cases hx : x = .blocked <;> simp [hx]

/-- After a notification of a non-empty set of workers one of them is awake. -/
theorem notify_one_awake (ws : List WorkerPc) (c : Nat) (h : ws ≠ []) :
    ∃ w ∈ notify_one ws c, w ≠ .blocked := by
  unfold notify_one
  split
  · rename_i hc
    have hlt : c < ws.length := by
      rcases List.getElem?_eq_some.1 hc with ⟨h1, _⟩; exact h1
    exact ⟨.ready, List.mem_set _ _ hlt _, by simp⟩
  · by_cases hb : WorkerPc.blocked ∈ ws
    · have hlt := List.indexOf_lt_length.2 hb
      exact ⟨.ready, List.mem_set _ _ hlt _, by simp⟩
    · have hge : ws.length ≤ List.indexOf WorkerPc.blocked ws := by
        by_contra hlt
        exact hb (List.indexOf_lt_length.1 (by omega))
      rw [List.set_eq_of_length_le hge]
      cases ws with
      | nil => exact absurd rfl h
      | cons w ws =>
        refine ⟨w, by simp, ?_⟩
        intro hw; subst hw; exact hb (by simp)

/-! ## The invariant -/

theorem spawn_length (n : Nat) : (spawn n).length = n := by simp [spawn]

theorem spawn_getElem? (n i : Nat) (t : Thread) (h : (spawn n)[i]? = some t) :
    t = { id := i, joinable := true } := by
  unfold spawn at h
  rw [List.getElem?_map] at h
  by_cases hi : i < n
  · rw [List.getElem?_range hi] at h
    simpa using h.symm
  · rw [List.getElem?_eq_none (by simpa using hi)] at h
    simp at h

theorem Inv_construct (n : Nat) : Inv n (construct n) := by
  by_cases hn : n = 0
  · subst hn
    constructor <;> simp [construct, ran]
  · have hpos : 0 < n := Nat.pos_of_ne_zero hn
    constructor <;> simp [construct, ran, hn, spawn_length, List.getElem?_replicate]
    · intro i t h; rw [spawn_getElem? n i t h]
    · intro i t h; rw [spawn_getElem? n i t h]
    · intro h
      have := spawn_length n
      rw [h] at this
      simp at this
      omega

theorem getElem?_set_some {α : Type} {ws : List α} {tid i : Nat} {x w : α}
    (h : tid < ws.length) :
    (ws.set tid x)[i]? = some w ↔ (i = tid ∧ w = x) ∨ (i ≠ tid ∧ ws[i]? = some w) := by
  rw [List.getElem?_set]
  by_cases hi : tid = i
  · subst hi; simp [h, eq_comm]
  · have : i ≠ tid := fun e => hi e.symm
    simp [hi, this]

theorem lt_of_getElem? {α : Type} {ws : List α} {i : Nat} {w : α} (h : ws[i]? = some w) :
    i < ws.length := by
  rcases List.getElem?_eq_some.1 h with ⟨h1, _⟩; exact h1

/-! ### The destruction of the queue -/

theorem abandon_fn (p : PackagedTask) : p.abandon.fn = p.fn := by
  unfold PackagedTask.abandon
  split <;> rfl

theorem abandon_of_ready {p : PackagedTask} (h : p.cell ≠ .notReady) : p.abandon = p := by
  unfold PackagedTask.abandon
  split
  · rename_i hc; exact absurd hc h
  · rfl

theorem abandon_of_notReady {p : PackagedTask} (h : p.cell = .notReady) :
    p.abandon.cell = .failure broken_promise := by
  unfold PackagedTask.abandon
  rw [h]

theorem abandon_abandon (p : PackagedTask) : p.abandon.abandon = p.abandon := by
  by_cases h : p.cell = .notReady
  · apply abandon_of_ready
    rw [abandon_of_notReady h]
    intro e; cases e
  · rw [abandon_of_ready h, abandon_of_ready h]

theorem destroyTasks_length (heap : List PackagedTask) (tasks : List Nat) :
    (destroyTasks heap tasks).length = heap.length := by
  induction tasks generalizing heap with
  | nil => rfl
  | cons a rest ih =>
    unfold destroyTasks
    split
    · rw [ih, List.length_set]
    · exact ih heap

/-- What the destruction of the queue leaves at an address: the packaged task
abandoned when its unit of work was in the queue, as it was otherwise. -/
theorem destroyTasks_getElem? (heap : List PackagedTask) (tasks : List Nat) (k : Nat) :
    (destroyTasks heap tasks)[k]? =
      heap[k]?.map fun p => if k ∈ tasks then p.abandon else p := by
  induction tasks generalizing heap with
  | nil =>
    simp only [destroyTasks, List.not_mem_nil, if_false]
    cases heap[k]? <;> rfl
  | cons a rest ih =>
    unfold destroyTasks
    split
    · rename_i p hp
      rw [ih]
      by_cases hka : k = a
      · subst hka
        rw [List.getElem?_set_self (lt_of_getElem? hp), hp]
        by_cases hm : k ∈ rest
        · simp [hm, abandon_abandon]
        · simp [hm]
      · rw [List.getElem?_set_ne (fun e => hka e.symm)]
        cases heap[k]? <;> simp [hka]
    · rename_i hp
      rw [ih]
      by_cases hka : k = a
      · subst hka
        rw [hp]; rfl
      · cases heap[k]? <;> simp [hka]

/-- A worker that has not exited belongs to a pool that is not destroyed. -/
theorem Inv.alive {n : Nat} {s : SimpleThreadPool} (h : Inv n s) {i : Nat} {w : WorkerPc}
    (hw : s.workers[i]? = some w) (hne : w ≠ .exited) : s.owner ≠ .destroyed := by
  intro ho
  have hn : 0 < n := by
    have := lt_of_getElem? hw
    rw [h.nworkers] at this
    omega
  exact hne ((h.thr_empty (h.own_destroyed ho).2 hn).2 i w hw)

/-- A pool with a worker is destroyed with an empty queue. -/
theorem Inv.drained {n : Nat} {s : SimpleThreadPool} (h : Inv n s) (hn : 0 < n)
    (ho : s.owner = .destroyed) : s.tasks = [] := by
  have hlt : 0 < s.workers.length := by rw [h.nworkers]; exact hn
  have hw := (h.thr_empty (h.own_destroyed ho).2 hn).2 0 _ (List.getElem?_eq_getElem hlt)
  exact (h.exit_stop ⟨0, by rw [List.getElem?_eq_getElem hlt, hw]⟩).2

/-- The shared state of a task that was not called and was not destroyed with
the queue is not ready. -/
theorem Inv.cell_idle {n : Nat} {s : SimpleThreadPool} (h : Inv n s) {a : Nat}
    {p : PackagedTask} (hp : s.heap[a]? = some p) (hr : a ∉ s.ran)
    (hq : s.owner = .destroyed → a ∉ s.tasks) : p.cell = .notReady := by
  by_cases ho : s.owner = .destroyed
  · rw [h.cell_gone ho a p hp hr, if_neg (hq ho)]
  · exact h.cell_wait ho a p hp hr

/-- Waking threads up keeps the invariant: `ws` differs from the workers of
`s` only in that some sleeping threads are now ready. -/
theorem Inv_wake {n : Nat} {s : SimpleThreadPool} (ws : List WorkerPc) (h : Inv n s)
    (hlen : ws.length = s.workers.length)
    (keep : ∀ (i : Nat) (w : WorkerPc), w ≠ .ready → w ≠ .blocked →
      (ws[i]? = some w ↔ s.workers[i]? = some w))
    (hblk : ∀ i : Nat, ws[i]? = some .blocked → s.workers[i]? = some .blocked)
    (haw : s.tasks ≠ [] → 0 < n → ∃ w ∈ ws, w ≠ .blocked) :
    Inv n { s with workers := ws } := by
  have kr : ∀ (i t : Nat), ws[i]? = some (.running t) ↔ s.workers[i]? = some (.running t) :=
    fun i t => keep i _ (by simp) (by simp)
  have ke : ∀ (i : Nat), ws[i]? = some .exited ↔ s.workers[i]? = some .exited :=
    fun i => keep i _ (by simp) (by simp)
  constructor <;> simp only [ran, kr, ke]
  all_goals try first
    | exact h.count | exact h.fifo | exact h.enq_lt | exact h.enq_nodup | exact h.all_enq
    | exact h.exe_deq | exact h.exe_nodup | exact h.cell_done | exact h.cell_wait | exact h.quiet
    | exact h.thr_len | exact h.thr_id | exact h.own_join | exact h.own_idle
    | exact h.own_destroyed | exact h.own_term | exact h.stop_idle | exact h.join_once
    | exact h.run_deq | exact h.run_fresh | exact h.run_inj | exact h.deq_cases
    | exact h.exit_stop | exact h.thr_done | exact h.join_thr | exact h.cell_gone
  case nworkers => rw [hlen]; exact h.nworkers
  case stop_awake => exact fun hs i hi => h.stop_awake hs i (hblk i hi)
  case awake => exact haw
  case thr_empty =>
    intro ht hn
    refine ⟨(h.thr_empty ht hn).1, ?_⟩
    intro i w hw
    have hi : i < s.workers.length := hlen ▸ lt_of_getElem? hw
    have hx : s.workers[i]? = some .exited := by
      have := (h.thr_empty ht hn).2 i s.workers[i] (List.getElem?_eq_getElem hi)
      rw [List.getElem?_eq_getElem hi, this]
    have := (ke i).2 hx
    rw [hw] at this
    exact Option.some.inj this

theorem Inv_spuriousWake {n : Nat} {s s' : SimpleThreadPool} {tid : Nat}
    (h : Inv n s) (hs : s.spuriousWake tid = some s') : Inv n s' := by
  unfold spuriousWake at hs
  split at hs
  · rename_i hb
    have hlt := lt_of_getElem? hb
    simp only [Option.some.injEq] at hs
    subst hs
    apply Inv_wake _ h (by simp)
    · intro i w hr hbk
      rw [getElem?_set_some hlt]
      constructor
      · rintro (⟨_, rfl⟩ | ⟨_, h2⟩)
        · exact absurd rfl hr
        · exact h2
      · intro h2
        refine Or.inr ⟨?_, h2⟩
        rintro rfl
        rw [hb] at h2
        exact hbk (Option.some.inj h2).symm
    · intro i
      rw [getElem?_set_some hlt]
      rintro (⟨_, h2⟩ | ⟨_, h2⟩)
      · cases h2
      · exact h2
    · intro _ _; exact ⟨.ready, List.mem_set _ _ hlt _, by simp⟩
  · simp at hs

/-- A ready worker that goes to sleep or leaves `WorkOn` keeps the invariant. -/
theorem Inv_park {n : Nat} {s : SimpleThreadPool} {tid : Nat} (new : WorkerPc) (h : Inv n s)
    (hr : s.workers[tid]? = some .ready) (hq : s.tasks = [])
    (hnew : (new = .blocked ∧ s.stop = false) ∨ (new = .exited ∧ s.stop = true)) :
    Inv n { s with workers := s.workers.set tid new } := by
  have hlt := lt_of_getElem? hr
  have hnr : ∀ t : Nat, WorkerPc.running t ≠ new := by
    intro t e; rcases hnew with ⟨h1, _⟩ | ⟨h1, _⟩ <;> rw [h1] at e <;> cases e
  have hne : ∀ i : Nat, s.workers[i]? = some .exited → i ≠ tid := by
    rintro i hi rfl; rw [hr] at hi; cases hi
  constructor <;> simp only [ran, getElem?_set_some hlt, List.length_set]
  all_goals try first
    | exact h.count | exact h.nworkers | exact h.fifo | exact h.enq_lt | exact h.enq_nodup
    | exact h.all_enq | exact h.exe_deq | exact h.exe_nodup | exact h.cell_done
    | exact h.cell_wait | exact h.quiet | exact h.thr_len | exact h.thr_id | exact h.own_join
    | exact h.own_idle | exact h.own_destroyed | exact h.own_term | exact h.stop_idle
    | exact h.join_once | exact h.cell_gone
  case run_deq =>
    rintro i t (⟨_, e⟩ | ⟨_, hi⟩)
    · exact absurd e (hnr t)
    · exact h.run_deq i t hi
  case run_fresh =>
    rintro i t (⟨_, e⟩ | ⟨_, hi⟩)
    · exact absurd e (hnr t)
    · exact h.run_fresh i t hi
  case run_inj =>
    rintro i j t (⟨_, e⟩ | ⟨_, hi⟩) (⟨_, e'⟩ | ⟨_, hj⟩)
    · exact absurd e (hnr t)
    · exact absurd e (hnr t)
    · exact absurd e' (hnr t)
    · exact h.run_inj i j t hi hj
  case deq_cases =>
    intro t ht
    rcases h.deq_cases t ht with h1 | ⟨i, hi⟩
    · exact Or.inl h1
    · refine Or.inr ⟨i, Or.inr ⟨?_, hi⟩⟩
      rintro rfl; rw [hr] at hi; cases hi
  case exit_stop =>
    rintro ⟨i, ⟨_, e⟩ | ⟨_, hi⟩⟩
    · rcases hnew with ⟨h1, _⟩ | ⟨_, h2⟩
      · rw [h1] at e; cases e
      · exact ⟨h2, hq⟩
    · exact h.exit_stop ⟨i, hi⟩
  case stop_awake =>
    intro hs i hi
    rcases (getElem?_set_some hlt).1 hi with ⟨_, e⟩ | ⟨_, hi⟩
    · rcases hnew with ⟨_, h2⟩ | ⟨h1, _⟩
      · rw [hs] at h2; cases h2
      · rw [h1] at e; cases e
    · exact h.stop_awake hs i hi
  case awake => intro hne; exact absurd hq hne
  case thr_done =>
    intro i t hi hj
    have := h.thr_done i t hi hj
    exact ⟨Or.inr ⟨hne i this.1, this.1⟩, this.2⟩
  case thr_empty =>
    intro ht hn
    have := (h.thr_empty ht hn).2 tid _ hr
    cases this
  case join_thr =>
    intro i hi
    have := h.join_thr i hi
    exact ⟨this.1, Or.inr ⟨hne i this.2, this.2⟩⟩

/-- A ready worker that takes the front of the queue keeps the invariant. -/
theorem Inv_take {n : Nat} {s : SimpleThreadPool} {tid t : Nat} {rest : List Nat} (h : Inv n s)
    (hr : s.workers[tid]? = some .ready) (hq : s.tasks = t :: rest) :
    Inv n { s with tasks := rest, dequeued := s.dequeued ++ [t],
                   workers := s.workers.set tid (.running t) } := by
  have hlt := lt_of_getElem? hr
  have hne : ∀ i : Nat, s.workers[i]? = some .exited → i ≠ tid := by
    rintro i hi rfl; rw [hr] at hi; cases hi
  have hfifo : s.dequeued ++ t :: rest = s.enqueued := hq ▸ h.fifo
  have hnd : (s.dequeued ++ t :: rest).Nodup := hfifo ▸ h.enq_nodup
  have htd : t ∉ s.dequeued := by
    intro hm
    exact (List.nodup_append.1 hnd).2.2 hm (List.mem_cons_self _ _)
  have htr : t ∉ s.ran := fun hm => htd (h.exe_deq t hm)
  have hnorun : ∀ i : Nat, s.workers[i]? ≠ some (.running t) :=
    fun i hi => htd (h.run_deq i t hi)
  constructor <;> simp only [ran, getElem?_set_some hlt, List.length_set]
  all_goals try first
    | exact h.count | exact h.nworkers | exact h.enq_lt | exact h.enq_nodup | exact h.all_enq
    | exact h.exe_nodup | exact h.cell_done | exact h.cell_wait | exact h.quiet | exact h.thr_len
    | exact h.thr_id | exact h.own_join | exact h.own_idle | exact h.own_destroyed
    | exact h.own_term | exact h.stop_idle | exact h.join_once
  case cell_gone => exact fun ho => absurd ho (h.alive hr (by simp))
  case fifo => rw [← hfifo]; simp
  case run_deq =>
    rintro i u (⟨_, e⟩ | ⟨_, hi⟩)
    · cases e; simp
    · exact List.mem_append_left _ (h.run_deq i u hi)
  case run_fresh =>
    rintro i u (⟨_, e⟩ | ⟨_, hi⟩)
    · cases e; exact htr
    · exact h.run_fresh i u hi
  case run_inj =>
    rintro i j u (⟨ei, e⟩ | ⟨_, hi⟩) (⟨ej, e'⟩ | ⟨_, hj⟩)
    · rw [ei, ej]
    · cases e; exact absurd hj (hnorun j)
    · cases e'; exact absurd hi (hnorun i)
    · exact h.run_inj i j u hi hj
  case exe_deq => exact fun u hu => List.mem_append_left _ (h.exe_deq u hu)
  case deq_cases =>
    intro u hu
    rcases List.mem_append.1 hu with hu | hu
    · rcases h.deq_cases u hu with h1 | ⟨i, hi⟩
      · exact Or.inl h1
      · refine Or.inr ⟨i, Or.inr ⟨?_, hi⟩⟩
        rintro rfl; rw [hr] at hi; cases hi
    · have : u = t := by simpa using hu
      subst this
      exact Or.inr ⟨tid, Or.inl ⟨rfl, rfl⟩⟩
  case exit_stop =>
    rintro ⟨i, ⟨_, e⟩ | ⟨_, hi⟩⟩
    · cases e
    · have := (h.exit_stop ⟨i, hi⟩).2
      rw [hq] at this; cases this
  case stop_awake =>
    intro hs i hi
    rcases (getElem?_set_some hlt).1 hi with ⟨_, e⟩ | ⟨_, hi⟩
    · cases e
    · exact h.stop_awake hs i hi
  case awake => intro _ _; exact ⟨_, List.mem_set _ _ hlt _, by simp⟩
  case thr_done =>
    intro i u hi hj
    have := h.thr_done i u hi hj
    exact ⟨Or.inr ⟨hne i this.1, this.1⟩, this.2⟩
  case thr_empty =>
    intro ht hn
    have := (h.thr_empty ht hn).2 tid _ hr
    cases this
  case join_thr =>
    intro i hi
    have := h.join_thr i hi
    exact ⟨this.1, Or.inr ⟨hne i this.2, this.2⟩⟩

/-- The three things the locked block of `WorkOn` can do. -/
theorem WorkOn_locked_cases {s s' : SimpleThreadPool} {tid : Nat}
    (hs : s.WorkOn_locked tid = some s') :
    s.workers[tid]? = some .ready ∧
    ((s.stop = false ∧ s.tasks = [] ∧ s' = { s with workers := s.workers.set tid .blocked }) ∨
     (s.stop = true ∧ s.tasks = [] ∧ s' = { s with workers := s.workers.set tid .exited }) ∨
     (∃ t rest, s.tasks = t :: rest ∧
        s' = { s with tasks := rest, dequeued := s.dequeued ++ [t],
                      workers := s.workers.set tid (.running t) })) := by
  unfold WorkOn_locked at hs
  by_cases hr : s.workers[tid]? = some .ready
  · refine ⟨hr, ?_⟩
    rw [if_pos hr] at hs
    cases hst : s.stop <;> cases hq : s.tasks <;>
      simp [waitOver, WorkOn_take, hst, hq] at hs <;> simp [hs.symm, hq] <;>
      exact ⟨_, _, ⟨rfl, rfl⟩, rfl, rfl, rfl⟩
  · rw [if_neg hr] at hs; cases hs

theorem Inv_WorkOn_locked {n : Nat} {s s' : SimpleThreadPool} {tid : Nat}
    (h : Inv n s) (hs : s.WorkOn_locked tid = some s') : Inv n s' := by
  obtain ⟨hr, ⟨h1, h2, rfl⟩ | ⟨h1, h2, rfl⟩ | ⟨t, rest, h2, rfl⟩⟩ := WorkOn_locked_cases hs
  · exact Inv_park _ h hr h2 (Or.inl ⟨rfl, h1⟩)
  · exact Inv_park _ h hr h2 (Or.inr ⟨rfl, h1⟩)
  · exact Inv_take h hr h2

/-- What `task()` does in `WorkOn`. -/
theorem WorkOn_run_cases {s s' : SimpleThreadPool} {tid : Nat}
    (hs : s.WorkOn_run tid = some s') :
    ∃ t, s.workers[tid]? = some (.running t) ∧
      s' = { s with heap := (invokeUnit s.heap t).1, executed := s.executed ++ [(t, tid)],
                    cerr := s.cerr ++ WorkOn_catch tid (invokeUnit s.heap t).2,
                    workers := s.workers.set tid .ready } := by
  unfold WorkOn_run at hs
  split at hs
  · rename_i t ht
    exact ⟨t, ht, by simpa using hs.symm⟩
  · cases hs

/-- A packaged task that a worker is about to call is on the heap and its
shared state is not ready: the call writes the outcome and throws nothing. -/
theorem invokeUnit_running {n : Nat} {s : SimpleThreadPool} {tid t : Nat} (h : Inv n s)
    (hr : s.workers[tid]? = some (.running t)) :
    ∃ p, s.heap[t]? = some p ∧ p.cell = .notReady ∧
      invokeUnit s.heap t = (s.heap.set t { p with cell := p.fn.outcome }, none) := by
  have hd : t ∈ s.dequeued := h.run_deq tid t hr
  have he : t ∈ s.enqueued := h.fifo ▸ List.mem_append_left _ hd
  have hlt : t < s.heap.length := h.enq_lt t he
  refine ⟨s.heap[t], List.getElem?_eq_getElem hlt, ?_, ?_⟩
  · exact h.cell_wait (h.alive hr (by simp)) t _ (List.getElem?_eq_getElem hlt)
      (h.run_fresh tid t hr)
  · have hc := h.cell_wait (h.alive hr (by simp)) t _ (List.getElem?_eq_getElem hlt)
      (h.run_fresh tid t hr)
    simp [invokeUnit, List.getElem?_eq_getElem hlt, PackagedTask.invoke, hc]

theorem Inv_WorkOn_run {n : Nat} {s s' : SimpleThreadPool} {tid : Nat}
    (h : Inv n s) (hs : s.WorkOn_run tid = some s') : Inv n s' := by
  obtain ⟨t, hr, rfl⟩ := WorkOn_run_cases hs
  obtain ⟨p, hp, hc, hinv⟩ := invokeUnit_running h hr
  have hlt := lt_of_getElem? hr
  have hpl := lt_of_getElem? hp
  have hne : ∀ i : Nat, s.workers[i]? = some .exited → i ≠ tid := by
    rintro i hi rfl; rw [hr] at hi; cases hi
  have htr : t ∉ s.ran := h.run_fresh tid t hr
  rw [hinv]
  constructor <;> simp only [ran, getElem?_set_some hlt, getElem?_set_some hpl, List.length_set,
    List.map_append, List.map_cons, List.map_nil, WorkOn_catch, List.append_nil]
  all_goals try first
    | exact h.count | exact h.nworkers | exact h.fifo | exact h.enq_lt | exact h.enq_nodup
    | exact h.all_enq | exact h.quiet | exact h.thr_len | exact h.thr_id | exact h.own_join
    | exact h.own_idle | exact h.own_destroyed | exact h.own_term | exact h.stop_idle
    | exact h.join_once
  case run_deq =>
    rintro i u (⟨_, e⟩ | ⟨_, hi⟩)
    · cases e
    · exact h.run_deq i u hi
  case run_fresh =>
    rintro i u (⟨_, e⟩ | ⟨hi', hi⟩)
    · cases e
    · intro hm
      rcases List.mem_append.1 hm with hm | hm
      · exact h.run_fresh i u hi hm
      · have : u = t := by simpa using hm
        subst this
        exact hi' (h.run_inj i tid u hi hr)
  case run_inj =>
    rintro i j u (⟨_, e⟩ | ⟨_, hi⟩) (⟨_, e'⟩ | ⟨_, hj⟩)
    · cases e
    · cases e
    · cases e'
    · exact h.run_inj i j u hi hj
  case exe_deq =>
    intro u hu
    rcases List.mem_append.1 hu with hu | hu
    · exact h.exe_deq u hu
    · have : u = t := by simpa using hu
      subst this
      exact h.run_deq tid u hr
  case deq_cases =>
    intro u hu
    rcases h.deq_cases u hu with h1 | ⟨i, hi⟩
    · exact Or.inl (List.mem_append_left _ h1)
    · by_cases hit : i = tid
      · subst hit
        rw [hr] at hi
        cases hi
        exact Or.inl (by simp)
      · exact Or.inr ⟨i, Or.inr ⟨hit, hi⟩⟩
  case exe_nodup =>
    have := h.exe_nodup
    simp only [ran] at this htr
    rw [List.nodup_append]
    refine ⟨this, by simp, ?_⟩
    intro a ha hb
    have : a = t := by simpa using hb
    subst this
    exact htr ha
  case cell_done =>
    rintro a q (⟨rfl, rfl⟩ | ⟨hat, ha⟩) hm
    · rfl
    · refine h.cell_done a q ha ?_
      rcases List.mem_append.1 hm with hm | hm
      · exact hm
      · exact absurd (by simpa using hm) hat
  case cell_wait =>
    rintro ho a q (⟨rfl, rfl⟩ | ⟨hat, ha⟩) hm
    · exact absurd (List.mem_append_right _ (List.mem_singleton_self _)) hm
    · exact h.cell_wait ho a q ha (fun hx => hm (List.mem_append_left _ hx))
  case cell_gone => exact fun ho => absurd ho (h.alive hr (by simp))
  case exit_stop =>
    rintro ⟨i, ⟨_, e⟩ | ⟨_, hi⟩⟩
    · cases e
    · exact h.exit_stop ⟨i, hi⟩
  case stop_awake =>
    intro hs i hi
    rcases (getElem?_set_some hlt).1 hi with ⟨_, e⟩ | ⟨_, hi⟩
    · cases e
    · exact h.stop_awake hs i hi
  case awake => intro _ _; exact ⟨_, List.mem_set _ _ hlt _, by simp⟩
  case thr_done =>
    intro i u hi hj
    have := h.thr_done i u hi hj
    exact ⟨Or.inr ⟨hne i this.1, this.1⟩, this.2⟩
  case thr_empty =>
    intro ht hn
    have := (h.thr_empty ht hn).2 tid _ hr
    cases this
  case join_thr =>
    intro i hi
    have := h.join_thr i hi
    exact ⟨this.1, Or.inr ⟨hne i this.2, this.2⟩⟩

theorem notify_one_blocked (ws : List WorkerPc) (c i : Nat)
    (h : (notify_one ws c)[i]? = some .blocked) : ws[i]? = some .blocked := by
  have key : ∀ k : Nat, (ws.set k .ready)[i]? = some .blocked → ws[i]? = some .blocked := by
    intro k hk
    rw [List.getElem?_set] at hk
    split at hk
    · split at hk <;> cases hk
    · exact hk
  unfold notify_one at h
  split at h
  · exact key _ h
  · exact key _ h

/-- A new packaged task on the heap keeps the invariant (the part of `Post`
before the lock). -/
theorem Inv_alloc {n : Nat} {s : SimpleThreadPool} (p : PackagedTask) (h : Inv n s)
    (hp : p.cell = .notReady) (hs : s.stop = true) :
    Inv n { s with heap := s.heap ++ [p] } := by
  have hran : ∀ a ∈ s.ran, a < s.heap.length := fun a ha =>
    h.enq_lt a (h.fifo ▸ List.mem_append_left _ (h.exe_deq a ha))
  constructor <;> simp only [ran, List.length_append, List.length_singleton]
  all_goals try first
    | exact h.count | exact h.nworkers | exact h.fifo | exact h.enq_nodup | exact h.exe_deq
    | exact h.exe_nodup | exact h.quiet | exact h.thr_len | exact h.thr_id | exact h.own_join
    | exact h.own_idle | exact h.own_destroyed | exact h.own_term | exact h.stop_idle
    | exact h.join_once | exact h.run_deq | exact h.run_fresh | exact h.run_inj
    | exact h.deq_cases | exact h.exit_stop | exact h.thr_done | exact h.join_thr
    | exact h.stop_awake | exact h.awake | exact h.thr_empty
  case enq_lt => exact fun a ha => Nat.lt_succ_of_lt (h.enq_lt a ha)
  case all_enq => intro h0; rw [hs] at h0; cases h0
  case cell_done =>
    intro a q hq ha
    have hlt := hran a ha
    rw [List.getElem?_append_left hlt] at hq
    exact h.cell_done a q hq ha
  case cell_wait =>
    intro ho a q hq ha
    by_cases hlt : a < s.heap.length
    · rw [List.getElem?_append_left hlt] at hq
      exact h.cell_wait ho a q hq ha
    · rw [List.getElem?_append_right (by omega)] at hq
      have hq' := List.getElem?_mem hq
      simp only [List.mem_singleton] at hq'
      rw [hq', hp]
  case cell_gone =>
    intro ho a q hq ha
    by_cases hlt : a < s.heap.length
    · rw [List.getElem?_append_left hlt] at hq
      exact h.cell_gone ho a q hq ha
    · rw [List.getElem?_append_right (by omega)] at hq
      have hq' := List.getElem?_mem hq
      simp only [List.mem_singleton] at hq'
      have hnt : a ∉ s.tasks := fun hm =>
        hlt (h.enq_lt a (h.fifo ▸ List.mem_append_right _ hm))
      rw [hq', hp, if_neg hnt]

/-- The locked block of `Post` on a running pool keeps the invariant, when a
worker is awake to take the new unit of work. -/
theorem Inv_enqueue {n : Nat} {s : SimpleThreadPool} (p : PackagedTask) (k : Nat) (h : Inv n s)
    (hp : p.cell = .notReady) (hs : s.stop = false)
    (haw : 0 < n → ∃ w ∈ s.workers, w ≠ .blocked) :
    Inv n { s with heap := s.heap ++ [p], tasks := s.tasks ++ [s.heap.length],
                   enqueued := s.enqueued ++ [s.heap.length], notifiedOne := k } := by
  have hran : ∀ a ∈ s.ran, a < s.heap.length := fun a ha =>
    h.enq_lt a (h.fifo ▸ List.mem_append_left _ (h.exe_deq a ha))
  constructor <;> simp only [ran, List.length_append, List.length_singleton]
  all_goals try first
    | exact h.count | exact h.nworkers | exact h.exe_deq | exact h.exe_nodup | exact h.quiet
    | exact h.thr_len | exact h.thr_id | exact h.own_join | exact h.own_idle
    | exact h.own_destroyed | exact h.own_term | exact h.stop_idle | exact h.join_once
    | exact h.run_deq | exact h.run_fresh | exact h.run_inj | exact h.deq_cases
    | exact h.thr_done | exact h.join_thr | exact h.stop_awake | exact h.thr_empty
  case fifo => rw [← List.append_assoc, h.fifo]
  case enq_lt =>
    intro a ha
    rcases List.mem_append.1 ha with ha | ha
    · exact Nat.lt_succ_of_lt (h.enq_lt a ha)
    · have : a = s.heap.length := by simpa using ha
      omega
  case enq_nodup =>
    rw [List.nodup_append]
    refine ⟨h.enq_nodup, by simp, ?_⟩
    intro a ha hb
    have : a = s.heap.length := by simpa using hb
    have := h.enq_lt a ha
    omega
  case all_enq => intro _; rw [List.range_succ, h.all_enq hs]
  case cell_done =>
    intro a q hq ha
    have hlt := hran a ha
    rw [List.getElem?_append_left hlt] at hq
    exact h.cell_done a q hq ha
  case cell_wait =>
    intro ho a q hq ha
    by_cases hlt : a < s.heap.length
    · rw [List.getElem?_append_left hlt] at hq
      exact h.cell_wait ho a q hq ha
    · rw [List.getElem?_append_right (by omega)] at hq
      have hq' := List.getElem?_mem hq
      simp only [List.mem_singleton] at hq'
      rw [hq', hp]
  case cell_gone =>
    intro ho
    have := (h.own_destroyed ho).1
    rw [hs] at this; cases this
  case exit_stop =>
    intro hx
    have := (h.exit_stop hx).1
    rw [hs] at this; cases this
  case awake => exact fun _ hn => haw hn

/-- The two outcomes of `Post`. -/
theorem Post_cases (s : SimpleThreadPool) (task : Callable) (choice : Nat) :
    (s.stop = true ∧ s.Post task choice =
      (.error (.typed "std::runtime_error" "Post on stopped SimpleThreadPool"),
       { s with heap := s.heap ++ [{ fn := task, cell := .notReady }] })) ∨
    (s.stop = false ∧ s.Post task choice =
      (.ok { state := some s.heap.length },
       { s with heap := s.heap ++ [{ fn := task, cell := .notReady }],
                tasks := s.tasks ++ [s.heap.length],
                enqueued := s.enqueued ++ [s.heap.length],
                workers := notify_one s.workers choice,
                notifiedOne := s.notifiedOne + 1 })) := by
  cases hs : s.stop
  · right; simp [Post, hs]
  · left; simp [Post, hs]

theorem Inv_Post {n : Nat} {s : SimpleThreadPool} (task : Callable) (choice : Nat)
    (h : Inv n s) : Inv n (s.Post task choice).2 := by
  rcases Post_cases s task choice with ⟨hs, he⟩ | ⟨hs, he⟩
  · rw [he]; exact Inv_alloc _ h rfl hs
  · rw [he]
    have h1 : Inv n { s with workers := notify_one s.workers choice } := by
      apply Inv_wake _ h (notify_one_length _ _)
      · intro i w hr hb; exact notify_one_keep _ _ _ _ hr hb
      · intro i hi
        exact notify_one_blocked _ _ _ hi
      · intro _ hn
        apply notify_one_awake
        intro he
        have := h.nworkers
        rw [he] at this
        simp at this; omega
    have := Inv_enqueue { fn := task, cell := .notReady } (s.notifiedOne + 1) h1 rfl hs (by
      intro hn
      apply notify_one_awake
      intro he
      have := h.nworkers
      rw [he] at this
      simp at this; omega)
    exact this

/-- Setting the stop flag on entry to `Destroy` keeps the invariant, when no
worker is asleep. -/
theorem Inv_stop {n : Nat} {s : SimpleThreadPool} (d : Bool) (k : Nat) (h : Inv n s)
    (ho : s.owner = .idle) (hb : ∀ i : Nat, s.workers[i]? ≠ some .blocked) :
    Inv n { s with stop := true, owner := .joining 0 d, notifiedAll := k } := by
  constructor <;> dsimp only [ran]
  all_goals try first
    | exact h.count | exact h.nworkers | exact h.fifo | exact h.enq_lt | exact h.enq_nodup
    | exact h.exe_deq | exact h.exe_nodup | exact h.cell_done | exact h.quiet
    | exact h.thr_len | exact h.thr_id | exact h.join_once | exact h.run_deq | exact h.run_fresh
    | exact h.run_inj | exact h.deq_cases | exact h.join_thr | exact h.awake
  case cell_wait => exact fun _ => h.cell_wait (by rw [ho]; simp)
  case cell_gone => intro he; cases he
  case all_enq => intro h0; cases h0
  case exit_stop => exact fun hx => ⟨rfl, (h.exit_stop hx).2⟩
  case stop_awake => exact fun _ => hb
  case thr_done =>
    intro i t hi hj
    obtain ⟨_, j, d', hj', _⟩ := h.thr_done i t hi hj
    rw [ho] at hj'; cases hj'
  case thr_empty => exact fun ht hn => ⟨rfl, (h.thr_empty ht hn).2⟩
  case own_join =>
    intro i d' he
    cases he
    exact ⟨rfl, Nat.zero_le _, fun j t hj => absurd hj (Nat.not_lt_zero _)⟩
  case own_idle => intro he; cases he
  case own_destroyed => intro he; cases he
  case own_term => intro he; cases he
  case stop_idle => intro he; cases he

/-- The two ways into `Destroy`. -/
theorem Destroy_enter_cases (s : SimpleThreadPool) (d : Bool) :
    (s.stop = true ∧ s.Destroy_enter d = { s with owner := .joining 0 d }) ∨
    (s.stop = false ∧ s.Destroy_enter d =
      { s with stop := true, workers := notify_all s.workers,
               notifiedAll := s.notifiedAll + 1, owner := .joining 0 d }) := by
  cases hs : s.stop
  · right; simp [Destroy_enter, hs]
  · left; simp [Destroy_enter, hs]

theorem Inv_Destroy_enter {n : Nat} {s : SimpleThreadPool} (d : Bool)
    (h : Inv n s) (ho : s.owner = .idle) : Inv n (s.Destroy_enter d) := by
  rcases Destroy_enter_cases s d with ⟨hs, he⟩ | ⟨hs, he⟩
  · rw [he]
    have := Inv_stop d s.notifiedAll h ho (h.stop_awake hs)
    rw [← hs] at this
    exact this
  · rw [he]
    have h1 : Inv n { s with workers := notify_all s.workers } := by
      apply Inv_wake _ h (notify_all_length _)
      · intro i w hr hb; exact notify_all_keep _ _ _ hr hb
      · intro i hi
        exact absurd (List.getElem?_mem hi) (notify_all_awake _)
      · intro _ hn
        have hl : 0 < (notify_all s.workers).length := by
          rw [notify_all_length, h.nworkers]; exact hn
        refine ⟨(notify_all s.workers)[0], List.getElem_mem _, ?_⟩
        intro hc
        exact notify_all_awake s.workers (hc ▸ List.getElem_mem hl)
    exact Inv_stop d (s.notifiedAll + 1) h1 ho
      (fun i hi => notify_all_awake s.workers (List.getElem?_mem hi))

/-- The three things an iteration of the join loop can do. -/
theorem Destroy_join_cases {s s' : SimpleThreadPool} {i : Nat} {d : Bool}
    (hs : s.Destroy_join i d = some s') :
    (∃ worker, s.threads[i]? = some worker ∧ worker.joinable = true ∧
      s.workers[worker.id]? = some .exited ∧
      s' = { s with threads := s.threads.set i { worker with joinable := false },
                    joined := s.joined ++ [worker.id], owner := .joining (i + 1) d }) ∨
    (∃ worker, s.threads[i]? = some worker ∧ worker.joinable = false ∧
      s' = { s with owner := .joining (i + 1) d }) ∨
    (s.threads[i]? = none ∧
      s' = { s with threads := [],
                    heap := if d then destroyTasks s.heap s.tasks else s.heap,
                    owner := if d then .destroyed else .idle }) := by
  unfold Destroy_join at hs
  split at hs
  · rename_i worker hw
    split at hs
    · rename_i hj
      split at hs
      · rename_i hx
        exact Or.inl ⟨worker, hw, hj, hx, by simpa using hs.symm⟩
      · cases hs
    · rename_i hj
      exact Or.inr (Or.inl ⟨worker, hw, by simpa using hj, by simpa using hs.symm⟩)
  · rename_i hw
    refine Or.inr (Or.inr ⟨hw, ?_⟩)
    cases d <;> simpa [destroy_members] using hs.symm

/-- The destruction of the members at the end of the destructor keeps the
invariant: the stop flag is set and no thread handle is left. -/
theorem Inv_destroy_members {n : Nat} {s : SimpleThreadPool} (h : Inv n s)
    (ho : s.owner ≠ .destroyed) (hs : s.stop = true) (ht : s.threads = []) :
    Inv n { s with heap := destroyTasks s.heap s.tasks, owner := .destroyed } := by
  constructor <;> dsimp only [ran]
  all_goals try first
    | exact h.count | exact h.nworkers | exact h.fifo | exact h.enq_nodup
    | exact h.exe_deq | exact h.exe_nodup | exact h.quiet | exact h.run_deq | exact h.run_fresh
    | exact h.run_inj | exact h.deq_cases | exact h.awake | exact h.exit_stop
    | exact h.stop_awake | exact h.join_once | exact h.thr_len | exact h.thr_id
    | exact h.thr_empty | exact h.join_thr
  case enq_lt =>
    intro a ha
    rw [destroyTasks_length]
    exact h.enq_lt a ha
  case all_enq => intro h0; rw [hs] at h0; cases h0
  case cell_done =>
    intro a q hq ha
    rw [destroyTasks_getElem?] at hq
    cases hp : s.heap[a]? with
    | none => rw [hp] at hq; cases hq
    | some p =>
      rw [hp] at hq
      simp only [Option.map_some', Option.some.injEq] at hq
      have hc := h.cell_done a p hp ha
      have hne : p.cell ≠ .notReady := by
        rw [hc]
        cases p.fn <;> simp [Callable.outcome]
      rw [abandon_of_ready hne, ite_self] at hq
      rw [← hq]; exact hc
  case cell_wait => intro he; exact absurd rfl he
  case cell_gone =>
    intro _ a q hq ha
    rw [destroyTasks_getElem?] at hq
    cases hp : s.heap[a]? with
    | none => rw [hp] at hq; cases hq
    | some p =>
      rw [hp] at hq
      simp only [Option.map_some', Option.some.injEq] at hq
      have hc := h.cell_wait ho a p hp ha
      by_cases hm : a ∈ s.tasks
      · rw [if_pos hm] at hq
        rw [if_pos hm, ← hq, abandon_of_notReady hc]
      · rw [if_neg hm] at hq
        rw [if_neg hm, ← hq, hc]
  case thr_done => intro k t hk; rw [ht] at hk; simp at hk
  case own_join => intro j d' he; cases he
  case own_idle => intro he; cases he
  case own_destroyed => exact fun _ => ⟨hs, ht⟩
  case own_term => intro he; cases he
  case stop_idle => intro he; rw [hs] at he; cases he

theorem Inv_Destroy_join {n : Nat} {s s' : SimpleThreadPool} {i : Nat} {d : Bool}
    (h : Inv n s) (ho : s.owner = .joining i d) (hs : s.Destroy_join i d = some s') :
    Inv n s' := by
  obtain ⟨hstop, hile, hprev⟩ := h.own_join i d ho
  rcases Destroy_join_cases hs with ⟨w, hw, hj, hx, rfl⟩ | ⟨w, hw, hj, rfl⟩ | ⟨hw, rfl⟩
  · have hlt := lt_of_getElem? hw
    have hid : w.id = i := h.thr_id i w hw
    rw [hid] at hx
    constructor <;> simp only [ran, getElem?_set_some hlt, List.length_set, hid]
    all_goals try first
      | exact h.count | exact h.nworkers | exact h.fifo | exact h.enq_lt | exact h.enq_nodup
      | exact h.all_enq | exact h.exe_deq | exact h.exe_nodup | exact h.cell_done
      | exact h.quiet | exact h.run_deq | exact h.run_fresh | exact h.run_inj
      | exact h.deq_cases | exact h.awake | exact h.exit_stop | exact h.stop_awake
    case cell_wait => exact fun _ => h.cell_wait (by rw [ho]; simp)
    case cell_gone => intro he; cases he
    case thr_len =>
      rcases h.thr_len with h0 | h0
      · rw [h0] at hlt; cases hlt
      · exact Or.inr h0
    case thr_id =>
      rintro k t (⟨rfl, rfl⟩ | ⟨_, hk⟩)
      · rfl
      · exact h.thr_id k t hk
    case thr_done =>
      rintro k t (⟨rfl, rfl⟩ | ⟨_, hk⟩) hjn
      · exact ⟨hx, k + 1, d, rfl, Nat.lt_succ_self _⟩
      · obtain ⟨h1, j, d', hj', hlt'⟩ := h.thr_done k t hk hjn
        rw [ho] at hj'; cases hj'
        exact ⟨h1, _, _, rfl, Nat.lt_succ_of_lt hlt'⟩
    case thr_empty =>
      intro h0
      have := congrArg List.length h0
      rw [List.length_set, List.length_nil] at this
      omega
    case own_join =>
      intro j d' he
      cases he
      refine ⟨hstop, hlt, ?_⟩
      rintro k t hk (⟨rfl, rfl⟩ | ⟨hne, hk'⟩)
      · rfl
      · exact hprev k t (by omega) hk'
    case own_idle => intro he; cases he
    case own_destroyed => intro he; cases he
    case own_term => intro he; cases he
    case stop_idle => intro he; rw [hstop] at he; cases he
    case join_once =>
      rw [List.nodup_append]
      refine ⟨h.join_once, by simp, ?_⟩
      intro a ha hb
      have : a = i := by simpa using hb
      subst this
      have := (h.join_thr a ha).1 w hw
      rw [hj] at this; cases this
    case join_thr =>
      intro k hk
      rcases List.mem_append.1 hk with hk | hk
      · refine ⟨?_, (h.join_thr k hk).2⟩
        rintro t (⟨rfl, rfl⟩ | ⟨_, hk'⟩)
        · rfl
        · exact (h.join_thr k hk).1 t hk'
      · have : k = i := by simpa using hk
        subst this
        refine ⟨?_, hx⟩
        rintro t (⟨_, rfl⟩ | ⟨hne, _⟩)
        · rfl
        · exact absurd rfl hne
  · have hlt := lt_of_getElem? hw
    constructor <;> simp only [ran]
    all_goals try first
      | exact h.count | exact h.nworkers | exact h.fifo | exact h.enq_lt | exact h.enq_nodup
      | exact h.all_enq | exact h.exe_deq | exact h.exe_nodup | exact h.cell_done
      | exact h.quiet | exact h.run_deq | exact h.run_fresh | exact h.run_inj
      | exact h.deq_cases | exact h.awake | exact h.exit_stop | exact h.stop_awake
      | exact h.thr_len | exact h.thr_id | exact h.thr_empty | exact h.join_once
      | exact h.join_thr
    case cell_wait => exact fun _ => h.cell_wait (by rw [ho]; simp)
    case cell_gone => intro he; cases he
    case thr_done =>
      intro k t hk hjn
      obtain ⟨h1, j, d', hj', hlt'⟩ := h.thr_done k t hk hjn
      rw [ho] at hj'; cases hj'
      exact ⟨h1, _, _, rfl, Nat.lt_succ_of_lt hlt'⟩
    case own_join =>
      intro j d' he
      cases he
      refine ⟨hstop, hlt, ?_⟩
      intro k t hk hk'
      by_cases hki : k = i
      · subst hki; rw [hw] at hk'; cases hk'; exact hj
      · exact hprev k t (by omega) hk'
    case own_idle => intro he; cases he
    case own_destroyed => intro he; cases he
    case own_term => intro he; cases he
    case stop_idle => intro he; rw [hstop] at he; cases he
  · have hge : s.threads.length ≤ i := by
      by_contra hlt
      rw [List.getElem?_eq_getElem (by omega)] at hw
      cases hw
    have hall : 0 < n → ∀ (k : Nat) (w : WorkerPc), s.workers[k]? = some w → w = .exited := by
      intro hn k w hk
      rcases h.thr_len with h0 | h0
      · exact (h.thr_empty h0 hn).2 k w hk
      · have hkn : k < s.threads.length := by
          rw [h0, ← h.nworkers]; exact lt_of_getElem? hk
        have hj := hprev k s.threads[k] (by omega) (List.getElem?_eq_getElem hkn)
        have := (h.thr_done k _ (List.getElem?_eq_getElem hkn) hj).1
        rw [hk] at this
        exact Option.some.inj this
    have hidle : Inv n { s with threads := [], owner := .idle } := by
      constructor <;> dsimp only [ran]
      all_goals try first
        | exact h.count | exact h.nworkers | exact h.fifo | exact h.enq_lt | exact h.enq_nodup
        | exact h.all_enq | exact h.exe_deq | exact h.exe_nodup | exact h.cell_done
        | exact h.quiet | exact h.run_deq | exact h.run_fresh | exact h.run_inj
        | exact h.deq_cases | exact h.awake | exact h.exit_stop | exact h.stop_awake
        | exact h.join_once
      case cell_wait => exact fun _ => h.cell_wait (by rw [ho]; simp)
      case cell_gone => intro he; cases he
      case thr_len => exact Or.inl rfl
      case thr_id => intro k t hk; simp at hk
      case thr_done => intro k t hk; simp at hk
      case thr_empty => exact fun _ hn => ⟨hstop, hall hn⟩
      case own_join => intro j d' he; cases he
      case own_idle => exact fun _ _ => rfl
      case own_destroyed => intro he; cases he
      case own_term => intro he; cases he
      case stop_idle => intro he; rw [hstop] at he; cases he
      case join_thr =>
        intro k hk
        exact ⟨by intro t ht; simp at ht, (h.join_thr k hk).2⟩
    cases d with
    | false => simpa using hidle
    | true => simpa using Inv_destroy_members hidle (by simp) hstop rfl

/-- The destructor of a stopped pool, the owner outside `Destroy`. -/
theorem destructor_stopped {n : Nat} {s : SimpleThreadPool}
    (h : Inv n s) (ho : s.owner = .idle) (hs : s.stop = true) :
    s.destructor = { s with heap := destroyTasks s.heap s.tasks, owner := .destroyed } := by
  simp [destructor, destroy_members, hs, h.own_idle ho hs]

theorem Inv_destructor {n : Nat} {s : SimpleThreadPool}
    (h : Inv n s) (ho : s.owner = .idle) : Inv n s.destructor := by
  cases hs : s.stop
  · simpa [destructor, hs] using Inv_Destroy_enter true h ho
  · rw [destructor_stopped h ho hs]
    exact Inv_destroy_members h (by rw [ho]; simp) hs (h.own_idle ho hs)

theorem Inv_step {n : Nat} {s s' : SimpleThreadPool} {a : Action}
    (h : Inv n s) (hs : s.step a = some s') : Inv n s' := by
  cases a with
  | post task choice =>
    simp only [step] at hs
    split at hs
    · cases hs; exact Inv_Post _ _ h
    · cases hs
  | destroy =>
    simp only [step] at hs
    split at hs
    · rename_i ho; cases hs; exact Inv_Destroy_enter _ h ho
    · cases hs
  | join =>
    simp only [step] at hs
    split at hs
    · rename_i i d ho; exact Inv_Destroy_join h ho hs
    · cases hs
  | destruct =>
    simp only [step] at hs
    split at hs
    · rename_i ho; cases hs; exact Inv_destructor h ho
    · cases hs
  | lock tid => exact Inv_WorkOn_locked h hs
  | run tid => exact Inv_WorkOn_run h hs
  | spurious tid => exact Inv_spuriousWake h hs

theorem Inv_exec {n : Nat} {s s' : SimpleThreadPool} {as : List Action}
    (h : Inv n s) (hs : s.exec as = some s') : Inv n s' := by
  induction as generalizing s with
  | nil => cases hs; exact h
  | cons a as ih =>
    simp only [exec] at hs
    split at hs
    · rename_i s1 h1; exact ih (Inv_step h h1) hs
    · cases hs

theorem Inv_reachable {n : Nat} {s : SimpleThreadPool} (h : Reachable n s) : Inv n s := by
  obtain ⟨as, has⟩ := h
  exact Inv_exec (Inv_construct n) has

theorem Later.refl (s : SimpleThreadPool) : Later s s :=
  ⟨fun _ p h => ⟨p, h, rfl⟩, Nat.le_refl _, fun _ h => h, fun _ h => Or.inl h,
   fun h => h, fun _ h => h⟩

theorem Later.trans {s1 s2 s3 : SimpleThreadPool} (h : Later s1 s2) (h' : Later s2 s3) :
    Later s1 s3 := by
  refine ⟨?_, Nat.le_trans h.heap_len h'.heap_len, fun a ha => h'.enq_old a (h.enq_old a ha),
    ?_, fun hs => h'.stop_mono (h.stop_mono hs), fun a ha => h'.ran_mono a (h.ran_mono a ha)⟩
  · intro a p hp
    obtain ⟨p2, hp2, e2⟩ := h.heap_fn a p hp
    obtain ⟨p3, hp3, e3⟩ := h'.heap_fn a p2 hp2
    exact ⟨p3, hp3, e3.trans e2⟩
  · intro a ha
    rcases h'.enq_new a ha with h1 | h1
    · exact h.enq_new a h1
    · exact Or.inr (Nat.le_trans h.heap_len h1)

/-- A step that leaves the heap, the accepted tasks and the executed tasks
alone and does not clear the stop flag. -/
theorem Later.of_same {s s' : SimpleThreadPool} (hh : s'.heap = s.heap)
    (he : s'.enqueued = s.enqueued) (hx : s'.executed = s.executed)
    (hs : s.stop = true → s'.stop = true) : Later s s' := by
  refine ⟨fun a p h => ⟨p, hh ▸ h, rfl⟩, by rw [hh], fun a h => he ▸ h,
    fun a h => Or.inl (he ▸ h), hs, fun a h => ?_⟩
  simp only [ran] at h ⊢
  rw [hx]; exact h

theorem destroyTasks_map_fn (heap : List PackagedTask) (tasks : List Nat) :
    (destroyTasks heap tasks).map (·.fn) = heap.map (·.fn) := by
  apply List.ext_getElem?
  intro k
  rw [List.getElem?_map, List.getElem?_map, destroyTasks_getElem?]
  cases heap[k]? with
  | none => rfl
  | some p =>
    simp only [Option.map_some', Option.some.injEq]
    split
    · exact abandon_fn p
    · rfl

/-- The destruction of the queue is a step that only abandons shared states. -/
theorem Later.of_destroy {s s' : SimpleThreadPool}
    (hh : s'.heap = destroyTasks s.heap s.tasks ∨ s'.heap = s.heap)
    (he : s'.enqueued = s.enqueued) (hx : s'.executed = s.executed)
    (hs : s.stop = true → s'.stop = true) : Later s s' := by
  rcases hh with hh | hh
  · refine ⟨fun a p h => ?_, by rw [hh, destroyTasks_length], fun a h => he ▸ h,
      fun a h => Or.inl (he ▸ h), hs, fun a h => ?_⟩
    · rw [hh, destroyTasks_getElem?, h]
      simp only [Option.map_some', Option.some.injEq, exists_eq_left']
      split
      · exact abandon_fn p
      · rfl
    · simp only [ran] at h ⊢
      rw [hx]; exact h
  · exact Later.of_same hh he hx hs

theorem Later_Post (s : SimpleThreadPool) (task : Callable) (choice : Nat) :
    Later s (s.Post task choice).2 := by
  rcases Post_cases s task choice with ⟨_, he⟩ | ⟨_, he⟩ <;> rw [he]
  · refine ⟨fun a p h => ⟨p, ?_, rfl⟩, by simp, fun a h => h, fun a h => Or.inl h,
      fun h => h, fun a h => h⟩
    dsimp only
    rw [List.getElem?_append_left (lt_of_getElem? h)]; exact h
  · refine ⟨fun a p h => ⟨p, ?_, rfl⟩, by simp, fun a h => List.mem_append_left _ h, ?_,
      fun h => h, fun a h => h⟩
    · dsimp only
      rw [List.getElem?_append_left (lt_of_getElem? h)]; exact h
    · intro a ha
      rcases List.mem_append.1 ha with ha | ha
      · exact Or.inl ha
      · exact Or.inr (by simp at ha; omega)

theorem Later_step {s s' : SimpleThreadPool} {a : Action} (hs : s.step a = some s') :
    Later s s' := by
  cases a with
  | post task choice =>
    simp only [step] at hs
    split at hs
    · cases hs; exact Later_Post _ _ _
    · cases hs
  | destroy =>
    simp only [step] at hs
    split at hs
    · cases hs
      rcases Destroy_enter_cases s false with ⟨_, he⟩ | ⟨_, he⟩ <;> rw [he] <;>
        exact Later.of_same rfl rfl rfl (by simp)
    · cases hs
  | join =>
    simp only [step] at hs
    split at hs
    · rename_i i d ho
      rcases Destroy_join_cases hs with ⟨w, _, _, _, rfl⟩ | ⟨w, _, _, rfl⟩ | ⟨_, rfl⟩
      · exact Later.of_same rfl rfl rfl (fun h => h)
      · exact Later.of_same rfl rfl rfl (fun h => h)
      · cases d
        · exact Later.of_same rfl rfl rfl (fun h => h)
        · exact Later.of_destroy (Or.inl rfl) rfl rfl (fun h => h)
    · cases hs
  | destruct =>
    simp only [step] at hs
    split at hs
    · cases hs
      unfold destructor destroy_members
      split
      · rcases Destroy_enter_cases s true with ⟨_, he⟩ | ⟨_, he⟩ <;> rw [he] <;>
          exact Later.of_same rfl rfl rfl (by simp)
      · dsimp only
        split <;> exact Later.of_destroy (Or.inl rfl) rfl rfl (fun h => h)
    · cases hs
  | lock tid =>
    obtain ⟨_, ⟨_, _, rfl⟩ | ⟨_, _, rfl⟩ | ⟨t, rest, _, rfl⟩⟩ := WorkOn_locked_cases hs <;>
      exact Later.of_same rfl rfl rfl (fun h => h)
  | run tid =>
    obtain ⟨t, _, rfl⟩ := WorkOn_run_cases hs
    refine ⟨?_, ?_, fun a h => h, fun a h => Or.inl h, fun h => h, ?_⟩
    · intro a p hp
      dsimp only [invokeUnit]
      split
      · rename_i q hq
        dsimp only
        by_cases hat : t = a
        · subst hat
          rw [hp] at hq; cases hq
          refine ⟨p.invoke.1, by simp [List.getElem?_set, lt_of_getElem? hp], ?_⟩
          unfold PackagedTask.invoke
          split <;> rfl
        · exact ⟨p, by rw [List.getElem?_set_ne hat]; exact hp, rfl⟩
      · exact ⟨p, hp, rfl⟩
    · dsimp only [invokeUnit]
      split <;> simp
    · intro a ha
      simp only [ran, List.map_append] at ha ⊢
      exact List.mem_append_left _ ha
  | spurious tid =>
    simp only [step, spuriousWake] at hs
    split at hs
    · cases hs; exact Later.of_same rfl rfl rfl (fun h => h)
    · cases hs

theorem Later_exec {s s' : SimpleThreadPool} {as : List Action} (hs : s.exec as = some s') :
    Later s s' := by
  induction as generalizing s with
  | nil => cases hs; exact Later.refl _
  | cons a as ih =>
    simp only [exec] at hs
    split at hs
    · rename_i s1 h1; exact (Later_step h1).trans (ih hs)
    · cases hs

theorem Reachable.exec {n : Nat} {s s' : SimpleThreadPool} {as : List Action}
    (h : Reachable n s) (hs : s.exec as = some s') : Reachable n s' := by
  obtain ⟨bs, hbs⟩ := h
  refine ⟨bs ++ as, ?_⟩
  have key : ∀ (l : List Action) (u v : SimpleThreadPool), u.exec l = some v →
      u.exec (l ++ as) = v.exec as := by
    intro l
    induction l with
    | nil => intro u v h; cases h; rfl
    | cons a l ih =>
      intro u v h
      simp only [SimpleThreadPool.exec, List.cons_append] at h ⊢
      split at h
      · rename_i u1 hu1; exact ih u1 v h
      · cases h
  rw [key bs _ _ hbs, hs]

theorem Reachable.step {n : Nat} {s s' : SimpleThreadPool} {a : Action}
    (h : Reachable n s) (hs : s.step a = some s') : Reachable n s' := by
  apply h.exec
  show s.exec [a] = some s'
  simp only [SimpleThreadPool.exec, hs]

/-! ## Submission -/

/-- C1: on a pool whose stop flag is set, `Post` throws
`std::runtime_error("Post on stopped SimpleThreadPool")` and returns no
future; the queue, the stop flag, the worker threads and their handles are as
before; and in every later state the rejected packaged task (at the address
`s.heap.length`, holding `task`) is not queued, has not been dequeued or
executed, is not being run by a worker, and its shared state is not ready. -/
theorem Post_stopped_rejects (n : Nat) (s : SimpleThreadPool) (task : Callable) (choice : Nat)
    (hr : Reachable n s) (hs : s.stop = true) :
    (s.Post task choice).1 =
        .error (.typed "std::runtime_error" "Post on stopped SimpleThreadPool") ∧
      (s.Post task choice).2.tasks = s.tasks ∧
      (s.Post task choice).2.stop = s.stop ∧
      (s.Post task choice).2.workers = s.workers ∧
      (s.Post task choice).2.threads = s.threads ∧
      ∀ (as : List Action) (s' : SimpleThreadPool),
        (s.Post task choice).2.exec as = some s' →
        s.heap.length ∉ s'.tasks ∧ s.heap.length ∉ s'.dequeued ∧ s.heap.length ∉ s'.ran ∧
        (∀ i : Nat, s'.workers[i]? ≠ some (.running s.heap.length)) ∧
        ∃ p, s'.heap[s.heap.length]? = some p ∧ p.fn = task ∧ p.cell = .notReady := by
  have hinv := Inv_reachable hr
  rcases Post_cases s task choice with ⟨_, he⟩ | ⟨h0, _⟩
  · refine ⟨by rw [he], by rw [he], by rw [he], by rw [he], by rw [he], ?_⟩
    intro as s' hx
    have hinv1 : Inv n (s.Post task choice).2 := Inv_Post task choice hinv
    have hinv' : Inv n s' := Inv_exec hinv1 hx
    have hl := Later_exec hx
    rw [he] at hl
    have hne : s.heap.length ∉ s'.enqueued := by
      intro hm
      rcases hl.enq_new _ hm with h1 | h1
      · exact Nat.lt_irrefl _ (hinv.enq_lt _ h1)
      · simp at h1
    have hnd : s.heap.length ∉ s'.dequeued :=
      fun hm => hne (hinv'.fifo ▸ List.mem_append_left _ hm)
    have hnr : s.heap.length ∉ s'.ran := fun hm => hnd (hinv'.exe_deq _ hm)
    refine ⟨fun hm => hne (hinv'.fifo ▸ List.mem_append_right _ hm), hnd, hnr,
      fun i hi => hnd (hinv'.run_deq i _ hi), ?_⟩
    obtain ⟨p, hp, hf⟩ := hl.heap_fn s.heap.length { fn := task, cell := .notReady }
      (by simp)
    exact ⟨p, hp, hf, hinv'.cell_idle hp hnr
      (fun _ hm => hne (hinv'.fifo ▸ List.mem_append_right _ hm))⟩
  · rw [hs] at h0; cases h0

theorem Post_stopped_rejects_witness :
    Reachable 1 stoppedPool ∧ stoppedPool.stop = true ∧
      (stoppedPool.Post (.returns 7) 0).1 =
        .error (.typed "std::runtime_error" "Post on stopped SimpleThreadPool") ∧
      (stoppedPool.Post (.returns 7) 0).2.tasks = stoppedPool.tasks :=
  have hr : Reachable 1 stoppedPool := ⟨stoppedSchedule, by decide⟩
  ⟨hr, by decide,
   (Post_stopped_rejects 1 stoppedPool (.returns 7) 0 hr (by decide)).1,
   (Post_stopped_rejects 1 stoppedPool (.returns 7) 0 hr (by decide)).2.1⟩

/-- C2: on a pool whose stop flag is clear, `Post` returns a future for the
new packaged task (at the address `s.heap.length`, holding `task`); the queue
afterwards is the queue before followed by the one new unit of work; and at
that point the shared state of the future is not ready, so `get` waits. -/
theorem Post_running_enqueues (s : SimpleThreadPool) (task : Callable) (choice : Nat)
    (hs : s.stop = false) :
    (s.Post task choice).1 = .ok { state := some s.heap.length } ∧
      (s.Post task choice).2.tasks = s.tasks ++ [s.heap.length] ∧
      (s.Post task choice).2.heap[s.heap.length]? =
        some { fn := task, cell := .notReady } ∧
      (s.Post task choice).2.get { state := some s.heap.length } = .waits := by
  rcases Post_cases s task choice with ⟨h0, _⟩ | ⟨_, he⟩
  · rw [hs] at h0; cases h0
  · rw [he]
    refine ⟨rfl, rfl, by simp, ?_⟩
    simp [get]

theorem Post_running_enqueues_witness :
    busyPool.stop = false ∧
      (busyPool.Post (.returns 9) 0).1 = .ok { state := some 4 } ∧
      (busyPool.Post (.returns 9) 0).2.tasks = [3, 4] ∧
      (busyPool.Post (.returns 9) 0).2.heap[4]? = some { fn := .returns 9, cell := .notReady } ∧
      (busyPool.Post (.returns 9) 0).2.get { state := some 4 } = .waits :=
  ⟨by decide, Post_running_enqueues busyPool (.returns 9) 0 (by decide)⟩

/-! ## Order of execution -/

/-- C3 (FIFO): in every state of every execution the units of work dequeued
so far, followed by the queue, are the units of work enqueued so far, in that
order; so the k-th dequeued unit is the k-th enqueued one, and when `A` was
enqueued before `B` and `B` has been dequeued, `A` was dequeued before it.
A `Post` that enqueues puts the new unit of work at the tail of the queue, and
a worker that dequeues takes the front of the queue. -/
theorem fifo_dequeue_order (n : Nat) (as : List Action) (s : SimpleThreadPool)
    (h : (construct n).exec as = some s) :
    s.dequeued ++ s.tasks = s.enqueued ∧
      (∀ (i j A B : Nat), i < j → s.enqueued[i]? = some A → s.enqueued[j]? = some B →
        B ∈ s.dequeued → s.dequeued[i]? = some A ∧ s.dequeued[j]? = some B) ∧
      (∀ (task : Callable) (choice : Nat) (s' : SimpleThreadPool),
        s.step (.post task choice) = some s' →
        (s'.tasks = s.tasks ∧ s'.enqueued = s.enqueued) ∨
        (s'.tasks = s.tasks ++ [s.heap.length] ∧
          s'.enqueued = s.enqueued ++ [s.heap.length])) ∧
      ∀ (tid : Nat) (s' : SimpleThreadPool), s.step (.lock tid) = some s' →
        (s'.tasks = s.tasks ∧ s'.dequeued = s.dequeued) ∨
        ∃ t rest, s.tasks = t :: rest ∧ s'.tasks = rest ∧ s'.dequeued = s.dequeued ++ [t] := by
  have hinv : Inv n s := Inv_exec (Inv_construct n) h
  refine ⟨hinv.fifo, ?_, ?_, ?_⟩
  · intro i j A B hij hA hB hm
    have hpre : ∀ k : Nat, k < s.dequeued.length → s.dequeued[k]? = s.enqueued[k]? := by
      intro k hk
      rw [← hinv.fifo, List.getElem?_append_left hk]
    obtain ⟨k, hk⟩ := List.mem_iff_getElem?.1 hm
    have hkl := lt_of_getElem? hk
    have hkj : k = j := by
      have h1 : s.enqueued[k]? = some B := by rw [← hpre k hkl]; exact hk
      obtain ⟨hk1, hk2⟩ := List.getElem?_eq_some.1 h1
      obtain ⟨hj1, hj2⟩ := List.getElem?_eq_some.1 hB
      exact (List.Nodup.getElem_inj_iff hinv.enq_nodup).1 (hk2.trans hj2.symm)
    subst hkj
    exact ⟨by rw [hpre i (by omega)]; exact hA, hk⟩
  · intro task choice s' hs
    simp only [step] at hs
    split at hs
    · cases hs
      rcases Post_cases s task choice with ⟨_, he⟩ | ⟨_, he⟩ <;> rw [he]
      · exact Or.inl ⟨rfl, rfl⟩
      · exact Or.inr ⟨rfl, rfl⟩
    · cases hs
  · intro tid s' hs
    obtain ⟨_, ⟨_, _, rfl⟩ | ⟨_, _, rfl⟩ | ⟨t, rest, hq, rfl⟩⟩ := WorkOn_locked_cases hs
    · exact Or.inl ⟨rfl, rfl⟩
    · exact Or.inl ⟨rfl, rfl⟩
    · exact Or.inr ⟨t, rest, hq, rfl, rfl⟩

theorem fifo_dequeue_order_witness :
    (construct 2).exec busySchedule = some busyPool ∧
      busyPool.dequeued ++ busyPool.tasks = busyPool.enqueued ∧
      busyPool.dequeued = [0, 1, 2] :=
  ⟨by decide, (fifo_dequeue_order 2 busySchedule busyPool (by decide)).1, by decide⟩

/-! ## Progress -/

theorem sum_weight_set (ws : List WorkerPc) (tid : Nat) (old new : WorkerPc)
    (h : ws[tid]? = some old) :
    ((ws.set tid new).map WorkerPc.weight).sum + old.weight =
      (ws.map WorkerPc.weight).sum + new.weight := by
  induction ws generalizing tid with
  | nil => simp at h
  | cons w ws ih =>
    cases tid with
    | zero =>
      simp only [List.getElem?_cons_zero, Option.some.injEq] at h
      subst h
      simp only [List.set_cons_zero, List.map_cons, List.sum_cons]
      omega
    | succ k =>
      simp only [List.getElem?_cons_succ] at h
      have := ih k h
      simp only [List.set_cons_succ, List.map_cons, List.sum_cons]
      omega

/-- The locked block of `WorkOn` brings the pool closer to rest. -/
theorem pending_lock {s s' : SimpleThreadPool} {tid : Nat}
    (hs : s.step (.lock tid) = some s') : s'.pending < s.pending := by
  obtain ⟨hr, ⟨_, _, rfl⟩ | ⟨_, _, rfl⟩ | ⟨t, rest, hq, rfl⟩⟩ := WorkOn_locked_cases hs
  · have := sum_weight_set s.workers tid _ .blocked hr
    simp only [WorkerPc.weight] at this
    simp only [pending]; omega
  · have := sum_weight_set s.workers tid _ .exited hr
    simp only [WorkerPc.weight] at this
    simp only [pending]; omega
  · have := sum_weight_set s.workers tid _ (.running t) hr
    simp only [WorkerPc.weight] at this
    simp only [pending, hq, List.length_cons]; omega

/-- The call `task()` brings the pool closer to rest. -/
theorem pending_run {s s' : SimpleThreadPool} {tid : Nat}
    (hs : s.step (.run tid) = some s') : s'.pending < s.pending := by
  obtain ⟨t, hr, rfl⟩ := WorkOn_run_cases hs
  have := sum_weight_set s.workers tid _ .ready hr
  simp only [WorkerPc.weight] at this
  simp only [pending]; omega

/-- An iteration of the join loop brings `Destroy` closer to its return. -/
theorem pending_join {n : Nat} {s s' : SimpleThreadPool} (h : Inv n s)
    (hs : s.step .join = some s') : s'.pending < s.pending := by
  simp only [step] at hs
  split at hs
  · rename_i i d ho
    obtain ⟨_, hile, _⟩ := h.own_join i d ho
    rcases Destroy_join_cases hs with ⟨w, hw, _, _, rfl⟩ | ⟨w, hw, _, rfl⟩ | ⟨_, rfl⟩
    · have := lt_of_getElem? hw
      simp only [pending, ho, List.length_set]; omega
    · have := lt_of_getElem? hw
      simp only [pending, ho]; omega
    · cases d <;> simp only [pending, ho] <;> simp <;> omega
  · cases hs

/-- In a pool with a worker where no worker is ready or running, the queue is
empty and every accepted task has been executed. -/
theorem settled_done {n : Nat} {s : SimpleThreadPool} (h : Inv n s) (hn : 1 ≤ n)
    (hq : s.settled) : s.tasks = [] ∧ ∀ a ∈ s.enqueued, a ∈ s.ran := by
  have ht : s.tasks = [] := by
    by_contra hne
    obtain ⟨w, hw, hb⟩ := h.awake hne hn
    rcases hq w hw with h1 | h1
    · exact hb h1
    · subst h1
      exact hne (h.exit_stop (List.mem_iff_getElem?.1 hw)).2
  refine ⟨ht, ?_⟩
  intro a ha
  have hd : a ∈ s.dequeued := by
    have := h.fifo; rw [ht, List.append_nil] at this; rw [this]; exact ha
  rcases h.deq_cases a hd with h1 | ⟨i, hi⟩
  · exact h1
  · rcases hq _ (List.getElem?_mem hi) with h1 | h1 <;> cases h1

/-- When the workers are not all asleep or gone, one of them can take a step
of `WorkOn`. -/
theorem worker_can_step {s : SimpleThreadPool} (hq : ¬ s.settled) :
    ∃ tid s', s.step (.lock tid) = some s' ∨ s.step (.run tid) = some s' := by
  simp only [settled, not_forall] at hq
  obtain ⟨w, hw, hne⟩ := hq
  obtain ⟨tid, ht⟩ := List.mem_iff_getElem?.1 hw
  cases w with
  | blocked => exact absurd (Or.inl rfl) hne
  | exited => exact absurd (Or.inr rfl) hne
  | running t =>
    cases hx : s.step (.run tid) with
    | some s' => exact ⟨tid, s', Or.inr hx⟩
    | none => simp [step, WorkOn_run, ht] at hx
  | ready =>
    cases hx : s.step (.lock tid) with
    | some s' => exact ⟨tid, s', Or.inl hx⟩
    | none =>
      exfalso
      simp only [step, WorkOn_locked, ht, if_true] at hx
      split at hx
      · split at hx <;> cases hx
      · cases hx

theorem exec_append {s s1 : SimpleThreadPool} {as : List Action} (bs : List Action)
    (h : s.exec as = some s1) : s.exec (as ++ bs) = s1.exec bs := by
  induction as generalizing s with
  | nil => cases h; rfl
  | cons a as ih =>
    simp only [exec, List.cons_append] at h ⊢
    split at h
    · rename_i u hu; exact ih h
    · cases h

/-- Steps that lower `pending` reach their goal: when, as long as the goal `P`
is not reached, some step in `A` can be taken that lowers `pending` and keeps
`Q`, then a sequence of at most `pending` such steps leads to `P`. -/
theorem progress_reaches (Q P : SimpleThreadPool → Prop) (A : Action → Prop)
    (hstep : ∀ s, Q s → ¬ P s →
      ∃ a s1, A a ∧ s.step a = some s1 ∧ s1.pending < s.pending ∧ Q s1)
    (m : Nat) (s : SimpleThreadPool) (hm : s.pending ≤ m) (hq : Q s) :
    ∃ bs s', bs.length ≤ m ∧ (∀ a ∈ bs, A a) ∧ s.exec bs = some s' ∧ P s' ∧ Q s' := by
  induction m generalizing s with
  | zero =>
    by_cases hp : P s
    · exact ⟨[], s, Nat.le_refl _, by simp, rfl, hp, hq⟩
    · obtain ⟨a, s1, _, _, hlt, _⟩ := hstep s hq hp
      omega
  | succ m ih =>
    by_cases hp : P s
    · exact ⟨[], s, Nat.zero_le _, by simp, rfl, hp, hq⟩
    · obtain ⟨a, s1, ha, hs1, hlt, hq1⟩ := hstep s hq hp
      obtain ⟨bs, s', hl, hA, hx, hp', hq'⟩ := ih s1 (by omega) hq1
      refine ⟨a :: bs, s', by simpa using hl, ?_, ?_, hp', hq'⟩
      · intro b hb
        rcases List.mem_cons.1 hb with rfl | hb
        · exact ha
        · exact hA b hb
      · simp only [exec, hs1]; exact hx

/-- Without workers no step dequeues or executes anything. -/
theorem no_worker_step {s s' : SimpleThreadPool} {a : Action} (hw : s.workers = [])
    (hs : s.step a = some s') :
    s'.dequeued = s.dequeued ∧ s'.executed = s.executed := by
  cases a with
  | post task choice =>
    simp only [step] at hs
    split at hs
    · cases hs
      rcases Post_cases s task choice with ⟨_, he⟩ | ⟨_, he⟩ <;> rw [he] <;> exact ⟨rfl, rfl⟩
    · cases hs
  | destroy =>
    simp only [step] at hs
    split at hs
    · cases hs
      rcases Destroy_enter_cases s false with ⟨_, he⟩ | ⟨_, he⟩ <;> rw [he] <;> exact ⟨rfl, rfl⟩
    · cases hs
  | join =>
    simp only [step] at hs
    split at hs
    · rcases Destroy_join_cases hs with ⟨w, _, _, _, rfl⟩ | ⟨w, _, _, rfl⟩ | ⟨_, rfl⟩ <;>
        exact ⟨rfl, rfl⟩
    · cases hs
  | destruct =>
    simp only [step] at hs
    split at hs
    · cases hs
      unfold destructor destroy_members
      split
      · rcases Destroy_enter_cases s true with ⟨_, he⟩ | ⟨_, he⟩ <;> rw [he] <;>
          exact ⟨rfl, rfl⟩
      · dsimp only
        split <;> exact ⟨rfl, rfl⟩
    · cases hs
  | lock tid =>
    obtain ⟨hr, _⟩ := WorkOn_locked_cases hs
    rw [hw] at hr; simp at hr
  | run tid =>
    obtain ⟨t, hr, _⟩ := WorkOn_run_cases hs
    rw [hw] at hr; simp at hr
  | spurious tid =>
    simp only [step, spuriousWake] at hs
    split at hs
    · cases hs; exact ⟨rfl, rfl⟩
    · cases hs

/-- In a pool constructed without workers nothing is ever dequeued or
executed. -/
theorem no_worker_exec {s s' : SimpleThreadPool} {as : List Action} (h : Inv 0 s)
    (hs : s.exec as = some s') :
    s'.dequeued = s.dequeued ∧ s'.executed = s.executed := by
  induction as generalizing s with
  | nil => cases hs; exact ⟨rfl, rfl⟩
  | cons a as ih =>
    simp only [exec] at hs
    split at hs
    · rename_i s1 h1
      have hw : s.workers = [] := List.length_eq_zero.1 h.nworkers
      obtain ⟨e1, e2⟩ := no_worker_step hw h1
      obtain ⟨e3, e4⟩ := ih (Inv_step h h1) hs
      exact ⟨e3.trans e1, e4.trans e2⟩
    · cases hs

/-- In a pool constructed without workers every accepted task is in the queue
and none was run. -/
theorem no_worker_queue {s : SimpleThreadPool} (hr : Reachable 0 s) :
    s.dequeued = [] ∧ s.executed = [] ∧ s.ran = [] ∧ s.tasks = s.enqueued := by
  obtain ⟨as, has⟩ := hr
  have hinv : Inv 0 s := Inv_exec (Inv_construct 0) has
  obtain ⟨e1, e2⟩ := no_worker_exec (Inv_construct 0) has
  have hd : s.dequeued = [] := by simpa [construct] using e1
  have he : s.executed = [] := by simpa [construct] using e2
  refine ⟨hd, he, by simp [ran, he], ?_⟩
  have := hinv.fifo
  rw [hd] at this
  simpa using this

/-! ## Results -/

/-- The callables on the heap are the callables submitted, in order. -/
theorem heap_fn_step {s s' : SimpleThreadPool} {a : Action} (hs : s.step a = some s') :
    s'.heap.map (·.fn) = s.heap.map (·.fn) ++ submitted [a] := by
  cases a with
  | post task choice =>
    simp only [step] at hs
    split at hs
    · cases hs
      rcases Post_cases s task choice with ⟨_, he⟩ | ⟨_, he⟩ <;> rw [he] <;> simp [submitted]
    · cases hs
  | destroy =>
    simp only [step] at hs
    split at hs
    · cases hs
      rcases Destroy_enter_cases s false with ⟨_, he⟩ | ⟨_, he⟩ <;> rw [he] <;> simp [submitted]
    · cases hs
  | join =>
    simp only [step] at hs
    split at hs
    · rename_i i d ho
      rcases Destroy_join_cases hs with ⟨w, _, _, _, rfl⟩ | ⟨w, _, _, rfl⟩ | ⟨_, rfl⟩
      · simp [submitted]
      · simp [submitted]
      · cases d <;> simp [submitted, destroyTasks_map_fn]
    · cases hs
  | destruct =>
    simp only [step] at hs
    split at hs
    · cases hs
      unfold destructor destroy_members
      split
      · rcases Destroy_enter_cases s true with ⟨_, he⟩ | ⟨_, he⟩ <;> rw [he] <;> simp [submitted]
      · dsimp only
        split <;> simp [submitted, destroyTasks_map_fn]
    · cases hs
  | lock tid =>
    obtain ⟨_, ⟨_, _, rfl⟩ | ⟨_, _, rfl⟩ | ⟨t, rest, _, rfl⟩⟩ := WorkOn_locked_cases hs <;>
      simp [submitted]
  | run tid =>
    have hl := Later_step hs
    simp only [submitted, List.append_nil]
    apply List.ext_getElem?
    intro k
    rw [List.getElem?_map, List.getElem?_map]
    cases hk : s.heap[k]? with
    | none =>
      obtain ⟨t, _, rfl⟩ := WorkOn_run_cases hs
      have hlen : (invokeUnit s.heap t).1.length = s.heap.length := by
        unfold invokeUnit; split <;> simp
      have : s.heap.length ≤ k := by
        by_contra hc
        rw [List.getElem?_eq_getElem (by omega)] at hk; cases hk
      dsimp only
      rw [List.getElem?_eq_none (by omega)]
    | some p =>
      obtain ⟨p', hp', hf⟩ := hl.heap_fn k p hk
      rw [hp']; simp [hf]
  | spurious tid =>
    simp only [step, spuriousWake] at hs
    split at hs
    · cases hs; simp [submitted]
    · cases hs

theorem submitted_cons (a : Action) (as : List Action) :
    submitted (a :: as) = submitted [a] ++ submitted as := by
  cases a <;> simp [submitted]

theorem heap_fn_exec {s s' : SimpleThreadPool} {as : List Action} (hs : s.exec as = some s') :
    s'.heap.map (·.fn) = s.heap.map (·.fn) ++ submitted as := by
  induction as generalizing s with
  | nil => cases hs; simp [submitted]
  | cons a as ih =>
    simp only [exec] at hs
    split at hs
    · rename_i s1 h1
      rw [ih hs, heap_fn_step h1, submitted_cons a as, List.append_assoc]
    · cases hs

/-- What `get` returns for the packaged task at `a`, by whether it was run. -/
theorem get_eq {n : Nat} {s : SimpleThreadPool} {a : Nat} {p : PackagedTask} (h : Inv n s)
    (hp : s.heap[a]? = some p) (hq : s.owner = .destroyed → a ∉ s.tasks) :
    s.get { state := some a } = if a ∈ s.ran then resultOf p.fn else .waits := by
  by_cases hr : a ∈ s.ran
  · have := h.cell_done a p hp hr
    rw [if_pos hr]
    simp only [get, hp, this]
    cases p.fn <;> rfl
  · have := h.cell_idle hp hr hq
    rw [if_neg hr]
    simp only [get, hp, this]

/-- A task in the queue was not called. -/
theorem Inv.queued_not_ran {n : Nat} {s : SimpleThreadPool} (h : Inv n s) {a : Nat}
    (hm : a ∈ s.tasks) : a ∉ s.ran := by
  intro hr
  have hnd := h.enq_nodup
  rw [← h.fifo] at hnd
  exact (List.nodup_append.1 hnd).2.2 (h.exe_deq a hr) hm

/-- What `get` does for a packaged task that was destroyed with the queue: it
rethrows `broken_promise`. -/
theorem get_abandoned {n : Nat} {s : SimpleThreadPool} {a : Nat} {p : PackagedTask}
    (h : Inv n s) (hp : s.heap[a]? = some p) (ho : s.owner = .destroyed) (hm : a ∈ s.tasks) :
    p.cell = .failure broken_promise ∧
      s.get { state := some a } = .rethrown broken_promise := by
  have hc := h.cell_gone ho a p hp (h.queued_not_ran hm)
  rw [if_pos hm] at hc
  exact ⟨hc, by simp only [get, hp, hc]⟩

/-- A destroyed pool with a worker has an empty queue, a pool that is not
destroyed has not destroyed its queue. -/
theorem Inv.not_abandoned {n : Nat} {s : SimpleThreadPool} (h : Inv n s) (a : Nat)
    (hn : 1 ≤ n ∨ s.owner ≠ .destroyed) : s.owner = .destroyed → a ∉ s.tasks := by
  intro ho
  rcases hn with hn | hn
  · rw [h.drained hn ho]; simp
  · exact absurd ho hn

/-- The future returned by an accepted `Post`, in a later state: it refers to
the packaged task that holds the submitted callable, and that task was
accepted into the queue. -/
theorem future_tracks_task {n : Nat} {s s' : SimpleThreadPool} {task : Callable} {choice : Nat}
    {f : Future} {as : List Action} (hr : Reachable n s)
    (hp : (s.Post task choice).1 = .ok f) (hx : (s.Post task choice).2.exec as = some s') :
    Inv n s' ∧ f = { state := some s.heap.length } ∧ s.heap.length ∈ s'.enqueued ∧
      ∃ p, s'.heap[s.heap.length]? = some p ∧ p.fn = task := by
  have hinv := Inv_reachable hr
  have hinv' : Inv n s' := Inv_exec (Inv_Post task choice hinv) hx
  have hl := Later_exec hx
  rcases Post_cases s task choice with ⟨_, he⟩ | ⟨_, he⟩
  · rw [he] at hp; cases hp
  · rw [he] at hp hl
    refine ⟨hinv', by cases hp; rfl, hl.enq_old _ (by simp), ?_⟩
    exact hl.heap_fn s.heap.length { fn := task, cell := .notReady } (by simp)

theorem construct_heap (n : Nat) : (construct n).heap = [] := by
  unfold construct; split <;> rfl

/-- From the future of an accepted `Post`, in a later state: `get` waits or
gives the outcome of the submitted callable; it gives the outcome once the
task has been run, which is the case once the workers of a pool with a worker
are at rest; and while it waits some worker of such a pool can take a step. -/
theorem get_after_Post {n : Nat} {s s' : SimpleThreadPool} {task : Callable} {choice : Nat}
    {f : Future} {as : List Action} (hr : Reachable n s)
    (hp : (s.Post task choice).1 = .ok f) (hx : (s.Post task choice).2.exec as = some s') :
    f = { state := some s.heap.length } ∧
      (1 ≤ n ∨ s'.owner ≠ .destroyed → s'.get f = .waits ∨ s'.get f = resultOf task) ∧
      (s.heap.length ∈ s'.ran → s'.get f = resultOf task ∧
        ∃ p, s'.heap[s.heap.length]? = some p ∧ p.cell = task.outcome) ∧
      (1 ≤ n → s'.settled → s.heap.length ∈ s'.ran) ∧
      (1 ≤ n → s'.get f = .waits →
        ∃ tid s'', s'.step (.lock tid) = some s'' ∨ s'.step (.run tid) = some s'') := by
  obtain ⟨hinv, rfl, he, p, hp', rfl⟩ := future_tracks_task hr hp hx
  have hg := fun hq => get_eq hinv hp' (hinv.not_abandoned s.heap.length hq)
  have hset : 1 ≤ n → s'.settled → s.heap.length ∈ s'.ran :=
    fun hn hq => (settled_done hinv hn hq).2 _ he
  refine ⟨rfl, ?_, ?_, hset, ?_⟩
  · intro hq
    rw [hg hq]; split
    · exact Or.inr rfl
    · exact Or.inl rfl
  · intro hm
    have hc := hinv.cell_done _ p hp' hm
    refine ⟨?_, p, hp', hc⟩
    simp only [get, hp', hc]
    cases p.fn <;> rfl
  · intro hn hw
    apply worker_can_step
    intro hq
    rw [hg (Or.inl hn), if_pos (hset hn hq)] at hw
    generalize p.fn = c at hw
    cases c <;> cases hw

/-- From the future of an accepted `Post` in a pool constructed without
workers, in a later state: the task is in the queue and was not run; `get`
waits as long as the pool exists, and rethrows `broken_promise` once the pool
is destroyed. -/
theorem get_without_workers {s s' : SimpleThreadPool} {task : Callable} {choice : Nat}
    {f : Future} {as : List Action} (hr : Reachable 0 s)
    (hp : (s.Post task choice).1 = .ok f) (hx : (s.Post task choice).2.exec as = some s') :
    s.heap.length ∉ s'.ran ∧ s.heap.length ∈ s'.tasks ∧
      (s'.owner ≠ .destroyed → s'.get f = .waits ∧
        ∃ p, s'.heap[s.heap.length]? = some p ∧ p.cell = .notReady) ∧
      (s'.owner = .destroyed → s'.get f = .rethrown broken_promise ∧
        ∃ p, s'.heap[s.heap.length]? = some p ∧ p.cell = .failure broken_promise) := by
  obtain ⟨hinv, rfl, he, p, hp', rfl⟩ := future_tracks_task hr hp hx
  have ho : s.owner = .idle := by
    cases hs : s.stop
    · exact ((Inv_reachable hr).stop_idle hs).1
    · rcases Post_cases s p.fn choice with ⟨_, h1⟩ | ⟨h0, _⟩
      · rw [h1] at hp; cases hp
      · rw [hs] at h0; cases h0
  have hstep : s.step (.post p.fn choice) = some (s.Post p.fn choice).2 := by
    simp only [step, ho, if_true]
  have hr' : Reachable 0 s' := (hr.step hstep).exec hx
  obtain ⟨_, _, hran, htasks⟩ := no_worker_queue hr'
  have hnr : s.heap.length ∉ s'.ran := by rw [hran]; simp
  have hm : s.heap.length ∈ s'.tasks := by rw [htasks]; exact he
  refine ⟨hnr, hm, ?_, ?_⟩
  · intro ho
    have hc := hinv.cell_wait ho _ p hp' hnr
    exact ⟨by simp only [get, hp', hc], p, hp', hc⟩
  · intro ho
    obtain ⟨hc, hg⟩ := get_abandoned hinv hp' ho hm
    exact ⟨hg, p, hp', hc⟩

/-- The workers of a pool with a worker bring every accepted task to its end
by themselves: from any state after an accepted `Post`, at most `pending`
steps of `WorkOn` lead to a state where `get` on the future gives the outcome
of the submitted callable. -/
theorem get_eventually {n : Nat} {s s' : SimpleThreadPool} {task : Callable} {choice : Nat}
    {f : Future} {as : List Action} (hn : 1 ≤ n) (hr : Reachable n s)
    (hp : (s.Post task choice).1 = .ok f) (hx : (s.Post task choice).2.exec as = some s') :
    ∃ bs s'', bs.length ≤ s'.pending ∧ (∀ a ∈ bs, ∃ tid, a = .lock tid ∨ a = .run tid) ∧
      s'.exec bs = some s'' ∧ s''.get f = resultOf task := by
  obtain ⟨bs, s'', h1, h2, h3, h4, _⟩ := progress_reaches
    (fun u => ∃ cs, (s.Post task choice).2.exec cs = some u)
    (fun u => u.get f = resultOf task)
    (fun a => ∃ tid, a = .lock tid ∨ a = .run tid)
    (by
      rintro u ⟨cs, hcs⟩ hnp
      obtain ⟨_, hsafe, _, _, hlive⟩ := get_after_Post hr hp hcs
      rcases hsafe (Or.inl hn) with hw | hw
      · obtain ⟨tid, u1, h1 | h1⟩ := hlive hn hw
        · exact ⟨_, u1, ⟨tid, Or.inl rfl⟩, h1, pending_lock h1, cs ++ [.lock tid], by
            rw [exec_append _ hcs]; simp only [exec, h1]⟩
        · exact ⟨_, u1, ⟨tid, Or.inr rfl⟩, h1, pending_run h1, cs ++ [.run tid], by
            rw [exec_append _ hcs]; simp only [exec, h1]⟩
      · exact absurd hw hnp)
    s'.pending s' (Nat.le_refl _) ⟨as, hx⟩
  exact ⟨bs, s'', h1, h2, h3, h4⟩

/-- C4: the future returned by `Post` for a callable that returns `v`, in a
pool with at least one worker, under every interleaving of later steps:
`get` never yields anything but `v`; while it still waits some worker can take
a step of `WorkOn`, and every such step lowers `pending`; once the workers are
at rest `get` yields `v`; and from every such state at most `pending` steps of
`WorkOn` lead to a state where `get` yields `v`.  For `SimpleThreadPool pool(4)` and every
interleaving in which the first five submissions are
`Multiply(i, i + 1)`, `i = 0..4`, the futures at the addresses `0..4` yield
`0, 2, 6, 12, 20` in that order once the workers are at rest, and never
anything else. -/
theorem get_yields_own_value :
    (∀ (n : Nat) (s s' : SimpleThreadPool) (v : Val) (choice : Nat) (f : Future)
        (as : List Action), 1 ≤ n → Reachable n s →
        (s.Post (.returns v) choice).1 = .ok f →
        (s.Post (.returns v) choice).2.exec as = some s' →
        (s'.get f = .waits ∨ s'.get f = .value v) ∧
        (s'.settled → s'.get f = .value v) ∧
        (s'.get f = .waits →
          ∃ tid s'', s'.step (.lock tid) = some s'' ∨ s'.step (.run tid) = some s'') ∧
        (∀ tid s'', s'.step (.lock tid) = some s'' ∨ s'.step (.run tid) = some s'' →
          s''.pending < s'.pending) ∧
        ∃ bs s'', bs.length ≤ s'.pending ∧
          (∀ a ∈ bs, ∃ tid, a = .lock tid ∨ a = .run tid) ∧
          s'.exec bs = some s'' ∧ s''.get f = .value v) ∧
    ∀ (as : List Action) (rest : List Callable) (s : SimpleThreadPool),
      (construct 4).exec as = some s →
      submitted as = [0, 1, 2, 3, 4].map multiplyTask ++ rest →
      s.stop = false →
      (∀ k v, ([0, 2, 6, 12, 20] : List Val)[k]? = some v →
        s.get { state := some k } = .waits ∨ s.get { state := some k } = .value v) ∧
      (s.settled → [0, 1, 2, 3, 4].map (fun k => s.get { state := some k }) =
        [.value 0, .value 2, .value 6, .value 12, .value 20]) := by
  constructor
  · intro n s s' v choice f as hn hr hp hx
    obtain ⟨_, h1, h2, h3, h4⟩ := get_after_Post hr hp hx
    refine ⟨h1 (Or.inl hn), fun hq => (h2 (h3 hn hq)).1, h4 hn, ?_,
      get_eventually hn hr hp hx⟩
    rintro tid s'' (h | h)
    · exact pending_lock h
    · exact pending_run h
  · intro as rest s hx hsub hstop
    have hinv : Inv 4 s := Inv_exec (Inv_construct 4) hx
    have hheap := heap_fn_exec hx
    rw [hsub] at hheap
    have hfn : ∀ (k : Nat) (c : Callable), ([0, 1, 2, 3, 4].map multiplyTask)[k]? = some c →
        ∃ p, s.heap[k]? = some p ∧ p.fn = c ∧ k ∈ s.enqueued := by
      intro k c hk
      have hk5 : k < 5 := by simpa using lt_of_getElem? hk
      have h1 : (s.heap.map (·.fn))[k]? = some c := by
        rw [hheap, construct_heap, List.map_nil, List.nil_append,
          List.getElem?_append_left (by simpa using hk5)]
        exact hk
      rw [List.getElem?_map] at h1
      cases hp : s.heap[k]? with
      | none => rw [hp] at h1; cases h1
      | some p =>
        rw [hp] at h1
        refine ⟨p, rfl, by simpa using h1, ?_⟩
        rw [hinv.all_enq hstop]
        exact List.mem_range.2 (lt_of_getElem? hp)
    have hget : ∀ (k : Nat) (c : Callable), ([0, 1, 2, 3, 4].map multiplyTask)[k]? = some c →
        (s.get { state := some k } = .waits ∨ s.get { state := some k } = resultOf c) ∧
        (s.settled → s.get { state := some k } = resultOf c) := by
      intro k c hk
      obtain ⟨p, hp, rfl, he⟩ := hfn k c hk
      have hg := get_eq hinv hp (hinv.not_abandoned k (Or.inl (by decide)))
      refine ⟨?_, ?_⟩
      · rw [hg]; split
        · exact Or.inr rfl
        · exact Or.inl rfl
      · intro hq
        rw [hg, if_pos ((settled_done hinv (by decide) hq).2 _ he)]
    constructor
    · intro k v hk
      have hk5 : k < 5 := by simpa using lt_of_getElem? hk
      interval_cases k <;> simp only [List.getElem?_cons_zero, List.getElem?_cons_succ,
        Option.some.injEq] at hk <;> subst hk
      · exact (hget 0 (multiplyTask 0) rfl).1
      · exact (hget 1 (multiplyTask 1) rfl).1
      · exact (hget 2 (multiplyTask 2) rfl).1
      · exact (hget 3 (multiplyTask 3) rfl).1
      · exact (hget 4 (multiplyTask 4) rfl).1
    · intro hq
      simp only [List.map_cons, List.map_nil]
      rw [(hget 0 (multiplyTask 0) rfl).2 hq, (hget 1 (multiplyTask 1) rfl).2 hq,
        (hget 2 (multiplyTask 2) rfl).2 hq, (hget 3 (multiplyTask 3) rfl).2 hq,
        (hget 4 (multiplyTask 4) rfl).2 hq]
      rfl

theorem get_yields_own_value_witness :
    (1 ≤ 2 ∧ Reachable 2 busyPool ∧
      (busyPool.Post (.returns 9) 0).1 = .ok { state := some 4 } ∧
      (busyPool.Post (.returns 9) 0).2.exec settleSchedule = some settledPool ∧
      settledPool.settled ∧ settledPool.get { state := some 4 } = .value 9) ∧
    ((construct 4).exec mainSchedule = some mainPool ∧
      submitted mainSchedule = [0, 1, 2, 3, 4].map multiplyTask ++ [.returns 50] ∧
      mainPool.stop = false ∧ mainPool.settled ∧
      [0, 1, 2, 3, 4].map (fun k => mainPool.get { state := some k }) =
        [.value 0, .value 2, .value 6, .value 12, .value 20]) :=
  have hr : Reachable 2 busyPool := ⟨busySchedule, by decide⟩
  ⟨⟨by decide, hr, by decide, by decide, by decide,
    (get_yields_own_value.1 2 busyPool settledPool 9 0 { state := some 4 } settleSchedule
      (by decide) hr (by decide) (by decide)).2.1 (by decide)⟩,
   ⟨by decide, by decide, by decide, by decide,
    (get_yields_own_value.2 mainSchedule [.returns 50] mainPool (by decide) (by decide)
      (by decide)).2 (by decide)⟩⟩

/-- A pool constructed without workers never runs the task that throws
`DomainError("x")`: when the pool is destroyed the shared state of the task
holds `broken_promise`, and `get` rethrows that and not the error of the
task. -/
theorem unrun_task_error_not_stored :
    ((construct 0).Post (.throws (.typed "DomainError" "x")) 0).1 = .ok { state := some 0 } ∧
      ((construct 0).Post (.throws (.typed "DomainError" "x")) 0).2.exec [.destruct, .join] =
        some abandonedPool ∧
      abandonedPool.ran = [] ∧
      abandonedPool.heap[0]? = some { fn := .throws (.typed "DomainError" "x"),
                                      cell := .failure broken_promise } ∧
      abandonedPool.get { state := some 0 } = .rethrown broken_promise ∧
      abandonedPool.get { state := some 0 } ≠ .rethrown (.typed "DomainError" "x") := by
  decide

/-- C5, as the code has it: the future returned by `Post` for a callable that
throws `e`, under every interleaving of later steps.  Once the task has been
run the shared state holds the failure `e` and `get` rethrows `e`; as long as
the pool exists `get` does nothing but wait or rethrow `e`.  In a pool with at
least one worker that is so in every state, the task has been run once the
workers are at rest, while `get` waits some worker can take a step of `WorkOn`,
and at most `pending` steps of `WorkOn` lead to a state where `get` rethrows
`e`.  In a pool constructed without workers the task is never run: `get` waits
as long as the pool exists, and once the pool is destroyed the shared state
holds `broken_promise`, which `get` rethrows. -/
theorem get_rethrows_own_error (n : Nat) (s s' : SimpleThreadPool) (e : Exn) (choice : Nat)
    (f : Future) (as : List Action) (hr : Reachable n s)
    (hp : (s.Post (.throws e) choice).1 = .ok f)
    (hx : (s.Post (.throws e) choice).2.exec as = some s') :
    f = { state := some s.heap.length } ∧
      (s.heap.length ∈ s'.ran → s'.get f = .rethrown e ∧
        ∃ p, s'.heap[s.heap.length]? = some p ∧ p.cell = .failure e) ∧
      (s'.owner ≠ .destroyed → s'.get f = .waits ∨ s'.get f = .rethrown e) ∧
      (1 ≤ n →
        (s'.get f = .waits ∨ s'.get f = .rethrown e) ∧
        (s'.settled → s.heap.length ∈ s'.ran) ∧
        (s'.get f = .waits →
          ∃ tid s'', s'.step (.lock tid) = some s'' ∨ s'.step (.run tid) = some s'') ∧
        ∃ bs s'', bs.length ≤ s'.pending ∧
          (∀ a ∈ bs, ∃ tid, a = .lock tid ∨ a = .run tid) ∧
          s'.exec bs = some s'' ∧ s''.get f = .rethrown e) ∧
      (n = 0 →
        s.heap.length ∉ s'.ran ∧
        (s'.owner ≠ .destroyed → s'.get f = .waits) ∧
        (s'.owner = .destroyed → s'.get f = .rethrown broken_promise ∧
          ∃ p, s'.heap[s.heap.length]? = some p ∧ p.cell = .failure broken_promise)) := by
  obtain ⟨hf, hsafe, hran, hrest, hlive⟩ := get_after_Post hr hp hx
  refine ⟨hf, ?_, fun ho => hsafe (Or.inr ho), ?_, ?_⟩
  · intro hm
    obtain ⟨hg, q, hq, hc⟩ := hran hm
    exact ⟨hg, q, hq, hc⟩
  · intro hn
    exact ⟨hsafe (Or.inl hn), hrest hn, hlive hn, get_eventually hn hr hp hx⟩
  · rintro rfl
    obtain ⟨h1, _, h3, h4⟩ := get_without_workers hr hp hx
    exact ⟨h1, fun ho => (h3 ho).1, h4⟩

theorem get_rethrows_own_error_witness :
    Reachable 2 busyPool ∧
      (busyPool.Post (.throws (.typed "DomainError" "x")) 0).1 = .ok { state := some 4 } ∧
      (busyPool.Post (.throws (.typed "DomainError" "x")) 0).2.exec settleSchedule =
        some failedPool ∧
      4 ∈ failedPool.ran ∧
      failedPool.get { state := some 4 } = .rethrown (.typed "DomainError" "x") :=
  have hr : Reachable 2 busyPool := ⟨busySchedule, by decide⟩
  ⟨hr, by decide, by decide, by decide,
   ((get_rethrows_own_error 2 busyPool failedPool (.typed "DomainError" "x") 0
      { state := some 4 } settleSchedule hr (by decide) (by decide)).2.1 (by decide)).1⟩

theorem countP_set_same (ws : List WorkerPc) (q : WorkerPc → Bool) (tid : Nat)
    (old new : WorkerPc) (h : ws[tid]? = some old) (hq : q new = q old) :
    (ws.set tid new).countP q = ws.countP q := by
  induction ws generalizing tid with
  | nil => simp at h
  | cons w ws ih =>
    cases tid with
    | zero =>
      simp only [List.getElem?_cons_zero, Option.some.injEq] at h
      subst h
      simp only [List.set_cons_zero, List.countP_cons, hq]
    | succ k =>
      simp only [List.getElem?_cons_succ] at h
      simp only [List.set_cons_succ, List.countP_cons, ih k h]

/-- C6 (failure isolation): when a worker of a pool with at least one worker
calls a task whose callable throws `e`, the call is a step the worker can
take; afterwards the worker is back at the top of its loop, the number of
workers that have not exited is unchanged, nothing has reached the handlers of
`WorkOn`, and the shared state of the task holds the failure `e`.  Every task
that `Post` accepts at any later time is run once the workers are at rest,
`get` on its future then gives its own outcome (the value `v` for a callable
that returns `v`), while `get` waits some worker can take a step, and at most
`pending` steps of `WorkOn` lead to a state where `get` gives that outcome. -/
theorem throwing_task_is_isolated (n : Nat) (s : SimpleThreadPool) (tid a : Nat)
    (p : PackagedTask) (e : Exn) (hn : 1 ≤ n) (hr : Reachable n s)
    (hw : s.workers[tid]? = some (.running a)) (hp : s.heap[a]? = some p)
    (hf : p.fn = .throws e) :
    ∃ s1, s.step (.run tid) = some s1 ∧
      s1.workers[tid]? = some .ready ∧ s1.live = s.live ∧ s1.cerr = s.cerr ∧
      s1.heap[a]? = some { fn := .throws e, cell := .failure e } ∧
      ∀ (as bs : List Action) (s2 s3 : SimpleThreadPool) (task : Callable) (choice : Nat)
        (f : Future), s1.exec as = some s2 → (s2.Post task choice).1 = .ok f →
        (s2.Post task choice).2.exec bs = some s3 →
        (s3.settled → s3.get f = resultOf task) ∧
        (∀ v, task = .returns v → s3.settled → s3.get f = .value v) ∧
        (s3.get f = .waits →
          ∃ t s4, s3.step (.lock t) = some s4 ∨ s3.step (.run t) = some s4) ∧
        ∃ cs s4, cs.length ≤ s3.pending ∧
          (∀ c ∈ cs, ∃ t, c = .lock t ∨ c = .run t) ∧
          s3.exec cs = some s4 ∧ s4.get f = resultOf task := by
  have hinv := Inv_reachable hr
  obtain ⟨q, hq, hc, hi⟩ := invokeUnit_running hinv hw
  rw [hp] at hq; cases hq
  have hlt := lt_of_getElem? hw
  have hpl := lt_of_getElem? hp
  have hstep : s.step (.run tid) = some
      { s with heap := s.heap.set a { p with cell := p.fn.outcome },
               executed := s.executed ++ [(a, tid)], cerr := s.cerr ++ WorkOn_catch tid none,
               workers := s.workers.set tid .ready } := by
    simp only [step, WorkOn_run, hw, hi]
  refine ⟨_, hstep, ?_, ?_, ?_, ?_, ?_⟩
  · simp [hlt]
  · exact countP_set_same _ _ _ _ _ hw (by simp)
  · simp [WorkOn_catch]
  · cases p with
    | mk fn cell => cases hf; simp [hpl, Callable.outcome]
  · intro as bs s2 s3 task choice f h12 hpost h23
    have hr2 : Reachable n s2 := (hr.step hstep).exec h12
    obtain ⟨_, _, h2, h3, h4⟩ := get_after_Post hr2 hpost h23
    refine ⟨fun hq => (h2 (h3 hn hq)).1, ?_, h4 hn, get_eventually hn hr2 hpost h23⟩
    rintro v rfl hq
    exact (h2 (h3 hn hq)).1

theorem throwing_task_is_isolated_witness :
    1 ≤ 2 ∧ Reachable 2 busyPool ∧ busyPool.workers[0]? = some (.running 1) ∧
      busyPool.heap[1]? = some { fn := .throws (.unknown 3), cell := .notReady } ∧
      ∃ s1, busyPool.step (.run 0) = some s1 ∧ s1.workers[0]? = some .ready ∧
        s1.live = busyPool.live :=
  have hr : Reachable 2 busyPool := ⟨busySchedule, by decide⟩
  ⟨by decide, hr, by decide, by decide,
   let ⟨s1, h1, h2, h3, _⟩ := throwing_task_is_isolated 2 busyPool 0 1
     { fn := .throws (.unknown 3), cell := .notReady } (.unknown 3) (by decide) hr
     (by decide) (by decide) rfl
   ⟨s1, h1, h2, h3⟩⟩

/-! ## Shutdown -/

/-- Once `Destroy` has returned the vector of threads is empty and every
worker has exited. -/
theorem shutDown_workers {n : Nat} {s : SimpleThreadPool} (h : Inv n s) (hd : s.shutDown) :
    s.threads = [] ∧ ∀ w ∈ s.workers, w = .exited := by
  obtain ⟨hs, ho⟩ := hd
  have ht : s.threads = [] := by
    rcases ho with ho | ho
    · exact h.own_idle ho hs
    · exact (h.own_destroyed ho).2
  refine ⟨ht, ?_⟩
  intro w hw
  by_cases hn : 0 < n
  · obtain ⟨i, hi⟩ := List.mem_iff_getElem?.1 hw
    exact (h.thr_empty ht hn).2 i w hi
  · have := h.nworkers
    have h0 : s.workers = [] := List.length_eq_zero.1 (by omega)
    rw [h0] at hw; cases hw

/-- Inside `Destroy` some thread can always take a step. -/
theorem joining_can_step {n : Nat} {s : SimpleThreadPool} {i : Nat} {d : Bool} (h : Inv n s)
    (ho : s.owner = .joining i d) : ∃ a s', s.step a = some s' := by
  by_cases hq : s.settled
  · obtain ⟨hs, _, _⟩ := h.own_join i d ho
    have hex : ∀ (k : Nat) (w : WorkerPc), s.workers[k]? = some w → w = .exited := by
      intro k w hk
      rcases hq w (List.getElem?_mem hk) with h1 | h1
      · subst h1; exact absurd hk (h.stop_awake hs k)
      · exact h1
    cases hx : s.Destroy_join i d with
    | some s' => exact ⟨.join, s', by simp only [step, ho, hx]⟩
    | none =>
      exfalso
      unfold Destroy_join at hx
      split at hx
      · rename_i worker hw
        split at hx
        · split at hx
          · cases hx
          · rename_i hne
            apply hne
            have hid := h.thr_id i worker hw
            have hlt : i < s.workers.length := by
              rcases h.thr_len with h0 | h0
              · rw [h0] at hw; simp at hw
              · rw [h.nworkers, ← h0]; exact lt_of_getElem? hw
            rw [hid, List.getElem?_eq_getElem hlt]
            exact congrArg some (hex i _ (List.getElem?_eq_getElem hlt))
        · cases hx
      · cases hx
  · obtain ⟨tid, s', h1 | h1⟩ := worker_can_step hq
    · exact ⟨_, s', h1⟩
    · exact ⟨_, s', h1⟩

/-- Inside `Destroy` every step that can be taken lowers `pending`. -/
theorem joining_pending {n : Nat} {s s' : SimpleThreadPool} {i : Nat} {d : Bool} {a : Action}
    (h : Inv n s) (ho : s.owner = .joining i d) (hs : s.step a = some s') :
    s'.pending < s.pending := by
  cases a with
  | post task choice => simp [step, ho] at hs
  | destroy => simp [step, ho] at hs
  | destruct => simp [step, ho] at hs
  | join => exact pending_join h hs
  | lock tid => exact pending_lock hs
  | run tid => exact pending_run hs
  | spurious tid =>
    simp only [step, spuriousWake] at hs
    split at hs
    · rename_i hb
      exact absurd hb (h.stop_awake (h.own_join i d ho).1 tid)
    · cases hs

/-- A call of `Destroy` that is in progress returns: at most `pending` steps
lead to a state where it has returned. -/
theorem Destroy_returns {n : Nat} {s : SimpleThreadPool} {i : Nat} {d : Bool} (h : Inv n s)
    (ho : s.owner = .joining i d) :
    ∃ bs s', bs.length ≤ s.pending ∧ s.exec bs = some s' ∧ s'.shutDown := by
  obtain ⟨bs, s', h1, _, h3, h4, _⟩ := progress_reaches
    (fun u => Inv n u ∧ u.stop = true ∧ ((∃ j e, u.owner = .joining j e) ∨ u.shutDown))
    (fun u => u.shutDown) (fun _ => True)
    (by
      rintro u ⟨hu, hs, hj | hd⟩ hnp
      · obtain ⟨j, e, hj⟩ := hj
        obtain ⟨a, u1, h1⟩ := joining_can_step hu hj
        have hu1 := Inv_step hu h1
        have hs1 := (Later_step h1).stop_mono hs
        refine ⟨a, u1, trivial, h1, joining_pending hu hj h1, hu1, hs1, ?_⟩
        cases ho1 : u1.owner with
        | idle => exact Or.inr ⟨hs1, Or.inl ho1⟩
        | destroyed => exact Or.inr ⟨hs1, Or.inr ho1⟩
        | joining k e' => exact Or.inl ⟨k, e', rfl⟩
        | terminated => exact absurd ho1 hu1.own_term
      · exact absurd hd hnp)
    s.pending s (Nat.le_refl _) ⟨h, (h.own_join i d ho).1, Or.inl ⟨i, d, ho⟩⟩
  exact ⟨bs, s', h1, h3, h4⟩

theorem outcome_ready (c : Callable) : c.outcome.ready = true := by
  cases c <;> rfl

/-- C7 (shutdown drains): in a pool with at least one worker, in every
execution: while the owner is inside `Destroy`, some thread can take a step,
every step that can be taken lowers `pending`, and at most `pending` steps lead
to a state where `Destroy` has returned; and once
`Destroy` has returned, every task that `Post` accepted has been run, its
shared state is ready and holds the outcome of its callable, and every one of
the `n` workers has exited. -/
theorem Destroy_drains (n : Nat) (as : List Action) (s : SimpleThreadPool) (hn : 1 ≤ n)
    (h : (construct n).exec as = some s) :
    (∀ i d, s.owner = .joining i d →
      (∃ a s', s.step a = some s') ∧
      (∀ a s', s.step a = some s' → s'.pending < s.pending) ∧
      ∃ bs s', bs.length ≤ s.pending ∧ s.exec bs = some s' ∧ s'.shutDown) ∧
    (s.shutDown →
      (∀ a ∈ s.enqueued, a ∈ s.ran ∧
        ∃ p, s.heap[a]? = some p ∧ p.cell = p.fn.outcome ∧ p.cell.ready = true) ∧
      s.workers.length = n ∧ ∀ w ∈ s.workers, w = .exited) := by
  have hinv : Inv n s := Inv_exec (Inv_construct n) h
  constructor
  · intro i d ho
    exact ⟨joining_can_step hinv ho, fun a s' hs => joining_pending hinv ho hs,
      Destroy_returns hinv ho⟩
  · intro hd
    obtain ⟨_, hw⟩ := shutDown_workers hinv hd
    have hq : s.settled := fun w hm => Or.inr (hw w hm)
    refine ⟨?_, hinv.nworkers, hw⟩
    intro a ha
    have hr := (settled_done hinv hn hq).2 a ha
    have hlt := hinv.enq_lt a ha
    refine ⟨hr, s.heap[a], List.getElem?_eq_getElem hlt, ?_, ?_⟩
    · exact hinv.cell_done a _ (List.getElem?_eq_getElem hlt) hr
    · rw [hinv.cell_done a _ (List.getElem?_eq_getElem hlt) hr]
      exact outcome_ready _

theorem Destroy_drains_witness :
    1 ≤ 2 ∧ (construct 2).exec drainSchedule = some drainedPool ∧ drainedPool.shutDown ∧
      drainedPool.enqueued = [0, 1, 2, 3] ∧
      (∀ a ∈ drainedPool.enqueued, a ∈ drainedPool.ran ∧
        ∃ p, drainedPool.heap[a]? = some p ∧ p.cell = p.fn.outcome ∧ p.cell.ready = true) ∧
      drainedPool.workers.length = 2 ∧ ∀ w ∈ drainedPool.workers, w = .exited :=
  ⟨by decide, by decide, by decide, by decide,
   (Destroy_drains 2 drainSchedule drainedPool (by decide) (by decide)).2 (by decide)⟩

/-- C8 (exactly once): in every state of every execution, no unit of work
occurs twice among the dequeued ones or twice among the executed ones, every
executed one was dequeued and every dequeued one was enqueued by `Post`; a
worker that calls a task finds its shared state not ready and is the one to
write it; and in a pool with at least one worker, once `Destroy` has returned,
every task accepted by `Post` has been dequeued exactly once and executed
exactly once. -/
theorem each_task_exactly_once (n : Nat) (as : List Action) (s : SimpleThreadPool)
    (h : (construct n).exec as = some s) :
    (∀ a, s.dequeued.count a ≤ 1 ∧ s.ran.count a ≤ 1) ∧
    (∀ a ∈ s.ran, a ∈ s.dequeued) ∧ (∀ a ∈ s.dequeued, a ∈ s.enqueued) ∧
    (∀ tid s', s.step (.run tid) = some s' →
      ∃ t p, s.workers[tid]? = some (.running t) ∧ s.heap[t]? = some p ∧
        p.cell = .notReady ∧ s'.ran = s.ran ++ [t] ∧
        s'.heap = s.heap.set t { p with cell := p.fn.outcome }) ∧
    (1 ≤ n → s.shutDown →
      ∀ a ∈ s.enqueued, s.dequeued.count a = 1 ∧ s.ran.count a = 1) := by
  have hinv : Inv n s := Inv_exec (Inv_construct n) h
  have hdn : s.dequeued.Nodup := by
    have := hinv.enq_nodup
    rw [← hinv.fifo] at this
    exact (List.nodup_append.1 this).1
  refine ⟨fun a => ⟨List.nodup_iff_count_le_one.1 hdn a,
      List.nodup_iff_count_le_one.1 hinv.exe_nodup a⟩, hinv.exe_deq,
    fun a ha => hinv.fifo ▸ List.mem_append_left _ ha, ?_, ?_⟩
  · intro tid s' hs
    obtain ⟨t, hr, rfl⟩ := WorkOn_run_cases hs
    obtain ⟨p, hp, hc, hi⟩ := invokeUnit_running hinv hr
    exact ⟨t, p, hr, hp, hc, by simp [ran], by rw [hi]⟩
  · intro hn hd a ha
    obtain ⟨_, hw⟩ := shutDown_workers hinv hd
    have hr := (settled_done hinv hn (fun w hm => Or.inr (hw w hm))).2 a ha
    exact ⟨List.count_eq_one_of_mem hdn (hinv.exe_deq a hr),
      List.count_eq_one_of_mem hinv.exe_nodup hr⟩

theorem each_task_exactly_once_witness :
    (construct 2).exec drainSchedule = some drainedPool ∧ 1 ≤ 2 ∧ drainedPool.shutDown ∧
      ∀ a ∈ drainedPool.enqueued, drainedPool.dequeued.count a = 1 ∧
        drainedPool.ran.count a = 1 :=
  ⟨by decide, by decide, by decide,
   (each_task_exactly_once 2 drainSchedule drainedPool (by decide)).2.2.2.2 (by decide)
     (by decide)⟩

/-- C9 as the code has it: once `Destroy` has returned, the vector of threads
is empty and every worker thread that was started has exited; the queue is
empty when the pool was constructed with at least one worker; in a pool
constructed with no worker the queue still holds every task that `Post`
accepted, and none of them was executed. -/
theorem Destroy_leaves_no_worker (n : Nat) (as : List Action) (s : SimpleThreadPool)
    (h : (construct n).exec as = some s) (hd : s.shutDown) :
    s.threads = [] ∧ s.workers.length = n ∧ (∀ w ∈ s.workers, w = .exited) ∧
      (1 ≤ n → s.tasks = []) ∧
      (n = 0 → s.tasks = s.enqueued ∧ s.executed = []) := by
  have hinv : Inv n s := Inv_exec (Inv_construct n) h
  obtain ⟨ht, hw⟩ := shutDown_workers hinv hd
  refine ⟨ht, hinv.nworkers, hw, ?_, ?_⟩
  · intro hn
    exact (settled_done hinv hn (fun w hm => Or.inr (hw w hm))).1
  · rintro rfl
    obtain ⟨e1, e2⟩ := no_worker_exec (Inv_construct 0) h
    have hf := hinv.fifo
    rw [e1] at hf
    exact ⟨by simpa [construct] using hf, by simpa [construct] using e2⟩

theorem Destroy_leaves_no_worker_witness :
    (construct 2).exec drainSchedule = some drainedPool ∧ drainedPool.shutDown ∧
      drainedPool.threads = [] ∧ drainedPool.workers = [.exited, .exited] ∧
      drainedPool.tasks = [] :=
  ⟨by decide, by decide,
   (Destroy_leaves_no_worker 2 drainSchedule drainedPool (by decide) (by decide)).1,
   by decide,
   (Destroy_leaves_no_worker 2 drainSchedule drainedPool (by decide) (by decide)).2.2.2.1
     (by decide)⟩

/-- C9 as stated fails for a pool constructed with no worker: after one
accepted `Post` and a `Destroy` that has returned, the task is still in the
queue. -/
theorem Destroy_zero_workers_queue_not_empty :
    (construct 0).exec [.post (.returns 1) 0, .destroy, .join] = some orphanPool ∧
      orphanPool.shutDown ∧ orphanPool.enqueued = [0] ∧ orphanPool.tasks = [0] ∧
      orphanPool.tasks ≠ [] := by
  decide

/-- Where every worker has exited and the owner is not in the join loop,
neither a worker nor the join loop can take a step. -/
theorem no_inner_step {v : SimpleThreadPool}
    (hw : ∀ (i : Nat) (w : WorkerPc), v.workers[i]? = some w → w = .exited)
    (ho : ∀ i d, v.owner ≠ .joining i d) (a : Action) (ha : a.inner = true) :
    v.step a = none := by
  cases h2 : v.step a with
  | none => rfl
  | some s2 =>
    exfalso
    cases a with
    | post task choice => cases ha
    | destroy => cases ha
    | destruct => cases ha
    | join =>
      cases hj : v.owner with
      | joining i d => exact ho i d hj
      | idle => simp [step, hj] at h2
      | destroyed => simp [step, hj] at h2
      | terminated => simp [step, hj] at h2
    | lock tid =>
      obtain ⟨h3, _⟩ := WorkOn_locked_cases h2
      cases hw tid _ h3
    | run tid =>
      obtain ⟨t, h3, _⟩ := WorkOn_run_cases h2
      cases hw tid _ h3
    | spurious tid =>
      simp only [step, spuriousWake] at h2
      split at h2
      · rename_i h3; cases hw tid _ h3
      · cases h2

/-- Inside a call of `Destroy` by the owner, the owner stays inside it or
returns from it. -/
theorem explicit_owner_step {s s' : SimpleThreadPool} {a : Action} (ha : a.inner = true)
    (ho : s.owner = .idle ∨ ∃ i, s.owner = .joining i false) (hs : s.step a = some s') :
    s'.owner = .idle ∨ ∃ i, s'.owner = .joining i false := by
  cases a with
  | post task choice => cases ha
  | destroy => cases ha
  | destruct => cases ha
  | join =>
    simp only [step] at hs
    split at hs
    · rename_i i d hj
      have hd : d = false := by
        rcases ho with h | ⟨k, h⟩
        · rw [h] at hj; cases hj
        · rw [h] at hj; cases hj; rfl
      subst hd
      rcases Destroy_join_cases hs with ⟨w, _, _, _, rfl⟩ | ⟨w, _, _, rfl⟩ | ⟨_, rfl⟩
      · exact Or.inr ⟨_, rfl⟩
      · exact Or.inr ⟨_, rfl⟩
      · exact Or.inl rfl
    · cases hs
  | lock tid =>
    obtain ⟨_, ⟨_, _, rfl⟩ | ⟨_, _, rfl⟩ | ⟨t, rest, _, rfl⟩⟩ := WorkOn_locked_cases hs <;>
      exact ho
  | run tid =>
    obtain ⟨t, _, rfl⟩ := WorkOn_run_cases hs
    exact ho
  | spurious tid =>
    simp only [step, spuriousWake] at hs
    split at hs
    · cases hs; exact ho
    · cases hs

/-- A run of the destructor follows, step for step of the workers and of the
join loop, a run of `Destroy` called by the owner. -/
theorem asDestructor_step {n : Nat} {v : SimpleThreadPool} (h : Inv n v) (hs : v.stop = true)
    (ho : v.owner = .idle ∨ ∃ i, v.owner = .joining i false) (a : Action)
    (ha : a.inner = true) : (v.step a).map asDestructor = (asDestructor v).step a := by
  rcases ho with ho | ⟨i, ho⟩
  · have hw : ∀ (i : Nat) (w : WorkerPc), v.workers[i]? = some w → w = .exited := fun i w hi =>
      (shutDown_workers h ⟨hs, Or.inl ho⟩).2 w (List.getElem?_mem hi)
    have ht : v.threads = [] := h.own_idle ho hs
    have hd : asDestructor v =
        { v with heap := destroyTasks v.heap v.tasks, owner := .destroyed } := by
      simp [asDestructor, ho, destroy_members, ht]
    have h2 : ({ v with heap := destroyTasks v.heap v.tasks,
                        owner := .destroyed } : SimpleThreadPool).step a = none :=
      @no_inner_step { v with heap := destroyTasks v.heap v.tasks, owner := .destroyed }
        hw (fun i d hj => by cases hj) a ha
    rw [no_inner_step hw (fun i d hj => by rw [ho] at hj; cases hj) a ha, hd, h2]
    rfl
  · have hd : asDestructor v = { v with owner := .joining i true } := by
      simp [asDestructor, ho]
    rw [hd]
    cases a with
    | post task choice => cases ha
    | destroy => cases ha
    | destruct => cases ha
    | join =>
      simp only [step, ho, Destroy_join]
      split
      · split
        · split
          · simp [asDestructor]
          · rfl
        · simp [asDestructor]
      · simp [asDestructor, destroy_members]
    | lock tid =>
      simp only [step, WorkOn_locked]
      split
      · split
        · split <;> simp [asDestructor, ho, WorkOn_take]
        · simp [asDestructor, ho]
      · rfl
    | run tid =>
      simp only [step, WorkOn_run]
      split <;> simp [asDestructor, ho]
    | spurious tid =>
      simp only [step, spuriousWake]
      split <;> simp [asDestructor, ho]

theorem asDestructor_exec {n : Nat} {v : SimpleThreadPool} (h : Inv n v) (hs : v.stop = true)
    (ho : v.owner = .idle ∨ ∃ i, v.owner = .joining i false) (bs : List Action)
    (hb : ∀ a ∈ bs, a.inner = true) :
    (v.exec bs).map asDestructor = (asDestructor v).exec bs := by
  induction bs generalizing v with
  | nil => rfl
  | cons a bs ih =>
    have ha := hb a (List.mem_cons_self _ _)
    have h1 := asDestructor_step h hs ho a ha
    simp only [exec]
    cases hst : v.step a with
    | none =>
      rw [hst] at h1
      simp only [Option.map_none'] at h1
      rw [← h1]; rfl
    | some v1 =>
      rw [hst] at h1
      simp only [Option.map_some'] at h1
      rw [← h1]
      exact ih (Inv_step h hst) ((Later_step hst).stop_mono hs)
        (explicit_owner_step ha ho hst) (fun b hb' => hb b (List.mem_cons_of_mem _ hb'))

/-- Only the join loop touches the vector of threads and the record of joins. -/
theorem threads_joined_step {s s' : SimpleThreadPool} {a : Action} (ha : a ≠ .join)
    (hs : s.step a = some s') : s'.threads = s.threads ∧ s'.joined = s.joined := by
  cases a with
  | post task choice =>
    simp only [step] at hs
    split at hs
    · cases hs
      rcases Post_cases s task choice with ⟨_, he⟩ | ⟨_, he⟩ <;> rw [he] <;> exact ⟨rfl, rfl⟩
    · cases hs
  | destroy =>
    simp only [step] at hs
    split at hs
    · cases hs
      rcases Destroy_enter_cases s false with ⟨_, he⟩ | ⟨_, he⟩ <;> rw [he] <;> exact ⟨rfl, rfl⟩
    · cases hs
  | join => exact absurd rfl ha
  | destruct =>
    simp only [step] at hs
    split at hs
    · cases hs
      unfold destructor destroy_members
      split
      · rcases Destroy_enter_cases s true with ⟨_, he⟩ | ⟨_, he⟩ <;> rw [he] <;>
          exact ⟨rfl, rfl⟩
      · dsimp only
        split <;> exact ⟨rfl, rfl⟩
    · cases hs
  | lock tid =>
    obtain ⟨_, ⟨_, _, rfl⟩ | ⟨_, _, rfl⟩ | ⟨t, rest, _, rfl⟩⟩ := WorkOn_locked_cases hs <;>
      exact ⟨rfl, rfl⟩
  | run tid =>
    obtain ⟨t, _, rfl⟩ := WorkOn_run_cases hs
    exact ⟨rfl, rfl⟩
  | spurious tid =>
    simp only [step, spuriousWake] at hs
    split at hs
    · cases hs; exact ⟨rfl, rfl⟩
    · cases hs

theorem JoinInv_construct (n : Nat) : JoinInv n (construct n) := by
  by_cases hn : n = 0
  · subst hn
    exact ⟨by simp [construct], by simp⟩
  · constructor
    · intro i t hi hj
      simp only [construct, hn, if_false] at hi
      rw [spawn_getElem? n i t hi] at hj
      cases hj
    · intro h0
      simp only [construct, hn, if_false] at h0
      have := spawn_length n
      rw [h0] at this
      simp at this
      exact absurd this.symm hn

theorem JoinInv_step {n : Nat} {s s' : SimpleThreadPool} {a : Action} (h : Inv n s)
    (hj : JoinInv n s) (hs : s.step a = some s') : JoinInv n s' := by
  by_cases ha : a = .join
  · subst ha
    simp only [step] at hs
    split at hs
    · rename_i i d ho
      obtain ⟨_, hile, hprev⟩ := h.own_join i d ho
      rcases Destroy_join_cases hs with ⟨w, hw, _, _, rfl⟩ | ⟨w, hw, _, rfl⟩ | ⟨hw, rfl⟩
      · have hlt := lt_of_getElem? hw
        have hid : w.id = i := h.thr_id i w hw
        constructor
        · intro k t hk hjn
          dsimp only at hk ⊢
          rcases (getElem?_set_some hlt).1 hk with ⟨rfl, _⟩ | ⟨_, hk'⟩
          · rw [hid]; simp
          · exact List.mem_append_left _ (hj.done_joined k t hk' hjn)
        · intro h0
          have := congrArg List.length h0
          simp only [List.length_set, List.length_nil] at this
          omega
      · exact ⟨hj.done_joined, hj.empty_joined⟩
      · constructor
        · intro k t hk; simp at hk
        · intro _ k hk
          dsimp only
          rcases h.thr_len with h0 | h0
          · exact hj.empty_joined h0 k hk
          · have hge : s.threads.length ≤ i := by
              by_contra hlt
              rw [List.getElem?_eq_getElem (by omega)] at hw
              cases hw
            have hkl : k < s.threads.length := by omega
            exact hj.done_joined k _ (List.getElem?_eq_getElem hkl)
              (hprev k _ (by omega) (List.getElem?_eq_getElem hkl))
    · cases hs
  · obtain ⟨e1, e2⟩ := threads_joined_step ha hs
    exact ⟨by rw [e1, e2]; exact hj.done_joined, by rw [e1, e2]; exact hj.empty_joined⟩

theorem JoinInv_exec {n : Nat} {s s' : SimpleThreadPool} {as : List Action} (h : Inv n s)
    (hj : JoinInv n s) (hs : s.exec as = some s') : JoinInv n s' := by
  induction as generalizing s with
  | nil => cases hs; exact hj
  | cons a as ih =>
    simp only [exec] at hs
    split at hs
    · rename_i s1 h1; exact ih (Inv_step h h1) (JoinInv_step h hj h1) hs
    · cases hs

/-- Inside the destructor the owner stays inside the destructor. -/
theorem dtor_owner_step {s s' : SimpleThreadPool} {a : Action}
    (ho : s.owner = .destroyed ∨ ∃ i, s.owner = .joining i true) (hs : s.step a = some s') :
    s'.owner = .destroyed ∨ ∃ i, s'.owner = .joining i true := by
  have hni : s.owner ≠ .idle := by
    rcases ho with h | ⟨i, h⟩ <;> rw [h] <;> simp
  cases a with
  | post task choice => simp [step, hni] at hs
  | destroy => simp [step, hni] at hs
  | destruct => simp [step, hni] at hs
  | join =>
    simp only [step] at hs
    split at hs
    · rename_i i d hj
      have hd : d = true := by
        rcases ho with h | ⟨k, h⟩
        · rw [h] at hj; cases hj
        · rw [h] at hj; cases hj; rfl
      subst hd
      rcases Destroy_join_cases hs with ⟨w, _, _, _, rfl⟩ | ⟨w, _, _, rfl⟩ | ⟨_, rfl⟩
      · exact Or.inr ⟨_, rfl⟩
      · exact Or.inr ⟨_, rfl⟩
      · exact Or.inl rfl
    · cases hs
  | lock tid =>
    obtain ⟨_, ⟨_, _, rfl⟩ | ⟨_, _, rfl⟩ | ⟨t, rest, _, rfl⟩⟩ := WorkOn_locked_cases hs <;>
      exact ho
  | run tid =>
    obtain ⟨t, _, rfl⟩ := WorkOn_run_cases hs
    exact ho
  | spurious tid =>
    simp only [step, spuriousWake] at hs
    split at hs
    · cases hs; exact ho
    · cases hs

theorem dtor_owner_exec {s s' : SimpleThreadPool} {as : List Action}
    (ho : s.owner = .destroyed ∨ ∃ i, s.owner = .joining i true) (hs : s.exec as = some s') :
    s'.owner = .destroyed ∨ ∃ i, s'.owner = .joining i true := by
  induction as generalizing s with
  | nil => cases hs; exact ho
  | cons a as ih =>
    simp only [exec] at hs
    split at hs
    · rename_i s1 h1; exact ih (dtor_owner_step ho h1) hs
    · cases hs

/-- C11 as stated fails for a pool constructed with no worker: the stop flag
being clear and one task accepted, `Destroy` leaves the shared state of the
task not ready, while the destructor leaves it ready, holding
`broken_promise`. -/
theorem destructor_breaks_queued_promise :
    ((construct 0).Post (.returns 1) 0).2.stop = false ∧
      ((construct 0).Post (.returns 1) 0).2.owner = .idle ∧
      ((construct 0).Post (.returns 1) 0).2.exec [.destroy, .join] = some orphanPool ∧
      ((construct 0).Post (.returns 1) 0).2.exec [.destruct, .join] = some brokenPool ∧
      orphanPool.get { state := some 0 } = .waits ∧
      brokenPool.get { state := some 0 } = .rethrown broken_promise ∧
      brokenPool ≠ { orphanPool with owner := .destroyed } := by
  decide

/-- C11, as the code has it: the destructor, called by the owner from outside
every member function.  On a pool whose stop flag is clear it enters `Destroy`;
what follows is, step for step of the workers and of the join loop, what
follows a call of `Destroy` by the owner, with the destructor as the caller
inside the join loop, and where `Destroy` has returned the destructor has gone
on to destroy the members: the queue, which breaks the promise of every task
still in it, then the empty vector of threads.  In a pool with at least one
worker the queue is empty by then, and the pool is left exactly as `Destroy`
leaves it.  The destructor comes to its end within `pending` steps; the stop
flag is set from its first step on; and at its end the vector of threads is
empty, every one of the `n` workers was joined and has exited.  On a pool
whose stop flag is set the destructor does not enter `Destroy`: it goes to the
destruction of the members at once, nothing is notified and nothing is
joined. -/
theorem destructor_is_Destroy (n : Nat) (s : SimpleThreadPool) (hr : Reachable n s)
    (ho : s.owner = .idle) :
    (s.stop = false →
      s.step .destruct = some (s.Destroy_enter true) ∧
      s.step .destroy = some (s.Destroy_enter false) ∧
      (∀ bs, (∀ a ∈ bs, a.inner = true) →
        (s.Destroy_enter true).exec bs =
          ((s.Destroy_enter false).exec bs).map asDestructor) ∧
      (∀ bs v, (s.Destroy_enter false).exec bs = some v →
        (∀ i d, v.owner = .joining i d → asDestructor v = { v with owner := .joining i true }) ∧
        (v.owner = .idle →
          asDestructor v =
            { v with heap := destroyTasks v.heap v.tasks, owner := .destroyed } ∧
          (1 ≤ n → asDestructor v = { v with owner := .destroyed }))) ∧
      (∃ bs u, bs.length ≤ (s.Destroy_enter true).pending ∧
        (s.Destroy_enter true).exec bs = some u ∧ u.owner = .destroyed) ∧
      ∀ bs u, (s.Destroy_enter true).exec bs = some u →
        u.stop = true ∧ (u.owner = .destroyed ∨ ∃ i, u.owner = .joining i true) ∧
        (u.owner = .destroyed →
          u.threads = [] ∧ (∀ w ∈ u.workers, w = .exited) ∧ u.workers.length = n ∧
          ∀ i, i < n → i ∈ u.joined)) ∧
    (s.stop = true →
      s.step .destruct =
        some { s with heap := destroyTasks s.heap s.tasks, owner := .destroyed } ∧
      (1 ≤ n → s.step .destruct = some { s with owner := .destroyed })) := by
  have hinv := Inv_reachable hr
  have hidle : ∀ v : SimpleThreadPool, Inv n v → v.stop = true → v.owner = .idle →
      asDestructor v = { v with heap := destroyTasks v.heap v.tasks, owner := .destroyed } ∧
      (1 ≤ n → asDestructor v = { v with owner := .destroyed }) := by
    intro v hv hvs hvo
    have ht : v.threads = [] := hv.own_idle hvo hvs
    have hd : asDestructor v =
        { v with heap := destroyTasks v.heap v.tasks, owner := .destroyed } := by
      simp [asDestructor, hvo, destroy_members, ht]
    refine ⟨hd, fun hn => ?_⟩
    have hq : v.tasks = [] :=
      (settled_done hv hn (fun w hm =>
        Or.inr ((shutDown_workers hv ⟨hvs, Or.inl hvo⟩).2 w hm))).1
    rw [hd, hq]
    rfl
  constructor
  · intro hs
    have hd : s.step .destruct = some (s.Destroy_enter true) := by
      simp [step, ho, destructor, hs]
    have hown : (s.Destroy_enter true).owner = .joining 0 true := by
      rcases Destroy_enter_cases s true with ⟨_, he⟩ | ⟨_, he⟩ <;> rw [he]
    have hown0 : (s.Destroy_enter false).owner = .joining 0 false := by
      rcases Destroy_enter_cases s false with ⟨_, he⟩ | ⟨_, he⟩ <;> rw [he]
    have hinv1 : Inv n (s.Destroy_enter true) := Inv_Destroy_enter true hinv ho
    have hinv0 : Inv n (s.Destroy_enter false) := Inv_Destroy_enter false hinv ho
    have hstop0 : (s.Destroy_enter false).stop = true := (hinv0.own_join 0 false hown0).1
    have hsame : asDestructor (s.Destroy_enter false) = s.Destroy_enter true := by
      rcases Destroy_enter_cases s false with ⟨h0, _⟩ | ⟨_, he0⟩
      · rw [hs] at h0; cases h0
      · rcases Destroy_enter_cases s true with ⟨h1, _⟩ | ⟨_, he1⟩
        · rw [hs] at h1; cases h1
        · rw [he0, he1]; rfl
    have hj1 : JoinInv n (s.Destroy_enter true) := by
      obtain ⟨bs, hbs⟩ := hr
      exact JoinInv_step hinv (JoinInv_exec (Inv_construct n) (JoinInv_construct n) hbs) hd
    refine ⟨hd, by simp [step, ho], ?_, ?_, ?_, ?_⟩
    · intro bs hb
      rw [← hsame]
      exact (asDestructor_exec hinv0 hstop0 (Or.inr ⟨0, hown0⟩) bs hb).symm
    · intro bs v hx
      have hv := Inv_exec hinv0 hx
      have hvs := (Later_exec hx).stop_mono hstop0
      refine ⟨?_, hidle v hv hvs⟩
      intro i d hj
      simp [asDestructor, hj]
    · obtain ⟨bs, u, h1, h2, h3⟩ := Destroy_returns hinv1 hown
      refine ⟨bs, u, h1, h2, ?_⟩
      rcases dtor_owner_exec (Or.inr ⟨0, hown⟩) h2 with h4 | ⟨i, h4⟩
      · exact h4
      · rcases h3.2 with h5 | h5
        · rw [h4] at h5; cases h5
        · exact h5
    · intro bs u hx
      have hu := Inv_exec hinv1 hx
      refine ⟨(Later_exec hx).stop_mono (hinv1.own_join 0 true hown).1,
        dtor_owner_exec (Or.inr ⟨0, hown⟩) hx, ?_⟩
      intro hd'
      obtain ⟨ht, hw⟩ := shutDown_workers hu ⟨(hu.own_destroyed hd').1, Or.inr hd'⟩
      exact ⟨ht, hw, hu.nworkers, (JoinInv_exec hinv1 hj1 hx).empty_joined ht⟩
  · intro hs
    have hdes := destructor_stopped hinv ho hs
    refine ⟨by simp only [step, ho, if_true, hdes], fun hn => ?_⟩
    have hq : s.tasks = [] :=
      (settled_done hinv hn (fun w hm =>
        Or.inr ((shutDown_workers hinv ⟨hs, Or.inl ho⟩).2 w hm))).1
    simp only [step, ho, if_true, hdes, hq, destroyTasks]

theorem destructor_is_Destroy_witness :
    Reachable 2 busyPool ∧ busyPool.owner = .idle ∧ busyPool.stop = false ∧
      busyPool.step .destruct = some (busyPool.Destroy_enter true) ∧
      (busyPool.Destroy_enter true).stop = true ∧
      Reachable 2 drainedPool ∧ drainedPool.owner = .idle ∧ drainedPool.stop = true ∧
      drainedPool.step .destruct = some { drainedPool with owner := .destroyed } :=
  have hr : Reachable 2 busyPool := ⟨busySchedule, by decide⟩
  have hd : Reachable 2 drainedPool := ⟨drainSchedule, by decide⟩
  ⟨hr, by decide, by decide,
   ((destructor_is_Destroy 2 busyPool hr (by decide)).1 (by decide)).1, by decide,
   hd, by decide, by decide,
   ((destructor_is_Destroy 2 drainedPool hd (by decide)).2 (by decide)).2 (by decide)⟩

/-- C12: the stop flag is false right after construction, and no step of any
execution (a call of `Post`, of `Destroy` or of the destructor, an iteration
of the join loop, a step of a worker) clears it: once it is set it is set in
every later state.  The same holds for the calls `Post`, `Destroy` and the
destructor taken as functions of the pool. -/
theorem stop_flag_monotone :
    (∀ n, (construct n).stop = false) ∧
    (∀ (s s' : SimpleThreadPool) (a : Action), s.step a = some s' → s.stop = true →
      s'.stop = true) ∧
    (∀ (s s' : SimpleThreadPool) (as : List Action), s.exec as = some s' → s.stop = true →
      s'.stop = true) ∧
    (∀ (s : SimpleThreadPool) (task : Callable) (choice : Nat), s.stop = true →
      (s.Post task choice).2.stop = true) ∧
    (∀ (s : SimpleThreadPool) (d : Bool), (s.Destroy_enter d).stop = true) ∧
    (∀ (s : SimpleThreadPool), s.stop = true → s.destructor.stop = true) := by
  refine ⟨?_, fun s s' a h => (Later_step h).stop_mono, fun s s' as h => (Later_exec h).stop_mono,
    fun s task choice => (Later_Post s task choice).stop_mono, ?_, ?_⟩
  · intro n
    unfold construct; split <;> rfl
  · intro s d
    rcases Destroy_enter_cases s d with ⟨h, he⟩ | ⟨_, he⟩ <;> rw [he]
    exact h
  · intro s hs
    simp only [destructor, hs, destroy_members]
    simp only [Bool.not_true, Bool.false_eq_true, if_false]
    split <;> rfl

theorem stop_flag_monotone_witness :
    (construct 2).stop = false ∧
      (construct 2).exec drainSchedule = some drainedPool ∧ drainedPool.stop = true ∧
      drainedPool.exec [.destroy, .join, .post (.returns 1) 0, .destruct] =
        some ((drainedPool.Post (.returns 1) 0).2.destructor) ∧
      ((drainedPool.Post (.returns 1) 0).2.destructor).stop = true :=
  ⟨stop_flag_monotone.1 2, by decide, by decide, by decide,
   stop_flag_monotone.2.2.1 drainedPool _ [.destroy, .join, .post (.returns 1) 0, .destruct]
     (by decide) (by decide)⟩

/-- C13 as stated fails once the pool is destroyed: in a pool constructed
with no worker, after one accepted `Post`, the destructor leaves the task not
executed and its shared state ready, holding `broken_promise`. -/
theorem zero_workers_cell_ready_after_destructor :
    (construct 0).exec [.post (.returns 1) 0, .destruct, .join] = some brokenPool ∧
      brokenPool.executed = [] ∧ brokenPool.owner = .destroyed ∧
      brokenPool.heap[0]? = some { fn := .returns 1, cell := .failure broken_promise } ∧
      (brokenPool.heap[0]?.map fun p => p.cell.ready) = some true := by
  decide

/-- C13, as the code has it: a pool constructed with `threadCount == 0`.  The
constructor returns a pool after writing its warning to `std::cerr`; the pool
has no worker thread and no thread handle.  In every state of every execution
from there (so also after `Destroy`): there is no worker; nothing was dequeued
or executed; every accepted task is still in the queue; as long as the pool has
not been destroyed no shared state is ready, so `get` on a future waits; once
the pool has been destroyed the shared state of every task that was in the
queue holds `broken_promise`, which `get` rethrows, and no other shared state
is ready; and as long as the stop flag is clear `Post` is a step the owner can
take from outside the member functions, it returns a future and puts the new
unit of work at the tail of the queue. -/
theorem zero_workers_never_run :
    (construct 0).cerr = [.zeroThreads] ∧ (construct 0).workers = [] ∧
    (construct 0).threads = [] ∧ (construct 0).stop = false ∧ (construct 0).owner = .idle ∧
    ∀ (as : List Action) (s : SimpleThreadPool), (construct 0).exec as = some s →
      s.workers = [] ∧ s.dequeued = [] ∧ s.executed = [] ∧ s.tasks = s.enqueued ∧
      (s.owner ≠ .destroyed → ∀ a p, s.heap[a]? = some p →
        p.cell = .notReady ∧ s.get { state := some a } = .waits) ∧
      (s.owner = .destroyed → ∀ a p, s.heap[a]? = some p →
        (a ∈ s.tasks → p.cell = .failure broken_promise ∧
          s.get { state := some a } = .rethrown broken_promise) ∧
        (a ∉ s.tasks → p.cell = .notReady ∧ s.get { state := some a } = .waits)) ∧
      (s.stop = false → ∀ (task : Callable) (choice : Nat),
        s.step (.post task choice) = some (s.Post task choice).2 ∧
        (s.Post task choice).1 = .ok { state := some s.heap.length } ∧
        (s.Post task choice).2.tasks = s.tasks ++ [s.heap.length]) := by
  refine ⟨rfl, rfl, rfl, rfl, rfl, ?_⟩
  intro as s hx
  have hinv : Inv 0 s := Inv_exec (Inv_construct 0) hx
  obtain ⟨hd, he, hran, hq⟩ := no_worker_queue ⟨as, hx⟩
  refine ⟨List.length_eq_zero.1 hinv.nworkers, hd, he, hq, ?_, ?_, ?_⟩
  · intro ho a p hp
    have hc := hinv.cell_wait ho a p hp (by rw [hran]; simp)
    exact ⟨hc, by simp [get, hp, hc]⟩
  · intro ho a p hp
    have hc := hinv.cell_gone ho a p hp (by rw [hran]; simp)
    constructor
    · intro hm
      rw [if_pos hm] at hc
      exact ⟨hc, by simp [get, hp, hc]⟩
    · intro hm
      rw [if_neg hm] at hc
      exact ⟨hc, by simp [get, hp, hc]⟩
  · intro hs task choice
    rcases Post_cases s task choice with ⟨h0, _⟩ | ⟨_, hpost⟩
    · rw [hs] at h0; cases h0
    · refine ⟨by simp [step, (hinv.stop_idle hs).1], by rw [hpost], by rw [hpost]⟩

theorem zero_workers_never_run_witness :
    (construct 0).exec [.post (.returns 1) 0, .destroy, .join] = some orphanPool ∧
      orphanPool.executed = [] ∧ orphanPool.tasks = [0] ∧
      orphanPool.get { state := some 0 } = .waits :=
  ⟨by decide,
   (zero_workers_never_run.2.2.2.2.2 [.post (.returns 1) 0, .destroy, .join] orphanPool
     (by decide)).2.2.1,
   by decide,
   ((zero_workers_never_run.2.2.2.2.2 [.post (.returns 1) 0, .destroy, .join] orphanPool
     (by decide)).2.2.2.2.1 (by decide) 0 { fn := .returns 1, cell := .notReady }
     (by decide)).2⟩

theorem countP_eq_length_of_all (ws : List WorkerPc) (q : WorkerPc → Bool)
    (h : ∀ w ∈ ws, q w = true) : ws.countP q = ws.length := by
  induction ws with
  | nil => rfl
  | cons w ws ih =>
    have hw := h w (List.mem_cons_self _ _)
    simp only [List.countP_cons, hw, if_true, List.length_cons]
    rw [ih (fun x hx => h x (List.mem_cons_of_mem _ hx))]

/-- C14: the constructor called with `threadCount = n` gives a pool with `n`
worker threads, each at the top of the loop of `WorkOn`, `n` joinable thread
handles, an empty queue and a clear stop flag; the first step of each worker
puts it to sleep in `condition.wait`.  In every state of every execution the
pool has `n` worker threads, and as long as the stop flag is clear none of them
has exited and all `n` handles are there and joinable. -/
theorem construct_spawns_workers (n : Nat) :
    (construct n).m_threadCount = n ∧ (construct n).workers = List.replicate n .ready ∧
    (construct n).threads = spawn n ∧ (spawn n).length = n ∧
    (construct n).tasks = [] ∧ (construct n).stop = false ∧
    (∀ tid, tid < n → ∃ s', (construct n).step (.lock tid) = some s' ∧
      s'.workers[tid]? = some .blocked) ∧
    ∀ (as : List Action) (s : SimpleThreadPool), (construct n).exec as = some s →
      s.workers.length = n ∧
      (s.stop = false → s.live = n ∧ s.threads.length = n ∧
        ∀ t ∈ s.threads, t.joinable = true) := by
  have hc : (construct n).workers = List.replicate n .ready ∧ (construct n).threads = spawn n ∧
      (construct n).tasks = [] ∧ (construct n).stop = false := by
    by_cases hn : n = 0
    · subst hn; exact ⟨rfl, rfl, rfl, rfl⟩
    · simp [construct, hn]
  refine ⟨by unfold construct; split <;> rfl, hc.1, hc.2.1, spawn_length n, hc.2.2.1, hc.2.2.2,
    ?_, ?_⟩
  · intro tid htid
    have hw : (construct n).workers[tid]? = some .ready := by
      rw [hc.1, List.getElem?_replicate, if_pos htid]
    have hlen : tid < (construct n).workers.length := lt_of_getElem? hw
    refine ⟨{ construct n with workers := (construct n).workers.set tid .blocked }, ?_, ?_⟩
    · simp [step, WorkOn_locked, hw, waitOver, hc.2.2.1, hc.2.2.2]
    · simp [hlen]
  · intro as s hx
    have hinv : Inv n s := Inv_exec (Inv_construct n) hx
    refine ⟨hinv.nworkers, ?_⟩
    intro hs
    refine ⟨?_, (hinv.stop_idle hs).2, ?_⟩
    · unfold live
      rw [countP_eq_length_of_all, hinv.nworkers]
      intro w hw
      simp only [ne_eq, decide_eq_true_eq]
      rintro rfl
      have := (hinv.exit_stop (List.mem_iff_getElem?.1 hw)).1
      rw [hs] at this; cases this
    · intro t ht
      obtain ⟨i, hi⟩ := List.mem_iff_getElem?.1 ht
      cases hj : t.joinable with
      | true => rfl
      | false =>
        obtain ⟨_, j, d, hjn, _⟩ := hinv.thr_done i t hi hj
        rw [(hinv.stop_idle hs).1] at hjn
        cases hjn

theorem construct_spawns_workers_witness :
    (construct 2).exec busySchedule = some busyPool ∧ busyPool.stop = false ∧
      busyPool.workers.length = 2 ∧ busyPool.live = 2 ∧ busyPool.threads.length = 2 :=
  have h := (construct_spawns_workers 2).2.2.2.2.2.2.2 busySchedule busyPool (by decide)
  ⟨by decide, by decide, h.1, (h.2 (by decide)).1, (h.2 (by decide)).2.1⟩

/-- C15: the future that `Post` returned, in a later state in which its shared
state is ready: the future is valid, `get` returns the value or rethrows the
exception that the shared state holds, and the future is left without shared
state; a second `get` on it, in whatever state `s''` of the pool, is the error
of a future without shared state, not what the first `get` gave.  What the
shared state holds is the outcome of the callable, the one exception being a
pool constructed without workers that has been destroyed: there it holds
`broken_promise`.  While the shared state is not ready `get` waits and leaves
the future valid. -/
theorem future_get_one_shot (n : Nat) (s s' s'' : SimpleThreadPool) (task : Callable)
    (choice : Nat) (f : Future) (as : List Action) (hr : Reachable n s)
    (hp : (s.Post task choice).1 = .ok f) (hx : (s.Post task choice).2.exec as = some s') :
    valid f = true ∧
    (s'.get f = .waits → s'.getAndRelease f = (.waits, f)) ∧
    (s'.get f ≠ .waits →
      (∃ p, s'.heap[s.heap.length]? = some p ∧ p.fn = task ∧ p.cell.ready = true ∧
        (s'.getAndRelease f).1 = Got.ofCell p.cell ∧
        (p.cell = task.outcome ∨
          (n = 0 ∧ s'.owner = .destroyed ∧ p.cell = .failure broken_promise))) ∧
      (1 ≤ n ∨ s'.owner ≠ .destroyed → (s'.getAndRelease f).1 = resultOf task) ∧
      (s'.getAndRelease f).1 ≠ .noState ∧
      valid (s'.getAndRelease f).2 = false ∧
      (s''.getAndRelease (s'.getAndRelease f).2).1 = .noState ∧
      (s''.getAndRelease (s'.getAndRelease f).2).1 ≠ (s'.getAndRelease f).1) := by
  obtain ⟨hinv, rfl, he, p, hp', rfl⟩ := future_tracks_task hr hp hx
  have hget : s'.get { state := some s.heap.length } = Got.ofCell p.cell := by
    simp only [get, hp']
    cases p.cell <;> rfl
  refine ⟨rfl, ?_, ?_⟩
  · intro hw
    simp only [getAndRelease, hw]
  · intro hnw
    rw [hget] at hnw
    have hready : p.cell.ready = true := by
      cases hc : p.cell with
      | notReady => rw [hc] at hnw; exact absurd rfl hnw
      | value v => rfl
      | failure e => rfl
    have hrel : s'.getAndRelease { state := some s.heap.length } =
        (Got.ofCell p.cell, { state := none }) := by
      simp only [getAndRelease, hget]
      cases hc : p.cell with
      | notReady => rw [hc] at hready; cases hready
      | value v => rfl
      | failure e => rfl
    have hcell : p.cell = p.fn.outcome ∨
        (n = 0 ∧ s'.owner = .destroyed ∧ p.cell = .failure broken_promise) := by
      by_cases hm : s.heap.length ∈ s'.ran
      · exact Or.inl (hinv.cell_done _ p hp' hm)
      · by_cases hq : s'.owner = .destroyed ∧ s.heap.length ∈ s'.tasks
        · right
          have hn : n = 0 := by
            by_contra h0
            have hnil := hinv.drained (Nat.pos_of_ne_zero h0) hq.1
            rw [hnil] at hq
            exact absurd hq.2 (by simp)
          exact ⟨hn, hq.1, (get_abandoned hinv hp' hq.1 hq.2).1⟩
        · have hc := hinv.cell_idle hp' hm (fun ho hmem => hq ⟨ho, hmem⟩)
          rw [hc] at hready; cases hready
    have hne : Got.ofCell p.cell ≠ .noState := by
      cases p.cell <;> simp [Got.ofCell]
    rw [hrel]
    refine ⟨⟨p, hp', rfl, hready, rfl, hcell⟩, ?_, hne, rfl, rfl, fun h => hne h.symm⟩
    intro hq
    rcases hcell with hc | ⟨h0, hd, _⟩
    · show Got.ofCell p.cell = resultOf p.fn
      rw [hc]
      cases p.fn <;> rfl
    · rcases hq with hq | hq
      · omega
      · exact absurd hd hq

theorem future_get_one_shot_witness :
    Reachable 2 busyPool ∧ (busyPool.Post (.returns 9) 0).1 = .ok { state := some 4 } ∧
      (busyPool.Post (.returns 9) 0).2.exec settleSchedule = some settledPool ∧
      settledPool.get { state := some 4 } ≠ .waits ∧
      settledPool.getAndRelease { state := some 4 } = (.value 9, { state := none }) ∧
      (settledPool.getAndRelease (settledPool.getAndRelease { state := some 4 }).2).1 =
        .noState :=
  have hr : Reachable 2 busyPool := ⟨busySchedule, by decide⟩
  ⟨hr, by decide, by decide, by decide, by decide,
   ((future_get_one_shot 2 busyPool settledPool settledPool (.returns 9) 0
      { state := some 4 } settleSchedule hr (by decide) (by decide)).2.2
      (by decide)).2.2.2.2.1⟩

/-- Two workers can each be in the call of a task at the same moment, the lock
held by neither; the same submissions can also be run one after the other by
one worker.  Which of the two happens is up to the scheduler. -/
theorem two_tasks_in_flight :
    ((construct 2).exec overlapSchedule).map (fun s => s.workers) =
        some [.running 0, .running 1] ∧
      ((construct 2).exec serialSchedule).map (fun s => (s.executed, s.workers)) =
        some ([(0, 0), (1, 0)], [.ready, .blocked]) := by
  decide

/-! ## The worker loop -/

/-- C21 (draining takes priority over stopping): a worker about to test the
predicate of `condition.wait`.  The wait is over exactly when the stop flag is
set or the queue is not empty; otherwise the worker sleeps.  When the wait is
over and the queue is not empty, the worker removes the head of the queue and
leaves the locked block with it, whether the stop flag is set or not; and the
worker returns from `WorkOn` exactly when the stop flag is set and the queue
is empty. -/
theorem drain_before_exit (s : SimpleThreadPool) (tid : Nat)
    (hw : s.workers[tid]? = some .ready) :
    (waitOver s.stop s.tasks = true ↔ s.stop = true ∨ s.tasks ≠ []) ∧
    (waitOver s.stop s.tasks = false →
      s.step (.lock tid) = some { s with workers := s.workers.set tid .blocked }) ∧
    (waitOver s.stop s.tasks = true →
      (∀ t rest, s.tasks = t :: rest →
        WorkOn_take s.stop s.tasks = .task t rest ∧
        s.step (.lock tid) = some
          { s with tasks := rest, dequeued := s.dequeued ++ [t],
                   workers := s.workers.set tid (.running t) }) ∧
      (WorkOn_take s.stop s.tasks = .exit ↔ s.stop = true ∧ s.tasks = []) ∧
      (s.stop = true ∧ s.tasks = [] →
        s.step (.lock tid) = some { s with workers := s.workers.set tid .exited }) ∧
      ∃ s', s.step (.lock tid) = some s' ∧
        (s'.workers[tid]? = some .exited ↔ s.stop = true ∧ s.tasks = [])) := by
  have hlt : tid < s.workers.length := lt_of_getElem? hw
  refine ⟨?_, ?_, ?_⟩
  · cases hs : s.stop <;> cases hq : s.tasks <;> simp [waitOver]
  · intro hover
    simp only [step, WorkOn_locked, hw, hover, if_true]
    rfl
  · intro hover
    have hcases : s.tasks = [] ∨ ∃ t rest, s.tasks = t :: rest := by
      cases s.tasks with
      | nil => exact Or.inl rfl
      | cons t rest => exact Or.inr ⟨t, rest, rfl⟩
    rcases hcases with hq | ⟨t, rest, hq⟩
    · have hs : s.stop = true := by
        cases hs : s.stop
        · simp [waitOver, hs, hq] at hover
        · rfl
      have hstep : s.step (.lock tid) = some { s with workers := s.workers.set tid .exited } := by
        simp only [step, WorkOn_locked, hw, hover, if_true, WorkOn_take, hs, hq]
        rfl
      refine ⟨?_, by simp [WorkOn_take, hs, hq], fun _ => hstep, _, hstep, ?_⟩
      · intro t rest h
        rw [hq] at h; cases h
      · simp [hs, hq, hlt]
    · have htake : WorkOn_take s.stop s.tasks = .task t rest := by
        rw [hq]
        cases hs : s.stop <;> simp [WorkOn_take]
      have hstep : s.step (.lock tid) = some
          { s with tasks := rest, dequeued := s.dequeued ++ [t],
                   workers := s.workers.set tid (.running t) } := by
        simp only [step, WorkOn_locked, hw, hover, if_true, htake]
      refine ⟨?_, by rw [htake]; simp [hq], ?_, _, hstep, ?_⟩
      · intro t' rest' h
        rw [hq] at h
        cases h
        exact ⟨htake, hstep⟩
      · intro h
        rw [hq] at h; cases h.2
      · simp [hlt, hq]

theorem drain_before_exit_witness :
    stoppingPool.workers[1]? = some .ready ∧ stoppingPool.stop = true ∧
      stoppingPool.tasks = [3] ∧
      stoppingPool.step (.lock 1) = some
        { stoppingPool with tasks := [], dequeued := stoppingPool.dequeued ++ [3],
                            workers := stoppingPool.workers.set 1 (.running 3) } :=
  ⟨by decide, by decide, by decide,
   (((drain_before_exit stoppingPool 1 (by decide)).2.2 (by decide)).1 3 [] (by decide)).2⟩

/-- A step of a stopped pool with an empty queue leaves the stop flag set, the
queue empty and the record of accepted tasks as it is. -/
theorem stopped_empty_step {s s' : SimpleThreadPool} {a : Action} (hs : s.stop = true)
    (hq : s.tasks = []) (h : s.step a = some s') :
    s'.stop = true ∧ s'.tasks = [] ∧ s'.enqueued = s.enqueued := by
  cases a with
  | post task choice =>
    simp only [step] at h
    split at h
    · cases h
      rcases Post_cases s task choice with ⟨_, he⟩ | ⟨h0, _⟩
      · rw [he]; exact ⟨hs, hq, rfl⟩
      · rw [hs] at h0; cases h0
    · cases h
  | destroy =>
    simp only [step] at h
    split at h
    · cases h
      rcases Destroy_enter_cases s false with ⟨_, he⟩ | ⟨h0, _⟩
      · rw [he]; exact ⟨hs, hq, rfl⟩
      · rw [hs] at h0; cases h0
    · cases h
  | destruct =>
    simp only [step] at h
    split at h
    · cases h
      simp only [destructor, hs, destroy_members]
      simp only [Bool.not_true, Bool.false_eq_true, if_false]
      split <;> exact ⟨rfl, hq, rfl⟩
    · cases h
  | join =>
    simp only [step] at h
    split at h
    · rcases Destroy_join_cases h with ⟨w, _, _, _, rfl⟩ | ⟨w, _, _, rfl⟩ | ⟨_, rfl⟩ <;>
        exact ⟨hs, hq, rfl⟩
    · cases h
  | lock tid =>
    obtain ⟨_, ⟨_, _, rfl⟩ | ⟨_, _, rfl⟩ | ⟨t, rest, h2, _⟩⟩ := WorkOn_locked_cases h
    · exact ⟨hs, hq, rfl⟩
    · exact ⟨hs, hq, rfl⟩
    · rw [hq] at h2; cases h2
  | run tid =>
    obtain ⟨t, _, rfl⟩ := WorkOn_run_cases h
    exact ⟨hs, hq, rfl⟩
  | spurious tid =>
    simp only [step, spuriousWake] at h
    split at h
    · cases h; exact ⟨hs, hq, rfl⟩
    · cases h

theorem stopped_empty_exec {s s' : SimpleThreadPool} {as : List Action} (hs : s.stop = true)
    (hq : s.tasks = []) (h : s.exec as = some s') :
    s'.stop = true ∧ s'.tasks = [] ∧ s'.enqueued = s.enqueued := by
  induction as generalizing s with
  | nil => cases h; exact ⟨hs, hq, rfl⟩
  | cons a as ih =>
    simp only [exec] at h
    split at h
    · rename_i s1 h1
      obtain ⟨h2, h3, h4⟩ := stopped_empty_step hs hq h1
      obtain ⟨h5, h6, h7⟩ := ih h2 h3 h
      exact ⟨h5, h6, h7.trans h4⟩
    · cases h

/-- C28: in every state of every execution, if some worker has returned from
`WorkOn` then the stop flag is set and the queue is empty.  A worker returns
from `WorkOn` only in a step that finds the stop flag set and the queue empty;
and once a worker has returned, `Post` throws and queues nothing, and in every
later state the queue is empty and no further task was accepted. -/
theorem exited_worker_means_drained (n : Nat) (s : SimpleThreadPool) (hr : Reachable n s) :
    ((∃ i : Nat, s.workers[i]? = some .exited) → s.stop = true ∧ s.tasks = []) ∧
    (∀ (a : Action) (s' : SimpleThreadPool) (i : Nat), s.step a = some s' →
      s.workers[i]? ≠ some .exited → s'.workers[i]? = some .exited →
      a = .lock i ∧ s.stop = true ∧ s.tasks = [] ∧ s'.tasks = []) ∧
    ((∃ i : Nat, s.workers[i]? = some .exited) →
      (∀ (task : Callable) (choice : Nat),
        (s.Post task choice).1 =
          .error (.typed "std::runtime_error" "Post on stopped SimpleThreadPool") ∧
        (s.Post task choice).2.tasks = [] ∧ (s.Post task choice).2.enqueued = s.enqueued) ∧
      ∀ (as : List Action) (s' : SimpleThreadPool), s.exec as = some s' →
        s'.stop = true ∧ s'.tasks = [] ∧ s'.enqueued = s.enqueued) := by
  have hinv := Inv_reachable hr
  refine ⟨hinv.exit_stop, ?_, ?_⟩
  · intro a s' i h hne he
    have hinv' : Inv n s' := Inv_step hinv h
    have hst := hinv'.exit_stop ⟨i, he⟩
    cases a with
    | post task choice =>
      simp only [step] at h
      split at h
      · cases h
        rcases Post_cases s task choice with ⟨_, hp⟩ | ⟨_, hp⟩
        · rw [hp] at he; exact absurd he hne
        · rw [hp] at he
          simp only at he
          exact absurd ((notify_one_keep _ _ _ _ (by simp) (by simp)).1 he) hne
      · cases h
    | destroy =>
      simp only [step] at h
      split at h
      · cases h
        rcases Destroy_enter_cases s false with ⟨_, hp⟩ | ⟨_, hp⟩
        · rw [hp] at he; exact absurd he hne
        · rw [hp] at he
          simp only at he
          exact absurd ((notify_all_keep _ _ _ (by simp) (by simp)).1 he) hne
      · cases h
    | destruct =>
      simp only [step] at h
      split at h
      · cases h
        unfold destructor at he
        split at he
        · rcases Destroy_enter_cases s true with ⟨_, hp⟩ | ⟨_, hp⟩
          · rw [hp] at he; exact absurd he hne
          · rw [hp] at he
            simp only at he
            exact absurd ((notify_all_keep _ _ _ (by simp) (by simp)).1 he) hne
        · unfold destroy_members at he
          dsimp only at he
          split at he <;> exact absurd he hne
      · cases h
    | join =>
      simp only [step] at h
      split at h
      · rcases Destroy_join_cases h with ⟨w, _, _, _, rfl⟩ | ⟨w, _, _, rfl⟩ | ⟨_, rfl⟩ <;>
          exact absurd he hne
      · cases h
    | lock tid =>
      obtain ⟨hrd, hc⟩ := WorkOn_locked_cases h
      by_cases hti : tid = i
      · subst hti
        rcases hc with ⟨_, _, rfl⟩ | ⟨h1, h2, rfl⟩ | ⟨t, rest, _, rfl⟩
        · simp [lt_of_getElem? hrd] at he
        · exact ⟨rfl, h1, h2, h2⟩
        · simp [lt_of_getElem? hrd] at he
      · rcases hc with ⟨_, _, rfl⟩ | ⟨_, _, rfl⟩ | ⟨t, rest, _, rfl⟩ <;>
          · simp only [List.getElem?_set_ne hti] at he
            exact absurd he hne
    | run tid =>
      obtain ⟨t, hrd, rfl⟩ := WorkOn_run_cases h
      by_cases hti : tid = i
      · subst hti
        simp [lt_of_getElem? hrd] at he
      · simp only [List.getElem?_set_ne hti] at he
        exact absurd he hne
    | spurious tid =>
      simp only [step, spuriousWake] at h
      split at h
      · rename_i hb
        cases h
        by_cases hti : tid = i
        · subst hti
          simp [lt_of_getElem? hb] at he
        · simp only [List.getElem?_set_ne hti] at he
          exact absurd he hne
      · cases h
  · intro hex
    obtain ⟨hs, hq⟩ := hinv.exit_stop hex
    refine ⟨?_, fun as s' h => stopped_empty_exec hs hq h⟩
    intro task choice
    rcases Post_cases s task choice with ⟨_, hp⟩ | ⟨h0, _⟩
    · rw [hp]; exact ⟨rfl, hq, rfl⟩
    · rw [hs] at h0; cases h0

theorem exited_worker_means_drained_witness :
    Reachable 2 drainedPool ∧ drainedPool.workers[0]? = some .exited ∧
      drainedPool.stop = true ∧ drainedPool.tasks = [] :=
  have hr : Reachable 2 drainedPool := ⟨drainSchedule, by decide⟩
  ⟨hr, by decide, (exited_worker_means_drained 2 drainedPool hr).1 ⟨0, by decide⟩⟩

/-- The task of `failedPool` that throws `DomainError("x")` was run, its
shared state holds the exception, and so was the task that throws an object
not derived from `std::exception`; yet nothing was written to `std::cerr`:
neither handler of `WorkOn` was entered. -/
theorem raised_error_not_reported :
    (busyPool.Post (.throws (.typed "DomainError" "x")) 0).2.exec settleSchedule =
        some failedPool ∧
      failedPool.heap[4]? = some { fn := .throws (.typed "DomainError" "x"),
                                   cell := .failure (.typed "DomainError" "x") } ∧
      failedPool.heap[1]? = some { fn := .throws (.unknown 3), cell := .failure (.unknown 3) } ∧
      failedPool.ran = [0, 1, 2, 3, 4] ∧
      failedPool.workers = [.blocked, .blocked] ∧
      failedPool.cerr = [] := by
  decide

/-- C23, as the code has it: a task submitted through `Post` whose callable
throws `e`, at the moment a worker calls it.  The exception is caught inside
the unit of work by the `std::packaged_task`, which stores it in the shared
state, where `get` on the future finds it; nothing escapes to the `try` block
of `WorkOn`, neither handler is entered and nothing is written to `std::cerr`
(in no state of any execution has a handler written a line); the worker is
back at the top of its loop.  The handlers themselves report what does escape
from a unit of work: an object derived from `std::exception` with its `what()`,
anything else as unknown. -/
theorem raised_error_stored_in_future (n : Nat) (s : SimpleThreadPool) (tid a : Nat)
    (p : PackagedTask) (e : Exn) (hr : Reachable n s)
    (hw : s.workers[tid]? = some (.running a)) (hp : s.heap[a]? = some p)
    (hf : p.fn = .throws e) :
    (invokeUnit s.heap a).2 = none ∧
    (∃ s1, s.step (.run tid) = some s1 ∧ s1.cerr = s.cerr ∧
      s1.heap[a]? = some { fn := .throws e, cell := .failure e } ∧
      s1.get { state := some a } = .rethrown e ∧
      s1.workers[tid]? = some .ready) ∧
    (s.cerr = if n = 0 then [.zeroThreads] else []) ∧
    (∀ kind what, WorkOn_catch tid (some (.typed kind what)) = [.caught tid what]) ∧
    (∀ code, WorkOn_catch tid (some (.unknown code)) = [.caughtUnknown tid]) ∧
    WorkOn_catch tid none = [] := by
  have hinv := Inv_reachable hr
  obtain ⟨q, hq, hc, hi⟩ := invokeUnit_running hinv hw
  rw [hp] at hq; cases hq
  have hlt := lt_of_getElem? hw
  have hpl := lt_of_getElem? hp
  have hstep : s.step (.run tid) = some
      { s with heap := s.heap.set a { p with cell := p.fn.outcome },
               executed := s.executed ++ [(a, tid)], cerr := s.cerr ++ WorkOn_catch tid none,
               workers := s.workers.set tid .ready } := by
    simp only [step, WorkOn_run, hw, hi]
  have hcell : (s.heap.set a { p with cell := p.fn.outcome })[a]? =
      some { fn := .throws e, cell := .failure e } := by
    cases p with
    | mk fn cell => cases hf; simp [hpl, Callable.outcome]
  refine ⟨by rw [hi], ⟨_, hstep, ?_, hcell, ?_, ?_⟩, hinv.quiet, fun _ _ => rfl, fun _ => rfl, rfl⟩
  · simp [WorkOn_catch]
  · simp only [get, hcell]
  · simp [hlt]

theorem raised_error_stored_in_future_witness :
    Reachable 2 busyPool ∧ busyPool.workers[0]? = some (.running 1) ∧
      busyPool.heap[1]? = some { fn := .throws (.unknown 3), cell := .notReady } ∧
      (invokeUnit busyPool.heap 1).2 = none ∧ busyPool.cerr = [] :=
  have hr : Reachable 2 busyPool := ⟨busySchedule, by decide⟩
  ⟨hr, by decide, by decide,
   (raised_error_stored_in_future 2 busyPool 0 1
     { fn := .throws (.unknown 3), cell := .notReady } (.unknown 3) hr
     (by decide) (by decide) rfl).1, by decide⟩

end SimpleThreadPool

/-! ## The mutex -/

namespace Locking

namespace Pool

theorem Held_free_worker {m : Option ThreadId} {ws : List Pc} {o : OwnerPc} (h : Held m ws o)
    (hm : m = none) {i : Nat} {w : Pc} (hw : ws[i]? = some w) : w.inLock = false := by
  cases hl : w.inLock with
  | false => rfl
  | true =>
    have := (h.worker_holds i w hw).2 hl
    rw [hm] at this; cases this

theorem Held_other_worker {m : Option ThreadId} {ws : List Pc} {o : OwnerPc} (h : Held m ws o)
    {t : ThreadId} (hm : m = some t) {i : Nat} {w : Pc} (hw : ws[i]? = some w)
    (hne : t ≠ .worker i) : w.inLock = false := by
  cases hl : w.inLock with
  | false => rfl
  | true =>
    have := (h.worker_holds i w hw).2 hl
    rw [hm] at this
    exact absurd (Option.some.inj this) hne

theorem Held_worker_mutex {m : Option ThreadId} {ws : List Pc} {o : OwnerPc} (h : Held m ws o)
    {i : Nat} {w : Pc} (hw : ws[i]? = some w) (hl : w.inLock = true) :
    m = some (.worker i) :=
  (h.worker_holds i w hw).2 hl

theorem Held_owner_free {m : Option ThreadId} {ws : List Pc} {o : OwnerPc} (h : Held m ws o)
    {t : ThreadId} (hm : m = none ∨ (m = some t ∧ t ≠ .owner)) : o.inLock = false := by
  cases hl : o.inLock with
  | false => rfl
  | true =>
    have := h.owner_holds.2 hl
    rcases hm with hm | ⟨hm, hne⟩
    · rw [hm] at this; cases this
    · rw [hm] at this
      exact absurd (Option.some.inj this) hne

/-- A worker takes the free mutex. -/
theorem Held_worker_lock {ws : List Pc} {o : OwnerPc} {tid : Nat} {v : Pc}
    (h : Held none ws o) (hlt : tid < ws.length) (hv : v.inLock = true) :
    Held (some (.worker tid)) (ws.set tid v) o := by
  refine ⟨?_, ?_, ?_⟩
  · intro i w hw
    rcases (SimpleThreadPool.getElem?_set_some hlt).1 hw with ⟨rfl, rfl⟩ | ⟨hne, hw'⟩
    · exact ⟨fun _ => hv, fun _ => rfl⟩
    · rw [Held_free_worker h rfl hw']
      constructor
      · intro e
        cases e
        exact absurd rfl hne
      · intro e; cases e
  · intro i e
    cases e
    rw [List.length_set]; exact hlt
  · rw [Held_owner_free h (Or.inl rfl : (none : Option ThreadId) = none ∨ _)]
    · constructor
      · intro e; cases e
      · intro e; cases e
    · exact .owner

/-- The worker that holds the mutex goes on inside the scope of `lock`. -/
theorem Held_worker_keep {ws : List Pc} {o : OwnerPc} {tid : Nat} {v : Pc}
    (h : Held (some (.worker tid)) ws o) (hv : v.inLock = true) :
    Held (some (.worker tid)) (ws.set tid v) o := by
  have hlt := h.worker_known tid rfl
  refine ⟨?_, ?_, h.owner_holds⟩
  · intro i w hw
    rcases (SimpleThreadPool.getElem?_set_some hlt).1 hw with ⟨rfl, rfl⟩ | ⟨hne, hw'⟩
    · exact ⟨fun _ => hv, fun _ => rfl⟩
    · exact h.worker_holds i w hw'
  · intro i e
    rw [List.length_set]
    exact h.worker_known i e

/-- The worker that holds the mutex releases it. -/
theorem Held_worker_unlock {ws : List Pc} {o : OwnerPc} {tid : Nat} {v : Pc}
    (h : Held (some (.worker tid)) ws o) (hv : v.inLock = false) :
    Held none (ws.set tid v) o := by
  have hlt := h.worker_known tid rfl
  refine ⟨?_, ?_, ?_⟩
  · intro i w hw
    rcases (SimpleThreadPool.getElem?_set_some hlt).1 hw with ⟨rfl, rfl⟩ | ⟨hne, hw'⟩
    · rw [hv]
      constructor
      · intro e; cases e
      · intro e; cases e
    · rw [Held_other_worker h rfl hw' (fun e => by cases e; exact hne rfl)]
      constructor
      · intro e; cases e
      · intro e; cases e
  · intro i e; cases e
  · rw [Held_owner_free h (Or.inr ⟨rfl, fun e => by cases e⟩ :
      some (ThreadId.worker tid) = none ∨ (some (ThreadId.worker tid) = some (.worker tid) ∧
        ThreadId.worker tid ≠ .owner))]
    constructor
    · intro e; cases e
    · intro e; cases e

/-- A worker outside the scope of `lock` moves to another place outside it. -/
theorem Held_worker_move {m : Option ThreadId} {ws : List Pc} {o : OwnerPc} {tid : Nat}
    {w0 v : Pc} (h : Held m ws o) (hw0 : ws[tid]? = some w0) (h0 : w0.inLock = false)
    (hv : v.inLock = false) : Held m (ws.set tid v) o := by
  have hlt := SimpleThreadPool.lt_of_getElem? hw0
  refine ⟨?_, ?_, h.owner_holds⟩
  · intro i w hw
    rcases (SimpleThreadPool.getElem?_set_some hlt).1 hw with ⟨rfl, rfl⟩ | ⟨hne, hw'⟩
    · rw [hv, ← h0]
      exact h.worker_holds i w0 hw0
    · exact h.worker_holds i w hw'
  · intro i e
    rw [List.length_set]
    exact h.worker_known i e

/-- The owner takes the free mutex. -/
theorem Held_owner_lock {ws : List Pc} {o o' : OwnerPc} (h : Held none ws o)
    (ho : o'.inLock = true) : Held (some .owner) ws o' := by
  refine ⟨?_, ?_, ⟨fun _ => ho, fun _ => rfl⟩⟩
  · intro i w hw
    rw [Held_free_worker h rfl hw]
    constructor
    · intro e; cases e
    · intro e; cases e
  · intro i e; cases e

/-- The owner releases the mutex. -/
theorem Held_owner_unlock {ws : List Pc} {o o' : OwnerPc} (h : Held (some .owner) ws o)
    (ho : o'.inLock = false) : Held none ws o' := by
  refine ⟨?_, ?_, ?_⟩
  · intro i w hw
    rw [Held_other_worker h rfl hw (fun e => by cases e)]
    constructor
    · intro e; cases e
    · intro e; cases e
  · intro i e; cases e
  · rw [ho]
    constructor
    · intro e; cases e
    · intro e; cases e

/-- The owner outside the scope of `lock` moves to another place outside it,
and workers asleep may be woken. -/
theorem Held_owner_move {m : Option ThreadId} {ws ws' : List Pc} {o o' : OwnerPc}
    (h : Held m ws o) (ho : o.inLock = false) (ho' : o'.inLock = false)
    (hlen : ws'.length = ws.length)
    (hws : ∀ (i : Nat) (w' : Pc), ws'[i]? = some w' →
      ∃ w, ws[i]? = some w ∧ w.inLock = w'.inLock) :
    Held m ws' o' := by
  refine ⟨?_, ?_, ?_⟩
  · intro i w' hw'
    obtain ⟨w, hw, he⟩ := hws i w' hw'
    rw [← he]
    exact h.worker_holds i w hw
  · intro i e
    rw [hlen]
    exact h.worker_known i e
  · rw [ho', ← ho]
    exact h.owner_holds

theorem wake_one_inLock (ws : List Pc) (choice i : Nat) (w' : Pc)
    (h : (notify_one ws choice)[i]? = some w') :
    ∃ w, ws[i]? = some w ∧ w.inLock = w'.inLock := by
  unfold notify_one at h
  split at h
  · rename_i hc
    have hlt := SimpleThreadPool.lt_of_getElem? hc
    rcases (SimpleThreadPool.getElem?_set_some hlt).1 h with ⟨rfl, rfl⟩ | ⟨_, hw⟩
    · exact ⟨_, hc, rfl⟩
    · exact ⟨_, hw, rfl⟩
  · by_cases hlt : ws.indexOf .asleep < ws.length
    · rcases (SimpleThreadPool.getElem?_set_some hlt).1 h with ⟨rfl, rfl⟩ | ⟨_, hw⟩
      · refine ⟨.asleep, ?_, rfl⟩
        rw [List.getElem?_eq_getElem hlt, List.getElem_indexOf]
      · exact ⟨_, hw, rfl⟩
    · rw [List.set_eq_of_length_le (Nat.le_of_not_lt hlt)] at h
      exact ⟨_, h, rfl⟩

theorem wake_one_length (ws : List Pc) (choice : Nat) :
    (notify_one ws choice).length = ws.length := by
  unfold notify_one
  split <;> simp

theorem wake_all_inLock (ws : List Pc) (i : Nat) (w' : Pc)
    (h : (notify_all ws)[i]? = some w') :
    ∃ w, ws[i]? = some w ∧ w.inLock = w'.inLock := by
  unfold notify_all at h
  rw [List.getElem?_map] at h
  cases hw : ws[i]? with
  | none => rw [hw] at h; cases h
  | some w =>
    rw [hw] at h
    simp only [Option.map_some', Option.some.injEq] at h
    refine ⟨w, rfl, ?_⟩
    by_cases ha : w = .asleep
    · rw [if_pos ha] at h
      rw [← h, ha]; rfl
    · rw [if_neg ha] at h
      rw [h]

theorem MutexInv_construct (n : Nat) : MutexInv (construct n) := by
  refine ⟨?_, ?_, ?_⟩
  · intro i w hw
    simp only [construct, List.getElem?_replicate] at hw
    split at hw
    · cases hw
      constructor
      · intro e; cases e
      · intro e; cases e
    · cases hw
  · intro i e; cases e
  · constructor
    · intro e; cases e
    · intro e; cases e

theorem MutexInv_step {s s' : Pool} {a : Action} (h : MutexInv s) (hs : s.step a = some s') :
    MutexInv s' := by
  unfold MutexInv at h ⊢
  cases a with
  | postLock =>
    simp only [step, Post_lock] at hs
    split at hs
    · rename_i hc
      cases hs
      rw [hc.2] at h
      exact Held_owner_lock h rfl
    · cases hs
  | postLocked =>
    simp only [step, Post_locked] at hs
    split at hs
    · rename_i task ho
      have hm : s.mutex = some .owner := h.owner_holds.2 (by rw [ho]; rfl)
      rw [hm] at h
      split at hs <;> cases hs <;> exact Held_owner_unlock h rfl
    · cases hs
  | postNotify choice =>
    simp only [step, Post_notify] at hs
    split at hs
    · rename_i ho
      cases hs
      exact Held_owner_move h (by rw [ho]; rfl) rfl (wake_one_length _ _)
        (wake_one_inLock _ _)
    · cases hs
  | destroyLock =>
    simp only [step, Destroy_lock] at hs
    split at hs
    · rename_i hc
      cases hs
      rw [hc.2] at h
      exact Held_owner_lock h rfl
    · cases hs
  | destroyLocked =>
    simp only [step, Destroy_locked] at hs
    split at hs
    · rename_i ho
      have hm : s.mutex = some .owner := h.owner_holds.2 (by rw [ho]; rfl)
      rw [hm] at h
      cases hs
      exact Held_owner_unlock h rfl
    · cases hs
  | destroyNotify =>
    simp only [step, Destroy_notify] at hs
    split at hs
    · rename_i already ho
      split at hs
      · cases hs
        exact Held_owner_move h (by rw [ho]; rfl) rfl rfl (fun i w hw => ⟨w, hw, rfl⟩)
      · cases hs
        exact Held_owner_move h (by rw [ho]; rfl) rfl (by simp [notify_all])
          (wake_all_inLock _)
    · cases hs
  | join =>
    simp only [step, Destroy_join] at hs
    split at hs
    · rename_i i ho
      split at hs
      · split at hs
        · cases hs
          exact Held_owner_move h (by rw [ho]; rfl) rfl rfl (fun i w hw => ⟨w, hw, rfl⟩)
        · cases hs
      · cases hs
        exact Held_owner_move h (by rw [ho]; rfl) rfl rfl (fun i w hw => ⟨w, hw, rfl⟩)
    · cases hs
  | lock tid =>
    simp only [step, WorkOn_lock] at hs
    split at hs
    · rename_i hc
      cases hs
      rw [hc.2] at h
      have hlt : tid < s.workers.length := by
        rcases hc.1 with hw | hw <;> exact SimpleThreadPool.lt_of_getElem? hw
      exact Held_worker_lock h hlt rfl
    · cases hs
  | locked tid =>
    simp only [step, WorkOn_locked] at hs
    split at hs
    · rename_i hw
      have hm : s.mutex = some (.worker tid) := Held_worker_mutex h hw rfl
      rw [hm] at h
      split at hs
      · cases hs; exact Held_worker_unlock h rfl
      · split at hs
        · cases hs; exact Held_worker_unlock h rfl
        · split at hs
          · cases hs
            show Held s.mutex _ _
            rw [hm]
            exact Held_worker_keep h rfl
          · cases hs; exact Held_worker_unlock h rfl
    · cases hs
  | unlock tid =>
    simp only [step, WorkOn_unlock] at hs
    split at hs
    · rename_i task hw
      have hm : s.mutex = some (.worker tid) := Held_worker_mutex h hw rfl
      rw [hm] at h
      cases hs
      exact Held_worker_unlock h rfl
    · cases hs
  | call tid =>
    simp only [step, WorkOn_call] at hs
    split at hs
    · rename_i task hw
      cases hs
      exact Held_worker_move h hw rfl rfl
    · cases hs
  | spurious tid =>
    simp only [step, spuriousWake] at hs
    split at hs
    · rename_i hw
      cases hs
      exact Held_worker_move h hw rfl rfl
    · cases hs

theorem MutexInv_exec {s s' : Pool} {as : List Action} (h : MutexInv s)
    (hs : s.exec as = some s') : MutexInv s' := by
  induction as generalizing s with
  | nil => cases hs; exact h
  | cons a as ih =>
    simp only [exec] at hs
    split at hs
    · rename_i s1 h1
      exact ih (MutexInv_step h h1) hs
    · cases hs

theorem MutexInv_reachable {n : Nat} {s : Pool} (hr : Reachable n s) : MutexInv s := by
  obtain ⟨as, has⟩ := hr
  exact MutexInv_exec (MutexInv_construct n) has

/-- The thread that holds the mutex leaves the scope of `lock` by at most two
steps of its own; the other threads stay where they are. -/
theorem mutex_free_soon {s : Pool} (h : MutexInv s) :
    ∃ as s', as.length ≤ 2 ∧ (∀ a ∈ as, a.isCall = false ∧ s.mutex = some a.thread) ∧
      s.exec as = some s' ∧ s'.mutex = none ∧
      (s.owner.inLock = false → s'.owner = s.owner) ∧
      s'.workers.length = s.workers.length ∧
      ∀ (j : Nat) (w : Pc), s.workers[j]? = some w → w.inLock = false →
        s'.workers[j]? = some w := by
  unfold MutexInv at h
  cases hm : s.mutex with
  | none =>
    exact ⟨[], s, by simp, by simp, rfl, hm, fun _ => rfl, rfl, fun _ _ hw _ => hw⟩
  | some t =>
    cases t with
    | owner =>
      have ho := h.owner_holds.1 hm
      cases hown : s.owner with
      | postLocked task =>
        cases hst : s.stop with
        | true =>
          refine ⟨[.postLocked], { s with mutex := none, owner := .idle }, by simp, ?_, ?_, rfl,
            ?_, rfl, fun _ _ hw _ => hw⟩
          · intro a ha
            simp only [List.mem_singleton] at ha
            subst ha
            exact ⟨rfl, rfl⟩
          · simp only [exec, step, Post_locked, hown, hst, if_true]
          · intro hf
            exact absurd hf (by simp [OwnerPc.inLock])
        | false =>
          refine ⟨[.postLocked],
            { s with tasks := s.tasks ++ [task], mutex := none, owner := .postNotify },
            by simp, ?_, ?_, rfl, ?_, rfl, fun _ _ hw _ => hw⟩
          · intro a ha
            simp only [List.mem_singleton] at ha
            subst ha
            exact ⟨rfl, rfl⟩
          · simp only [exec, step, Post_locked, hown, hst, Bool.false_eq_true, if_false]
          · intro hf
            exact absurd hf (by simp [OwnerPc.inLock])
      | destroyLocked =>
        refine ⟨[.destroyLocked],
          { s with stop := true, mutex := none, owner := .destroyNotify s.stop },
          by simp, ?_, ?_, rfl, ?_, rfl, fun _ _ hw _ => hw⟩
        · intro a ha
          simp only [List.mem_singleton] at ha
          subst ha
          exact ⟨rfl, rfl⟩
        · simp only [exec, step, Destroy_locked, hown, if_true]
        · intro hf
          exact absurd hf (by simp [OwnerPc.inLock])
      | idle => rw [hown] at ho; cases ho
      | postNotify => rw [hown] at ho; cases ho
      | destroyNotify b => rw [hown] at ho; cases ho
      | joining i => rw [hown] at ho; cases ho
    | worker i =>
      have hlt := h.worker_known i hm
      have hw : s.workers[i]? = some s.workers[i] := List.getElem?_eq_getElem hlt
      have hl := (h.worker_holds i _ hw).1 hm
      have hof : s.owner.inLock = false :=
        Held_owner_free h (Or.inr ⟨hm, fun e => by cases e⟩)
      have hother : ∀ (v : Pc) (j : Nat) (w : Pc), s.workers[j]? = some w → w.inLock = false →
          (s.workers.set i v)[j]? = some w := by
        intro v j w hj hjl
        have hne : i ≠ j := by
          rintro rfl
          rw [hw] at hj
          cases hj
          rw [hl] at hjl; cases hjl
        rw [List.getElem?_set_ne hne]
        exact hj
      have hone : ∀ (a : Action), a.isCall = false → a.thread = .worker i →
          ∀ a' ∈ [a], a'.isCall = false ∧ some (ThreadId.worker i) = some a'.thread := by
        intro a h1 h2 a' ha'
        simp only [List.mem_singleton] at ha'
        subst ha'
        exact ⟨h1, by rw [h2]⟩
      cases hpc : s.workers[i] with
      | unlock task =>
        rw [hpc] at hw
        refine ⟨[.unlock i], { s with mutex := none, workers := s.workers.set i (.call task) },
          by simp, hone _ rfl rfl, ?_, rfl, fun _ => rfl, by simp, hother _⟩
        simp only [exec, step, WorkOn_unlock, hw]
      | test =>
        rw [hpc] at hw
        cases htk : s.tasks with
        | nil =>
          cases hst : s.stop with
          | false =>
            refine ⟨[.locked i], { s with mutex := none, workers := s.workers.set i .asleep },
              by simp, hone _ rfl rfl, ?_, rfl, fun _ => rfl, by simp, hother _⟩
            simp [exec, step, WorkOn_locked, hw, htk, hst]
          | true =>
            refine ⟨[.locked i], { s with mutex := none, workers := s.workers.set i .exited },
              by simp, hone _ rfl rfl, ?_, rfl, fun _ => rfl, by simp, hother _⟩
            simp [exec, step, WorkOn_locked, hw, htk, hst]
        | cons task rest =>
          refine ⟨[.locked i, .unlock i],
            { s with tasks := rest, mutex := none,
                     workers := (s.workers.set i (.unlock task)).set i (.call task) },
            by simp, ?_, ?_, rfl, fun _ => rfl, by simp, ?_⟩
          · intro a ha
            simp only [List.mem_cons, List.mem_singleton, List.not_mem_nil, or_false] at ha
            rcases ha with rfl | rfl <;> exact ⟨rfl, rfl⟩
          · have h1 : s.step (.locked i) = some
                { s with tasks := rest, workers := s.workers.set i (.unlock task) } := by
              cases hst : s.stop <;> simp [step, WorkOn_locked, hw, htk, hst]
            have h2 : ({ s with tasks := rest, workers := s.workers.set i (.unlock task) } :
                Pool).step (.unlock i) = some
                { s with tasks := rest, mutex := none,
                         workers := (s.workers.set i (.unlock task)).set i (.call task) } := by
              simp only [step, WorkOn_unlock, List.getElem?_set_self hlt]
            simp only [exec, h1, h2]
          · intro j w hj hjl
            rw [List.set_set]
            exact hother _ j w hj hjl
      | top => rw [hpc] at hl; cases hl
      | asleep => rw [hpc] at hl; cases hl
      | woken => rw [hpc] at hl; cases hl
      | call task => rw [hpc] at hl; cases hl
      | exited => rw [hpc] at hl; cases hl

/-- With the mutex free, a worker at `lock(mut)` takes it and goes through the
scope of `lock`; when the queue is not empty it leaves with the head of the
queue. -/
theorem free_mutex_dequeue {s : Pool} {j : Nat} (hm : s.mutex = none)
    (hw : s.workers[j]? = some .top ∨ s.workers[j]? = some .woken) :
    ∃ s', s.exec [.lock j, .locked j] = some s' ∧
      ∀ task rest, s.tasks = task :: rest →
        s'.tasks = rest ∧ s'.workers[j]? = some (.unlock task) := by
  have hlt : j < s.workers.length := by
    rcases hw with hw | hw <;> exact SimpleThreadPool.lt_of_getElem? hw
  have h1 : s.step (.lock j) = some
      { s with mutex := some (.worker j), workers := s.workers.set j .test } := by
    simp only [step, WorkOn_lock, hw, hm, and_self, if_true]
  have ht : (s.workers.set j .test)[j]? = some .test := List.getElem?_set_self hlt
  have hcases : s.tasks = [] ∨ ∃ task rest, s.tasks = task :: rest := by
    cases s.tasks with
    | nil => exact Or.inl rfl
    | cons task rest => exact Or.inr ⟨task, rest, rfl⟩
  rcases hcases with htk | ⟨task, rest, htk⟩
  · cases hst : s.stop with
    | false =>
      have h2 : ({ s with mutex := some (.worker j), workers := s.workers.set j .test } :
          Pool).step (.locked j) = some
          { s with mutex := none, workers := (s.workers.set j .test).set j .asleep } := by
        simp [step, WorkOn_locked, ht, htk, hst]
      refine ⟨_, (by simp only [exec, h1, h2]; rfl), ?_⟩
      intro task rest h
      rw [htk] at h; cases h
    | true =>
      have h2 : ({ s with mutex := some (.worker j), workers := s.workers.set j .test } :
          Pool).step (.locked j) = some
          { s with mutex := none, workers := (s.workers.set j .test).set j .exited } := by
        simp [step, WorkOn_locked, ht, htk, hst]
      refine ⟨_, (by simp only [exec, h1, h2]; rfl), ?_⟩
      intro task rest h
      rw [htk] at h; cases h
  · have h2 : ({ s with mutex := some (.worker j), workers := s.workers.set j .test } :
        Pool).step (.locked j) = some
        { s with tasks := rest, mutex := some (.worker j),
                 workers := (s.workers.set j .test).set j (.unlock task) } := by
      cases hst : s.stop <;> simp [step, WorkOn_locked, ht, htk, hst]
    refine ⟨_, (by simp only [exec, h1, h2]; rfl), ?_⟩
    intro task' rest' h
    rw [htk] at h
    cases h
    exact ⟨rfl, List.getElem?_set_self (by rw [List.length_set]; exact hlt)⟩

/-- A step that changes the queue or the stop flag is a step of the thread
that holds the mutex. -/
theorem change_under_mutex {s s' : Pool} {a : Action} (h : MutexInv s)
    (hs : s.step a = some s') (hc : s'.tasks ≠ s.tasks ∨ s'.stop ≠ s.stop) :
    s.mutex = some a.thread := by
  unfold MutexInv at h
  cases a with
  | postLock =>
    simp only [step, Post_lock] at hs
    split at hs
    · cases hs
      rcases hc with hc | hc <;> exact absurd rfl hc
    · cases hs
  | postLocked =>
    simp only [step, Post_locked] at hs
    split at hs
    · rename_i task ho
      exact h.owner_holds.2 (by rw [ho]; rfl)
    · cases hs
  | postNotify choice =>
    simp only [step, Post_notify] at hs
    split at hs
    · cases hs
      rcases hc with hc | hc <;> exact absurd rfl hc
    · cases hs
  | destroyLock =>
    simp only [step, Destroy_lock] at hs
    split at hs
    · cases hs
      rcases hc with hc | hc <;> exact absurd rfl hc
    · cases hs
  | destroyLocked =>
    simp only [step, Destroy_locked] at hs
    split at hs
    · rename_i ho
      exact h.owner_holds.2 (by rw [ho]; rfl)
    · cases hs
  | destroyNotify =>
    simp only [step, Destroy_notify] at hs
    split at hs
    · split at hs <;> cases hs <;> rcases hc with hc | hc <;> exact absurd rfl hc
    · cases hs
  | join =>
    simp only [step, Destroy_join] at hs
    split at hs
    · split at hs
      · split at hs
        · cases hs
          rcases hc with hc | hc <;> exact absurd rfl hc
        · cases hs
      · cases hs
        rcases hc with hc | hc <;> exact absurd rfl hc
    · cases hs
  | lock tid =>
    simp only [step, WorkOn_lock] at hs
    split at hs
    · cases hs
      rcases hc with hc | hc <;> exact absurd rfl hc
    · cases hs
  | locked tid =>
    simp only [step, WorkOn_locked] at hs
    split at hs
    · rename_i hw
      exact Held_worker_mutex h hw rfl
    · cases hs
  | unlock tid =>
    simp only [step, WorkOn_unlock] at hs
    split at hs
    · rename_i task hw
      exact Held_worker_mutex h hw rfl
    · cases hs
  | call tid =>
    simp only [step, WorkOn_call] at hs
    split at hs
    · cases hs
      rcases hc with hc | hc <;> exact absurd rfl hc
    · cases hs
  | spurious tid =>
    simp only [step, spuriousWake] at hs
    split at hs
    · cases hs
      rcases hc with hc | hc <;> exact absurd rfl hc
    · cases hs

/-- C24: in every state of every execution of the pool with its mutex.  A
worker inside `task()` does not hold the mutex.  The thread that holds the
mutex is inside one of the scopes of `lock`: in `Post`, in `Destroy`, or in
`WorkOn` between the lock and the end of the scope; and every step that
changes the queue or the stop flag is a step of the thread that holds the
mutex.  However many tasks are running, and without any of them coming to its
end, the mutex is free after at most two steps of the thread that holds it,
the running tasks still running; then `Post` and `Destroy` called by the owner
get the lock, and a worker waiting for the lock gets it and, when the queue is
not empty, leaves the scope with the head of the queue. -/
theorem running_task_holds_no_mutex (n : Nat) (s : Pool) (hr : Reachable n s) :
    (∀ (tid task : Nat), s.workers[tid]? = some (.call task) →
      s.mutex ≠ some (.worker tid)) ∧
    (∀ t : ThreadId, s.mutex = some t →
      (t = .owner ∧ s.owner.inLock = true) ∨
      ∃ (i : Nat) (w : Pc), t = .worker i ∧ s.workers[i]? = some w ∧ w.inLock = true) ∧
    (∀ a s', s.step a = some s' → s'.tasks ≠ s.tasks ∨ s'.stop ≠ s.stop →
      s.mutex = some a.thread) ∧
    ∃ as s', as.length ≤ 2 ∧ (∀ a ∈ as, a.isCall = false) ∧ s.exec as = some s' ∧
      s'.mutex = none ∧
      (∀ (tid task : Nat), s.workers[tid]? = some (.call task) →
        s'.workers[tid]? = some (.call task)) ∧
      (s.owner = .idle →
        (s'.step .postLock).isSome = true ∧ (s'.step .destroyLock).isSome = true) ∧
      ∀ j : Nat, s.workers[j]? = some .top ∨ s.workers[j]? = some .woken →
        ∃ s'', s'.exec [.lock j, .locked j] = some s'' ∧
          ∀ (task : Nat) (rest : List Nat), s'.tasks = task :: rest →
            s''.tasks = rest ∧ s''.workers[j]? = some (.unlock task) := by
  have hinv := MutexInv_reachable hr
  refine ⟨?_, ?_, fun a s' hs hc => change_under_mutex hinv hs hc, ?_⟩
  · intro tid task hw hm
    have := (hinv.worker_holds tid _ hw).1 hm
    cases this
  · intro t hm
    cases t with
    | owner => exact Or.inl ⟨rfl, hinv.owner_holds.1 hm⟩
    | worker i =>
      have hlt := hinv.worker_known i hm
      exact Or.inr ⟨i, _, rfl, List.getElem?_eq_getElem hlt,
        (hinv.worker_holds i _ (List.getElem?_eq_getElem hlt)).1 hm⟩
  · obtain ⟨as, s', hlen, hns, hx, hfree, hown, _, hkeep⟩ := mutex_free_soon hinv
    refine ⟨as, s', hlen, fun a ha => (hns a ha).1, hx, hfree, ?_, ?_, ?_⟩
    · intro tid task hw
      exact hkeep tid _ hw rfl
    · intro ho
      have ho' : s'.owner = .idle := by
        rw [hown (by rw [ho]; rfl), ho]
      simp [step, Post_lock, Destroy_lock, ho', hfree]
    · intro j hj
      apply free_mutex_dequeue hfree
      rcases hj with hj | hj
      · exact Or.inl (hkeep j _ hj rfl)
      · exact Or.inr (hkeep j _ hj rfl)

theorem running_task_holds_no_mutex_witness :
    Reachable 2 callPool ∧ callPool.workers = [.call 0, .call 1] ∧
      callPool.mutex = some .owner ∧ callPool.mutex ≠ some (.worker 0) ∧
      (callPool.exec [.postLocked, .postNotify 0, .destroyLock]).isSome = true :=
  have hr : Reachable 2 callPool := ⟨callSchedule, by decide⟩
  ⟨hr, by decide, by decide,
   (running_task_holds_no_mutex 2 callPool hr).1 0 0 (by decide), by decide⟩

end Pool

end Locking

end ThreadPool

/-! # MyVector: proofs -/

namespace CodeReview

namespace MyVector

variable {T : Type}

theorem two_le_countP {α : Type} (l : List α) (p : α → Bool) (i j : Nat) (x y : α)
    (hi : l[i]? = some x) (hj : l[j]? = some y) (hij : i ≠ j) (hx : p x = true)
    (hy : p y = true) : 2 ≤ l.countP p := by
  induction l generalizing i j with
  | nil => simp at hi
  | cons a l ih =>
    have hpos : ∀ (k : Nat) (z : α), l[k]? = some z → p z = true → 1 ≤ l.countP p := by
      intro k z hk hz
      exact List.countP_pos_iff.2 ⟨z, List.getElem?_mem hk, hz⟩
    cases i with
    | zero =>
      cases j with
      | zero => exact absurd rfl hij
      | succ j =>
        simp only [List.getElem?_cons_zero, Option.some.injEq] at hi
        simp only [List.getElem?_cons_succ] at hj
        subst hi
        have := hpos j y hj hy
        simp only [List.countP_cons, hx, if_true]
        omega
    | succ i =>
      cases j with
      | zero =>
        simp only [List.getElem?_cons_zero, Option.some.injEq] at hj
        simp only [List.getElem?_cons_succ] at hi
        subst hj
        have := hpos i x hi hx
        simp only [List.countP_cons, hy, if_true]
        omega
      | succ j =>
        simp only [List.getElem?_cons_succ] at hi hj
        have := ih i j hi hj (by omega)
        simp only [List.countP_cons]
        omega

theorem dataOf_lt {M : Memory T} {v a : Nat} (hwf : WF M) (h : dataOf M v = some a) :
    a < M.heap.length := by
  unfold dataOf at h
  split at h
  · rename_i x hx
    exact hwf x (List.getElem?_mem hx) a h
  · cases h

theorem dataOf_realloc (M : Memory T) (v u : Nat) (l : List (T × String))
    (hv : v < M.objects.length) :
    dataOf (realloc M v l) u = if u = v then some M.heap.length else dataOf M u := by
  unfold dataOf realloc
  dsimp only
  rw [List.getElem?_set]
  by_cases h : v = u
  · subst h; simp [hv]
  · have : ¬ u = v := fun e => h e.symm
    simp [h, this]

theorem WF_realloc {M : Memory T} (v : Nat) (l : List (T × String)) (hwf : WF M) :
    WF (realloc M v l) := by
  intro x hx a ha
  simp only [realloc, List.length_append, List.length_singleton] at hx ⊢
  rcases List.mem_or_eq_of_mem_set hx with h | h
  · exact Nat.lt_succ_of_lt (hwf x h a ha)
  · subst h; cases ha; omega

theorem items_realloc_other {M : Memory T} (v u : Nat) (l : List (T × String)) (hwf : WF M)
    (hv : v < M.objects.length) (hu : u ≠ v) : items (realloc M v l) u = items M u := by
  have hd := dataOf_realloc M v u l hv
  rw [if_neg hu] at hd
  unfold items deref
  rw [hd]
  cases h : dataOf M u with
  | none => rfl
  | some b =>
    have hb := dataOf_lt hwf h
    simp only [realloc]
    rw [List.getElem?_append_left hb]

theorem items_realloc_self (M : Memory T) (v : Nat) (l : List (T × String))
    (hv : v < M.objects.length) : items (realloc M v l) v = l := by
  have hd := dataOf_realloc M v v l hv
  rw [if_pos rfl] at hd
  unfold items deref
  rw [hd]
  simp [realloc]

/-- What `detach()` does to the object `v`. -/
theorem detach_cases {M : Memory T} (v : Nat) (hwf : WF M) :
    (M.objects.length ≤ v ∧ detach M v = M) ∨
    (v < M.objects.length ∧ dataOf M v = none ∧ detach M v = realloc M v []) ∨
    (∃ a d, v < M.objects.length ∧ dataOf M v = some a ∧ M.heap[a]? = some d ∧
      ((1 < use_count M a ∧ detach M v = realloc M v d.items) ∨
       (use_count M a ≤ 1 ∧ detach M v = M))) := by
  unfold detach
  cases hx : M.objects[v]? with
  | none =>
    left
    refine ⟨?_, rfl⟩
    by_contra hlt
    rw [List.getElem?_eq_getElem (by omega)] at hx
    cases hx
  | some x =>
    have hv : v < M.objects.length := by
      rcases List.getElem?_eq_some.1 hx with ⟨h, _⟩; exact h
    right
    cases hm : x.m_data with
    | none =>
      left
      exact ⟨hv, by simp [dataOf, hx, hm], by simp only [hm, realloc]⟩
    | some a =>
      right
      have hd : dataOf M v = some a := by simp [dataOf, hx, hm]
      have ha := dataOf_lt hwf hd
      refine ⟨a, M.heap[a], hv, hd, List.getElem?_eq_getElem ha, ?_⟩
      simp only [hm]
      by_cases hc : use_count M a > 1
      · left
        refine ⟨hc, ?_⟩
        rw [if_pos hc, List.getElem?_eq_getElem ha]
        rfl
      · right
        exact ⟨by omega, by rw [if_neg hc]⟩

/-- After `detach()` the object `v` has a block of its own with the items it
had; every object sees the items it saw before; the memory is well formed. -/
theorem detach_spec {M : Memory T} (v : Nat) (hwf : WF M) :
    WF (detach M v) ∧ (∀ u, items (detach M v) u = items M u) ∧
    (detach M v).objects.length = M.objects.length ∧
    (v < M.objects.length → ∃ a d, dataOf (detach M v) v = some a ∧
      (detach M v).heap[a]? = some d ∧ d.items = items M v ∧
      ∀ u, u ≠ v → dataOf (detach M v) u ≠ some a) := by
  rcases detach_cases v hwf with ⟨hv, he⟩ | ⟨hv, hd, he⟩ |
    ⟨a, d, hv, hd, hh, ⟨hc, he⟩ | ⟨hc, he⟩⟩
  · rw [he]
    exact ⟨hwf, fun _ => rfl, rfl, fun h => absurd h (by omega)⟩
  · rw [he]
    have hself : items M v = [] := by simp [items, deref, hd]
    refine ⟨WF_realloc v [] hwf, ?_, by simp [realloc], ?_⟩
    · intro u
      by_cases hu : u = v
      · subst hu; rw [items_realloc_self M u [] hv, hself]
      · exact items_realloc_other v u [] hwf hv hu
    · intro _
      refine ⟨M.heap.length, { items := [] }, ?_, by simp [realloc], hself.symm, ?_⟩
      · rw [dataOf_realloc M v v [] hv, if_pos rfl]
      · intro u hu hc
        rw [dataOf_realloc M v u [] hv, if_neg hu] at hc
        exact Nat.lt_irrefl _ (dataOf_lt hwf hc)
  · rw [he]
    have hself : items M v = d.items := by simp [items, deref, hd, hh]
    refine ⟨WF_realloc v _ hwf, ?_, by simp [realloc], ?_⟩
    · intro u
      by_cases hu : u = v
      · subst hu; rw [items_realloc_self M u _ hv, hself]
      · exact items_realloc_other v u _ hwf hv hu
    · intro _
      refine ⟨M.heap.length, { items := d.items }, ?_, by simp [realloc], hself.symm, ?_⟩
      · rw [dataOf_realloc M v v _ hv, if_pos rfl]
      · intro u hu hc'
        rw [dataOf_realloc M v u _ hv, if_neg hu] at hc'
        exact Nat.lt_irrefl _ (dataOf_lt hwf hc')
  · rw [he]
    have hself : items M v = d.items := by simp [items, deref, hd, hh]
    refine ⟨hwf, fun _ => rfl, rfl, ?_⟩
    intro _
    refine ⟨a, d, hd, hh, hself.symm, ?_⟩
    intro u hu hdu
    have hxv : ∃ x, M.objects[v]? = some x ∧ x.m_data = some a := by
      unfold dataOf at hd
      split at hd
      · rename_i x hx; exact ⟨x, hx, hd⟩
      · cases hd
    have hxu : ∃ y, M.objects[u]? = some y ∧ y.m_data = some a := by
      unfold dataOf at hdu
      split at hdu
      · rename_i y hy; exact ⟨y, hy, hdu⟩
      · cases hdu
    obtain ⟨x, hx, hxa⟩ := hxv
    obtain ⟨y, hy, hya⟩ := hxu
    have := two_le_countP M.objects (fun x => decide (x.m_data = some a)) u v y x hy hx hu
      (by simp [hya]) (by simp [hxa])
    unfold use_count at hc
    omega

theorem dataOf_setBlock (M : Memory T) (a u : Nat) (blk : MyVectorData T) :
    dataOf (setBlock M a blk) u = dataOf M u := rfl

theorem WF_setBlock {M : Memory T} (a : Nat) (blk : MyVectorData T) (hwf : WF M) :
    WF (setBlock M a blk) := by
  intro x hx b hb
  simp only [setBlock, List.length_set]
  exact hwf x hx b hb

theorem items_setBlock_other {M : Memory T} (a u : Nat) (blk : MyVectorData T)
    (hu : dataOf M u ≠ some a) : items (setBlock M a blk) u = items M u := by
  unfold items deref
  rw [dataOf_setBlock]
  cases h : dataOf M u with
  | none => rfl
  | some b =>
    have hba : a ≠ b := by
      rintro rfl; exact hu h
    simp only [setBlock]
    rw [List.getElem?_set_ne hba]

theorem items_setBlock_self {M : Memory T} (a v : Nat) (blk : MyVectorData T)
    (hv : dataOf M v = some a) (ha : a < M.heap.length) :
    items (setBlock M a blk) v = blk.items := by
  unfold items deref
  rw [dataOf_setBlock, hv]
  simp [setBlock, ha]

theorem update_eq {M : Memory T} {v a : Nat} {d : MyVectorData T}
    (g : List (T × String) → List (T × String)) (hv : dataOf M v = some a)
    (hh : M.heap[a]? = some d) : update M v g = setBlock M a { items := g d.items } := by
  simp only [update, hv, hh, setBlock]

theorem items_of_deref {M : Memory T} {v a : Nat} {d : MyVectorData T}
    (hv : dataOf M v = some a) (hh : M.heap[a]? = some d) : items M v = d.items := by
  simp [items, deref, hv, hh]

theorem subscript_eq {M : Memory T} {v a : Nat} {d : MyVectorData T} (index : Nat)
    (hd : dataOf (detach M v) v = some a) (hh : (detach M v).heap[a]? = some d) :
    subscript M v index =
      if index ≥ d.items.length then (detach M v, .throws out_of_range)
      else (detach M v, .ok { block := a, pos := index }) := by
  have hderef : deref (detach M v) v = some d := by simp [deref, hd, hh]
  simp only [subscript, hd, hderef]

theorem named_eq {M : Memory T} {v a : Nat} {d : MyVectorData T} (name : String)
    (hd : dataOf (detach M v) v = some a) (hh : (detach M v).heap[a]? = some d) :
    named M v name =
      if find_if d.items (fun element => element.2 == name) = d.items.length then
        (detach M v, .throws (invalid_argument name))
      else (detach M v,
        .ok { block := a, pos := find_if d.items (fun element => element.2 == name) }) := by
  have hderef : deref (detach M v) v = some d := by simp [deref, hd, hh]
  simp only [named, hd, hderef]

theorem begin_it_eq {M : Memory T} {v a : Nat} (hd : dataOf (detach M v) v = some a) :
    begin_it M v = (detach M v, .ok { block := a, pos := 0 }) := by
  simp only [begin_it, hd]

theorem end_it_eq {M : Memory T} {v a : Nat} (hd : dataOf (detach M v) v = some a) :
    end_it M v = (detach M v, .ok { block := a, pos := size (detach M v) v }) := by
  simp only [end_it, hd]

/-- Every mutation is `detach()`, after which the object has a block of its
own, followed by at most a change of that block. -/
theorem mutate_form {M : Memory T} (v : Nat) (m : Mutation T) (hwf : WF M)
    (hv : v < M.objects.length) :
    ∃ a d, dataOf (detach M v) v = some a ∧ (detach M v).heap[a]? = some d ∧
      d.items = items M v ∧ (∀ u, u ≠ v → dataOf (detach M v) u ≠ some a) ∧
      (mutate M v m = detach M v ∨ ∃ blk, mutate M v m = setBlock (detach M v) a blk) := by
  obtain ⟨_, _, _, hx⟩ := detach_spec v hwf
  obtain ⟨a, d, hd, hh, hi, hex⟩ := hx hv
  refine ⟨a, d, hd, hh, hi, hex, ?_⟩
  cases m with
  | push_back obj name =>
    exact Or.inr ⟨_, (update_eq (fun l => l ++ [(obj, name)]) hd hh : push_back M v obj name = _)⟩
  | clear => exact Or.inr ⟨_, (update_eq (fun _ => []) hd hh : clear M v = _)⟩
  | reserve new_cap =>
    exact Or.inr ⟨_, (update_eq (fun l => l) hd hh : reserve M v new_cap = _)⟩
  | subscript_write index val =>
    simp only [mutate]
    rw [subscript_eq index hd hh]
    by_cases hc : index ≥ d.items.length
    · rw [if_pos hc]; exact Or.inl rfl
    · rw [if_neg hc]
      simp only [write, hh]
      exact Or.inr ⟨_, rfl⟩
  | named_write name obj =>
    simp only [mutate]
    rw [named_eq name hd hh]
    by_cases hc : find_if d.items (fun element => element.2 == name) = d.items.length
    · rw [if_pos hc]; exact Or.inl rfl
    · rw [if_neg hc]
      simp only [write_first, hh]
      split
      · exact Or.inr ⟨_, rfl⟩
      · exact Or.inl rfl
  | begin_write k val =>
    simp only [mutate]
    rw [begin_it_eq hd]
    simp only [write, hh]
    exact Or.inr ⟨_, rfl⟩
  | begin_call =>
    simp only [mutate]
    rw [begin_it_eq hd]
    exact Or.inl rfl
  | end_call =>
    simp only [mutate]
    rw [end_it_eq hd]
    exact Or.inl rfl

/-- A mutation of the object `v` keeps the memory well formed and leaves
what is seen through every other object as it is. -/
theorem mutate_frame {M : Memory T} (v : Nat) (m : Mutation T) (hwf : WF M) :
    WF (mutate M v m) ∧ (mutate M v m).objects.length = M.objects.length ∧
      ∀ u, u ≠ v → items (mutate M v m) u = items M u := by
  obtain ⟨hwf1, hit, hlen, _⟩ := detach_spec v hwf
  by_cases hv : v < M.objects.length
  · obtain ⟨a, d, hd, hh, _, hex, he | ⟨blk, he⟩⟩ := mutate_form v m hwf hv
    · rw [he]; exact ⟨hwf1, hlen, fun u _ => hit u⟩
    · rw [he]
      refine ⟨WF_setBlock a blk hwf1, hlen, ?_⟩
      intro u hu
      rw [items_setBlock_other a u blk (hex u hu)]
      exact hit u
  · have hnone : M.objects[v]? = none := List.getElem?_eq_none (by omega)
    have hdet : detach M v = M := by simp [detach, hnone]
    have hd : dataOf M v = none := by simp [dataOf, hnone]
    have hm : mutate M v m = M := by
      cases m <;>
        simp [mutate, push_back, clear, reserve, subscript, named, begin_it, end_it, update,
          hdet, hd, deref]
    rw [hm]
    exact ⟨hwf, rfl, fun _ _ => rfl⟩

theorem mutateAll_frame {M : Memory T} (v : Nat) (ms : List (Mutation T)) (hwf : WF M) :
    WF (mutateAll M v ms) ∧ (mutateAll M v ms).objects.length = M.objects.length ∧
      ∀ u, u ≠ v → items (mutateAll M v ms) u = items M u := by
  induction ms generalizing M with
  | nil => exact ⟨hwf, rfl, fun _ _ => rfl⟩
  | cons m ms ih =>
    obtain ⟨h1, h2, h3⟩ := mutate_frame v m hwf
    obtain ⟨h4, h5, h6⟩ := ih h1
    exact ⟨h4, h5.trans h2, fun u hu => (h6 u hu).trans (h3 u hu)⟩

theorem find_if_le (l : List (T × String)) (p : T × String → Bool) :
    find_if l p ≤ l.length := by
  induction l with
  | nil => simp [find_if]
  | cons x xs ih =>
    simp only [find_if, List.length_cons]
    split <;> omega

theorem find_if_cons_pos (x : T × String) (xs : List (T × String)) (p : T × String → Bool)
    (hx : p x = true) : find_if (x :: xs) p = 0 := by
  simp [find_if, hx]

theorem find_if_cons_neg (x : T × String) (xs : List (T × String)) (p : T × String → Bool)
    (hx : p x = false) : find_if (x :: xs) p = find_if xs p + 1 := by
  simp [find_if, hx]

/-- `find_if` gives the end exactly when no item satisfies the predicate. -/
theorem find_if_eq_length_iff (l : List (T × String)) (p : T × String → Bool) :
    find_if l p = l.length ↔ ∀ e ∈ l, p e = false := by
  induction l with
  | nil => simp [find_if]
  | cons x xs ih =>
    cases hx : p x with
    | true =>
      rw [find_if_cons_pos x xs p hx]
      constructor
      · intro h; simp at h
      · intro h
        have := h x (List.mem_cons_self _ _)
        rw [hx] at this; cases this
    | false =>
      rw [find_if_cons_neg x xs p hx, List.length_cons, Nat.add_right_cancel_iff, ih]
      constructor
      · intro h e he
        rcases List.mem_cons.1 he with rfl | h'
        · exact hx
        · exact h e h'
      · intro h e he
        exact h e (List.mem_cons_of_mem _ he)

/-- `find_if` gives the first item that satisfies the predicate. -/
theorem find_if_first (l : List (T × String)) (p : T × String → Bool)
    (h : find_if l p ≠ l.length) :
    ∃ e, l[find_if l p]? = some e ∧ p e = true ∧
      ∀ j e', j < find_if l p → l[j]? = some e' → p e' = false := by
  induction l with
  | nil => simp [find_if] at h
  | cons x xs ih =>
    cases hx : p x with
    | true =>
      rw [find_if_cons_pos x xs p hx]
      exact ⟨x, by simp, hx, fun j e' hj => absurd hj (Nat.not_lt_zero _)⟩
    | false =>
      rw [find_if_cons_neg x xs p hx] at h ⊢
      have h' : find_if xs p ≠ xs.length := by
        intro e; apply h; rw [e, List.length_cons]
      obtain ⟨e, he, hpe, hmin⟩ := ih h'
      refine ⟨e, by simpa using he, hpe, ?_⟩
      intro j e' hj hje
      cases j with
      | zero =>
        simp only [List.getElem?_cons_zero, Option.some.injEq] at hje
        subst hje
        exact hx
      | succ j =>
        simp only [List.getElem?_cons_succ] at hje
        exact hmin j e' (by omega) hje

/-- An object that holds data sees the items of its block. -/
theorem deref_of_data {M : Memory T} {v a : Nat} (hwf : WF M) (hv : dataOf M v = some a) :
    ∃ d, M.heap[a]? = some d ∧ deref M v = some d ∧ items M v = d.items ∧
      size M v = d.items.length := by
  have ha := dataOf_lt hwf hv
  refine ⟨M.heap[a], List.getElem?_eq_getElem ha, ?_, ?_, ?_⟩ <;>
    simp [deref, items, size, hv, List.getElem?_eq_getElem ha]

theorem lt_objects_of_data {M : Memory T} {v a : Nat} (hv : dataOf M v = some a) :
    v < M.objects.length := by
  unfold dataOf at hv
  split at hv
  · rename_i x hx
    rcases List.getElem?_eq_some.1 hx with ⟨h, _⟩; exact h
  · cases hv

/-- C19: for an object `v` that holds data and every index: the const and the
non-const `operator[](size_type)` throw `std::out_of_range` exactly when
`index >= size()`; otherwise the const one returns the pair at that position
and the non-const one a reference to that position in the block of `v`, where
that pair is; and after the non-const one, whether it throws or not, every
object sees the items it saw before. -/
theorem subscript_checks_bounds (M : Memory T) (v a index : Nat) (hwf : WF M)
    (hv : dataOf M v = some a) :
    size M v = (items M v).length ∧
    (subscript_const M v index = .throws out_of_range ↔ index ≥ size M v) ∧
    ((subscript M v index).2 = .throws out_of_range ↔ index ≥ size M v) ∧
    (index < size M v → ∃ p, (items M v)[index]? = some p ∧
      subscript_const M v index = .ok p ∧
      ∃ r, (subscript M v index).2 = .ok r ∧ r.pos = index ∧
        dataOf (subscript M v index).1 v = some r.block ∧
        read (subscript M v index).1 r = some p) ∧
    (∀ u, items (subscript M v index).1 u = items M u) := by
  obtain ⟨d, hh, hderef, hitems, hsize⟩ := deref_of_data hwf hv
  obtain ⟨_, hall, _, hx⟩ := detach_spec v hwf
  obtain ⟨a', d', hd', hh', hi', _⟩ := hx (lt_objects_of_data hv)
  have hlen : d'.items.length = d.items.length := by rw [hi', hitems]
  have hsub := subscript_eq index hd' hh'
  refine ⟨by rw [hsize, hitems], ?_, ?_, ?_, ?_⟩
  · rw [hsize]
    simp only [subscript_const, hderef]
    by_cases hc : index ≥ d.items.length
    · simp [hc]
    · rw [if_neg hc]
      have hlt : index < d.items.length := by omega
      simp [List.getElem?_eq_getElem hlt, hc]
  · rw [hsize, hsub, hlen]
    by_cases hc : index ≥ d.items.length
    · simp [hc]
    · simp [hc]
  · intro hlt
    rw [hsize] at hlt
    have hc : ¬ index ≥ d.items.length := by omega
    refine ⟨d.items[index], by rw [hitems]; exact List.getElem?_eq_getElem hlt, ?_, ?_⟩
    · simp only [subscript_const, hderef, if_neg hc, List.getElem?_eq_getElem hlt]
    · rw [hsub, hlen, if_neg hc]
      refine ⟨_, rfl, rfl, hd', ?_⟩
      simp only [read, hh']
      rw [hi', hitems]
      exact List.getElem?_eq_getElem hlt
  · intro u
    rw [hsub]
    split <;> exact hall u

theorem subscript_checks_bounds_witness :
    WF sharedMemory ∧ dataOf sharedMemory 1 = some 0 ∧ size sharedMemory 1 = 3 ∧
      subscript_const sharedMemory 1 3 = .throws out_of_range ∧
      (subscript sharedMemory 1 3).2 = .throws out_of_range ∧
      subscript_const sharedMemory 1 2 = .ok (30, "a") :=
  ⟨by decide, by decide, by decide,
   (subscript_checks_bounds sharedMemory 1 0 3 (by decide) (by decide)).2.1.2 (by decide),
   (subscript_checks_bounds sharedMemory 1 0 3 (by decide) (by decide)).2.2.1.2 (by decide),
   by decide⟩

/-- The two `operator[](const std::string&)` on an object that holds data, by
what `find_if` gives on the items seen through the object. -/
theorem named_by_find_if {M : Memory T} {v a : Nat} (name : String) (hwf : WF M)
    (hv : dataOf M v = some a) :
    (find_if (items M v) (fun element => element.2 == name) = (items M v).length →
      named_const M v name = .throws (invalid_argument name) ∧
      (named M v name).2 = .throws (invalid_argument name)) ∧
    (find_if (items M v) (fun element => element.2 == name) ≠ (items M v).length →
      ∃ p, (items M v)[find_if (items M v) (fun element => element.2 == name)]? = some p ∧
        named_const M v name = .ok p.1 ∧
        ∃ r, (named M v name).2 = .ok r ∧
          r.pos = find_if (items M v) (fun element => element.2 == name) ∧
          dataOf (named M v name).1 v = some r.block ∧
          read (named M v name).1 r = some p) ∧
    (∀ u, items (named M v name).1 u = items M u) := by
  obtain ⟨d, hh, hderef, hitems, hsize⟩ := deref_of_data hwf hv
  obtain ⟨_, hall, _, hx⟩ := detach_spec v hwf
  obtain ⟨a', d', hd', hh', hi', _⟩ := hx (lt_objects_of_data hv)
  have hnamed := named_eq name hd' hh'
  rw [hi'] at hnamed
  refine ⟨?_, ?_, ?_⟩
  · intro he
    refine ⟨?_, by rw [hnamed, if_pos he]⟩
    rw [hitems] at he
    simp only [named_const, hderef, he, if_true]
  · intro hne
    have hlt : find_if (items M v) (fun element => element.2 == name) < (items M v).length :=
      Nat.lt_of_le_of_ne (find_if_le _ _) hne
    refine ⟨(items M v)[find_if (items M v) (fun element => element.2 == name)],
      List.getElem?_eq_getElem hlt, ?_, ?_⟩
    · have hne' := hne
      have hlt' := hlt
      simp only [hitems] at hne' hlt' ⊢
      simp only [named_const, hderef, hne', if_false, List.getElem?_eq_getElem hlt']
    · rw [hnamed, if_neg hne]
      refine ⟨_, rfl, rfl, hd', ?_⟩
      simp only [read, hh', hi']
      exact List.getElem?_eq_getElem hlt
  · intro u
    rw [hnamed]
    split <;> exact hall u

theorem name_test (name : String) (e : T × String) :
    ((fun element : T × String => element.2 == name) e = false) ↔ e.2 ≠ name := by
  simp

/-- C17: for an object `v` that holds data and a name carried by some item
seen through `v`: there is a smallest position `i` whose item has that name;
the const `operator[](const std::string&)` returns the object of the item at
`i`, and the non-const one returns a reference to position `i` of the block
of `v`, where that item is, every object seeing the items it saw before. -/
theorem named_returns_first (M : Memory T) (v a : Nat) (name : String) (hwf : WF M)
    (hv : dataOf M v = some a) (hn : ∃ e ∈ items M v, e.2 = name) :
    ∃ i obj, (items M v)[i]? = some (obj, name) ∧
      (∀ j e, j < i → (items M v)[j]? = some e → e.2 ≠ name) ∧
      named_const M v name = .ok obj ∧
      ∃ r, (named M v name).2 = .ok r ∧ r.pos = i ∧
        dataOf (named M v name).1 v = some r.block ∧
        read (named M v name).1 r = some (obj, name) ∧
        ∀ u, items (named M v name).1 u = items M u := by
  obtain ⟨_, hfound, hall⟩ := named_by_find_if name hwf hv
  have hne : find_if (items M v) (fun element => element.2 == name) ≠ (items M v).length := by
    intro he
    obtain ⟨e, hm, hen⟩ := hn
    have := (find_if_eq_length_iff _ _).1 he e hm
    exact (name_test name e).1 this hen
  obtain ⟨p, hp, hc, r, hr, hpos, hblk, hread⟩ := hfound hne
  obtain ⟨e, he, hpe, hmin⟩ := find_if_first _ _ hne
  rw [hp] at he
  cases he
  have hpn : p.2 = name := by simpa using hpe
  have hpp : p = (p.1, name) := by rw [← hpn]
  refine ⟨_, p.1, by rw [← hpp]; exact hp, ?_, hc, r, hr, hpos, hblk, by rw [← hpp]; exact hread,
    hall⟩
  intro j e' hj hje
  exact (name_test name e').1 (hmin j e' hj hje)

theorem named_returns_first_witness :
    WF sharedMemory ∧ dataOf sharedMemory 1 = some 0 ∧
      (∃ e ∈ items sharedMemory 1, e.2 = "a") ∧
      items sharedMemory 1 = [(10, "a"), (20, "b"), (30, "a")] ∧
      ∃ (i : Nat) (obj : Int), (items sharedMemory 1)[i]? = some (obj, "a") ∧
        named_const sharedMemory 1 "a" = .ok obj ∧ named_const sharedMemory 1 "a" = .ok 10 :=
  ⟨by decide, by decide, ⟨(10, "a"), by decide, rfl⟩, by decide,
   let ⟨i, obj, h1, _, h3, _⟩ :=
     named_returns_first sharedMemory 1 0 "a" (by decide) (by decide)
       ⟨(10, "a"), by decide, rfl⟩
   ⟨i, obj, h1, h3, by decide⟩⟩

/-- C20: for an object `v` that holds data and every name: the const and the
non-const `operator[](const std::string&)` throw `std::invalid_argument`
exactly when no item seen through `v` has that name; they throw nothing else
and the behaviour is defined. -/
theorem named_throws_iff_absent (M : Memory T) (v a : Nat) (name : String) (hwf : WF M)
    (hv : dataOf M v = some a) :
    (named_const M v name = .throws (invalid_argument name) ↔
      ∀ e ∈ items M v, e.2 ≠ name) ∧
    ((named M v name).2 = .throws (invalid_argument name) ↔
      ∀ e ∈ items M v, e.2 ≠ name) ∧
    (∀ x, named_const M v name = .throws x → x = invalid_argument name) ∧
    (∀ x, (named M v name).2 = .throws x → x = invalid_argument name) ∧
    named_const M v name ≠ .undefined ∧ (named M v name).2 ≠ .undefined := by
  obtain ⟨habsent, hfound, _⟩ := named_by_find_if name hwf hv
  have hiff : find_if (items M v) (fun element => element.2 == name) = (items M v).length ↔
      ∀ e ∈ items M v, e.2 ≠ name := by
    rw [find_if_eq_length_iff]
    constructor
    · intro h e he; exact (name_test name e).1 (h e he)
    · intro h e he; exact (name_test name e).2 (h e he)
  by_cases he : find_if (items M v) (fun element => element.2 == name) = (items M v).length
  · obtain ⟨h1, h2⟩ := habsent he
    rw [h1, h2]
    refine ⟨⟨fun _ => hiff.1 he, fun _ => rfl⟩, ⟨fun _ => hiff.1 he, fun _ => rfl⟩, ?_, ?_,
      by simp, by simp⟩
    · intro x hx; cases hx; rfl
    · intro x hx; cases hx; rfl
  · obtain ⟨p, _, h1, r, h2, _⟩ := hfound he
    rw [h1, h2]
    refine ⟨⟨fun h => (by cases h), fun h => absurd (hiff.2 h) he⟩,
      ⟨fun h => (by cases h), fun h => absurd (hiff.2 h) he⟩, ?_, ?_, by simp, by simp⟩
    · intro x hx; cases hx
    · intro x hx; cases hx

theorem named_throws_iff_absent_witness :
    WF sharedMemory ∧ dataOf sharedMemory 0 = some 0 ∧
      (∀ e ∈ items sharedMemory 0, e.2 ≠ "c") ∧
      named_const sharedMemory 0 "c" = .throws (invalid_argument "c") ∧
      (named sharedMemory 0 "c").2 = .throws (invalid_argument "c") :=
  ⟨by decide, by decide, by decide,
   (named_throws_iff_absent sharedMemory 0 0 "c" (by decide) (by decide)).1.2 (by decide),
   (named_throws_iff_absent sharedMemory 0 0 "c" (by decide) (by decide)).2.1.2 (by decide)⟩

theorem items_congr {M M' : Memory T} {u u' : Nat} (hh : M'.heap = M.heap)
    (hd : dataOf M' u' = dataOf M u) : items M' u' = items M u := by
  unfold items deref
  rw [hd, hh]

theorem dataOf_copy_construct (M : Memory T) (v u : Nat) :
    dataOf (copy_construct M v) u =
      if u < M.objects.length then dataOf M u
      else if u = M.objects.length then dataOf M v else none := by
  unfold copy_construct
  by_cases h1 : u < M.objects.length
  · rw [if_pos h1]
    simp only [dataOf]
    rw [List.getElem?_append_left h1]
  · rw [if_neg h1]
    by_cases h2 : u = M.objects.length
    · subst h2
      simp [dataOf]
    · rw [if_neg h2]
      have : M.objects.length + 1 ≤ u := by omega
      simp only [dataOf]
      rw [List.getElem?_eq_none (by simpa using this)]

theorem WF_copy_construct {M : Memory T} (v : Nat) (hwf : WF M) : WF (copy_construct M v) := by
  intro x hx a ha
  simp only [copy_construct, List.mem_append, List.mem_singleton] at hx ⊢
  rcases hx with h | h
  · exact hwf x h a ha
  · subst h
    exact dataOf_lt hwf ha

theorem dataOf_copy_assign (M : Memory T) (w v u : Nat) (hw : w < M.objects.length) :
    dataOf (copy_assign M w v) u = if u = w then dataOf M v else dataOf M u := by
  unfold copy_assign
  simp only [dataOf]
  rw [List.getElem?_set]
  by_cases h : w = u
  · subst h; simp [hw]
  · have : ¬ u = w := fun e => h e.symm
    simp [h, this]

theorem WF_copy_assign {M : Memory T} (w v : Nat) (hwf : WF M) : WF (copy_assign M w v) := by
  intro x hx a ha
  simp only [copy_assign] at hx ⊢
  rcases List.mem_or_eq_of_mem_set hx with h | h
  · exact hwf x h a ha
  · subst h
    exact dataOf_lt hwf ha

/-- `push_back` puts the pair at the end of what is seen through the object. -/
theorem items_push_back {M : Memory T} (v : Nat) (obj : T) (name : String) (hwf : WF M)
    (hv : v < M.objects.length) :
    items (push_back M v obj name) v = items M v ++ [(obj, name)] := by
  obtain ⟨_, _, _, hx⟩ := detach_spec v hwf
  obtain ⟨a, d, hd, hh, hi, _⟩ := hx hv
  unfold push_back
  rw [update_eq _ hd hh, items_setBlock_self a v _ hd (lt_of_lt_of_le
    (List.getElem?_eq_some.1 hh).1 (Nat.le_refl _)), hi]

/-- `clear` leaves nothing to be seen through the object. -/
theorem items_clear {M : Memory T} (v : Nat) (hwf : WF M) (hv : v < M.objects.length) :
    items (clear M v) v = [] := by
  obtain ⟨_, _, _, hx⟩ := detach_spec v hwf
  obtain ⟨a, d, hd, hh, hi, _⟩ := hx hv
  unfold clear
  rw [update_eq _ hd hh, items_setBlock_self a v _ hd (lt_of_lt_of_le
    (List.getElem?_eq_some.1 hh).1 (Nat.le_refl _))]

/-- C18 (copy-on-write isolation): let `w` be a copy of the object `v`, made
by the copy constructor (the new object `M.objects.length`) or by copy
assignment to another object.  Right after the copy both see the items of
`v`.  After any sequence of mutations of `w` (`push_back`, `clear`,
`reserve`, a non-const `operator[]` with an assignment through the reference
it returns, `begin()` with an assignment through the iterator, `begin()`,
`end()`), `v` still sees those items; and after any sequence of mutations of
`v`, `w` still sees them.  The mutated object itself does change:
`push_back` on the copy adds the pair at its end and `clear` empties it. -/
theorem copy_on_write_isolation (M : Memory T) (v : Nat) (hwf : WF M)
    (hv : v < M.objects.length) :
    (items (copy_construct M v) M.objects.length = items M v ∧
      items (copy_construct M v) v = items M v ∧
      (∀ ms, items (mutateAll (copy_construct M v) M.objects.length ms) v = items M v) ∧
      (∀ ms, items (mutateAll (copy_construct M v) v ms) M.objects.length = items M v) ∧
      (∀ obj name,
        items (push_back (copy_construct M v) M.objects.length obj name) M.objects.length =
          items M v ++ [(obj, name)]) ∧
      items (clear (copy_construct M v) M.objects.length) M.objects.length = []) ∧
    ∀ w, w < M.objects.length → w ≠ v →
      items (copy_assign M w v) w = items M v ∧
      items (copy_assign M w v) v = items M v ∧
      (∀ ms, items (mutateAll (copy_assign M w v) w ms) v = items M v) ∧
      (∀ ms, items (mutateAll (copy_assign M w v) v ms) w = items M v) ∧
      (∀ obj name,
        items (push_back (copy_assign M w v) w obj name) w = items M v ++ [(obj, name)]) ∧
      items (clear (copy_assign M w v) w) w = [] := by
  constructor
  · have hwf1 := WF_copy_construct v hwf
    have hlen : M.objects.length < (copy_construct M v).objects.length := by
      simp [copy_construct]
    have hw : items (copy_construct M v) M.objects.length = items M v :=
      @items_congr T M (copy_construct M v) v M.objects.length rfl (by
        rw [dataOf_copy_construct, if_neg (Nat.lt_irrefl _), if_pos rfl])
    have hv' : items (copy_construct M v) v = items M v :=
      @items_congr T M (copy_construct M v) v v rfl (by
        rw [dataOf_copy_construct, if_pos hv])
    have hne : v ≠ M.objects.length := Nat.ne_of_lt hv
    refine ⟨hw, hv', ?_, ?_, ?_, ?_⟩
    · intro ms
      rw [(mutateAll_frame M.objects.length ms hwf1).2.2 v hne, hv']
    · intro ms
      rw [(mutateAll_frame v ms hwf1).2.2 M.objects.length (fun e => hne e.symm), hw]
    · intro obj name
      rw [items_push_back _ obj name hwf1 hlen, hw]
    · exact items_clear _ hwf1 hlen
  · intro w hw hwv
    have hwf1 := WF_copy_assign w v hwf
    have hlen : w < (copy_assign M w v).objects.length := by
      simp [copy_assign, hw]
    have h1 : items (copy_assign M w v) w = items M v :=
      @items_congr T M (copy_assign M w v) v w rfl (by
        rw [dataOf_copy_assign M w v w hw, if_pos rfl])
    have h2 : items (copy_assign M w v) v = items M v :=
      @items_congr T M (copy_assign M w v) v v rfl (by
        rw [dataOf_copy_assign M w v v hw, if_neg (fun e => hwv e.symm)])
    refine ⟨h1, h2, ?_, ?_, ?_, ?_⟩
    · intro ms
      rw [(mutateAll_frame w ms hwf1).2.2 v (fun e => hwv e.symm), h2]
    · intro ms
      rw [(mutateAll_frame v ms hwf1).2.2 w hwv, h1]
    · intro obj name
      rw [items_push_back _ obj name hwf1 hlen, h1]
    · exact items_clear _ hwf1 hlen

theorem copy_on_write_isolation_witness :
    WF sharedMemory ∧ 0 < sharedMemory.objects.length ∧
      items (mutateAll (copy_construct sharedMemory 0) 2
        [.push_back 40 "d", .subscript_write 0 (11, "z"), .named_write "b" 21,
         .begin_write 2 (31, "y")]) 2 = [(11, "z"), (21, "b"), (31, "y"), (40, "d")] ∧
      items (mutateAll (copy_construct sharedMemory 0) 2
        [.push_back 40 "d", .subscript_write 0 (11, "z"), .named_write "b" 21,
         .begin_write 2 (31, "y")]) 0 = items sharedMemory 0 ∧
      items sharedMemory 0 = [(10, "a"), (20, "b"), (30, "a")] :=
  ⟨by decide, by decide, by decide,
   (copy_on_write_isolation sharedMemory 0 (by decide) (by decide)).1.2.2.1 _, by decide⟩

end MyVector

end CodeReview

/-! # Report generators: proofs -/

namespace Report

/-! ## escapeCsv -/

theorem find_first_of_eq_none (input chars : List Char) :
    find_first_of input chars = none ↔ ∀ c ∈ input, c ∉ chars := by
  induction input with
  | nil => simp [find_first_of]
  | cons c cs ih =>
    by_cases hc : c ∈ chars
    · simp [find_first_of, hc]
    · simp [find_first_of, hc, ih]

/-- The loop of `escapeCsv` appends to the stream the input with its double
quotes doubled. -/
theorem foldl_doubles (input ss : List Char) :
    input.foldl (fun ss c => if c = dquote then ss ++ [dquote, dquote] else ss ++ [c]) ss =
      ss ++ doubleQuotes input := by
  induction input generalizing ss with
  | nil => simp [doubleQuotes]
  | cons c cs ih =>
    rw [List.foldl_cons, ih]
    by_cases hc : c = dquote
    · simp [doubleQuotes, hc]
    · simp [doubleQuotes, hc]

theorem escapeCsv_plain {s : List Char}
    (h : ∀ c ∈ s, c ≠ comma ∧ c ≠ dquote ∧ c ≠ newline) : escapeCsv s = s := by
  have : find_first_of s [comma, dquote, newline] = none := by
    rw [find_first_of_eq_none]
    intro c hc hm
    obtain ⟨h1, h2, h3⟩ := h c hc
    simp only [List.mem_cons, List.mem_singleton, List.not_mem_nil, or_false] at hm
    rcases hm with hm | hm | hm
    · exact h1 hm
    · exact h2 hm
    · exact h3 hm
  simp only [escapeCsv, this, if_true]

theorem escapeCsv_quoted {s : List Char}
    (h : ∃ c ∈ s, c = comma ∨ c = dquote ∨ c = newline) :
    escapeCsv s = dquote :: (doubleQuotes s ++ [dquote]) := by
  have : find_first_of s [comma, dquote, newline] ≠ none := by
    rw [Ne, find_first_of_eq_none]
    intro hall
    obtain ⟨c, hc, hm⟩ := h
    apply hall c hc
    simp only [List.mem_cons, List.mem_singleton, List.not_mem_nil, or_false]
    exact hm
  simp only [escapeCsv, this, if_false, foldl_doubles]
  rfl

/-- C25: for every string `s`: when no `char` of `s` is a comma, a double
quote or a newline, `escapeCsv(s)` is `s`; otherwise it is a double quote,
then `s` with every double quote replaced by two, then a double quote. -/
theorem escapeCsv_spec (s : List Char) :
    ((∀ c ∈ s, c ≠ comma ∧ c ≠ dquote ∧ c ≠ newline) → escapeCsv s = s) ∧
    (¬ (∀ c ∈ s, c ≠ comma ∧ c ≠ dquote ∧ c ≠ newline) →
      escapeCsv s = [dquote] ++ doubleQuotes s ++ [dquote]) ∧
    ((∃ c ∈ s, c = comma ∨ c = dquote ∨ c = newline) →
      escapeCsv s = [dquote] ++ doubleQuotes s ++ [dquote]) := by
  refine ⟨escapeCsv_plain, ?_, fun h => by rw [escapeCsv_quoted h]; rfl⟩
  intro h
  have h' : ∃ c ∈ s, c = comma ∨ c = dquote ∨ c = newline := by
    by_contra hn
    apply h
    intro c hc
    refine ⟨fun e => hn ⟨c, hc, Or.inl e⟩, fun e => hn ⟨c, hc, Or.inr (Or.inl e)⟩,
      fun e => hn ⟨c, hc, Or.inr (Or.inr e)⟩⟩
  rw [escapeCsv_quoted h']
  rfl

theorem escapeCsv_spec_witness :
    (∀ c ∈ "report.txt".toList, c ≠ comma ∧ c ≠ dquote ∧ c ≠ newline) ∧
      escapeCsv "report.txt".toList = "report.txt".toList ∧
      (∃ c ∈ "a,b".toList ++ [dquote], c = comma ∨ c = dquote ∨ c = newline) ∧
      escapeCsv ("a,b".toList ++ [dquote]) =
        [dquote] ++ ("a,b".toList ++ [dquote, dquote]) ++ [dquote] :=
  ⟨by decide, (escapeCsv_spec "report.txt".toList).1 (by decide),
   ⟨comma, by decide, Or.inl rfl⟩,
   ((escapeCsv_spec ("a,b".toList ++ [dquote])).2.2 ⟨comma, by decide, Or.inl rfl⟩).trans
     (by decide)⟩

theorem doubleQuotes_cons (c : Char) (s : List Char) :
    doubleQuotes (c :: s) =
      if c = dquote then dquote :: dquote :: doubleQuotes s else c :: doubleQuotes s := by
  by_cases hc : c = dquote
  · simp [doubleQuotes, hc]
  · simp [doubleQuotes, hc]

theorem undouble_cons_ne {a : Char} (l : List Char) (h : a ≠ dquote) :
    undouble (a :: l) = a :: undouble l := by
  cases l with
  | nil => simp [undouble]
  | cons b cs => simp [undouble, h]

/-- Undoing the doubling gives the string back. -/
theorem undouble_doubleQuotes (s : List Char) : undouble (doubleQuotes s) = s := by
  induction s with
  | nil => simp [doubleQuotes, undouble]
  | cons c cs ih =>
    rw [doubleQuotes_cons]
    by_cases hc : c = dquote
    · rw [if_pos hc]
      simp only [undouble, and_self, if_true, ih]
      rw [hc]
    · rw [if_neg hc, undouble_cons_ne _ hc, ih]

theorem decode_escapeCsv (s : List Char) : decodeCsvField (escapeCsv s) = s := by
  by_cases h : ∀ c ∈ s, c ≠ comma ∧ c ≠ dquote ∧ c ≠ newline
  · rw [escapeCsv_plain h]
    cases s with
    | nil => rfl
    | cons c rest =>
      have hc : c ≠ dquote := (h c (List.mem_cons_self _ _)).2.1
      simp only [decodeCsvField, hc, if_false]
  · have h' : ∃ c ∈ s, c = comma ∨ c = dquote ∨ c = newline := by
      by_contra hn
      apply h
      intro c hc
      refine ⟨fun e => hn ⟨c, hc, Or.inl e⟩, fun e => hn ⟨c, hc, Or.inr (Or.inl e)⟩,
        fun e => hn ⟨c, hc, Or.inr (Or.inr e)⟩⟩
    rw [escapeCsv_quoted h']
    simp only [decodeCsvField, if_true, List.dropLast_concat, undouble_doubleQuotes]

/-- C29: reading `escapeCsv(s)` back by the CSV field rule gives `s`, for
every string `s`; so `escapeCsv` is injective. -/
theorem escapeCsv_round_trip :
    (∀ s, decodeCsvField (escapeCsv s) = s) ∧ Function.Injective escapeCsv := by
  refine ⟨decode_escapeCsv, ?_⟩
  intro a b hab
  rw [← decode_escapeCsv a, ← decode_escapeCsv b, hab]

/-! ## The factory -/

theorem toNat_inj {a b : Char} (h : a.toNat = b.toNat) : a = b := by
  rw [← Char.ofNat_toNat a, ← Char.ofNat_toNat b, h]

theorem toNat_ofNat_small {n : Nat} (h : n < 55296) : (Char.ofNat n).toNat = n := by
  have hv : n.isValidChar := Or.inl h
  simp only [Char.ofNat, hv, dite_true]
  rfl

/-- `std::tolower` gives the `char` `b`, itself not a capital letter, exactly
for the `char`s that are `b` ignoring ASCII case. -/
theorem tolower_eq_iff (a b : Char) (hb : ¬ (65 ≤ b.toNat ∧ b.toNat ≤ 90)) :
    tolower a = b ↔ sameLetter a b = true := by
  unfold tolower sameLetter
  by_cases ha : 65 ≤ a.toNat ∧ a.toNat ≤ 90
  · rw [if_pos ha]
    have hsmall : a.toNat + 32 < 55296 := by omega
    constructor
    · intro h
      have : b.toNat = a.toNat + 32 := by rw [← h, toNat_ofNat_small hsmall]
      simp [ha.1, ha.2, this]
    · intro h
      simp only [Bool.or_eq_true, Bool.and_eq_true, beq_iff_eq, decide_eq_true_eq] at h
      rcases h with (h | h) | h
      · subst h; exact absurd ha hb
      · apply toNat_inj
        rw [toNat_ofNat_small hsmall, h.2]
      · exact absurd ⟨h.1.1, h.1.2⟩ hb
  · rw [if_neg ha]
    constructor
    · intro h
      simp [h]
    · intro h
      simp only [Bool.or_eq_true, Bool.and_eq_true, beq_iff_eq, decide_eq_true_eq] at h
      rcases h with (h | h) | h
      · exact h
      · exact absurd ⟨h.1.1, h.1.2⟩ ha
      · exact absurd ⟨h.1.1, h.1.2⟩ hb

/-- `toLower` gives the string `g`, itself without capital letters, exactly
for the strings that are `g` ignoring ASCII case. -/
theorem toLower_eq_iff (f g : List Char) (hg : ∀ b ∈ g, ¬ (65 ≤ b.toNat ∧ b.toNat ≤ 90)) :
    toLower f = g ↔ eqIgnoreAsciiCase f g = true := by
  induction f generalizing g with
  | nil =>
    cases g with
    | nil => simp [toLower, eqIgnoreAsciiCase]
    | cons b bs => simp [toLower, eqIgnoreAsciiCase]
  | cons a as ih =>
    cases g with
    | nil => simp [toLower, eqIgnoreAsciiCase]
    | cons b bs =>
      have hb := hg b (List.mem_cons_self _ _)
      have hbs : ∀ x ∈ bs, ¬ (65 ≤ x.toNat ∧ x.toNat ≤ 90) :=
        fun x hx => hg x (List.mem_cons_of_mem _ hx)
      have := ih bs hbs
      simp only [toLower] at this
      simp only [toLower, List.map_cons, List.cons.injEq, eqIgnoreAsciiCase, Bool.and_eq_true,
        tolower_eq_iff a b hb, this]

/-- C26: for every format string `f`: `createReportGenerator(f)` returns a TXT
generator exactly when `f` is `txt` ignoring ASCII case, a CSV generator
exactly when `f` is `csv` ignoring ASCII case, and in every other case throws
`std::invalid_argument` with a message that ends with `f` as it was given. -/
theorem createReportGenerator_spec (f : List Char) :
    (createReportGenerator f = .ok .TxtReportGenerator ↔
      eqIgnoreAsciiCase f "txt".toList = true) ∧
    (createReportGenerator f = .ok .CsvReportGenerator ↔
      eqIgnoreAsciiCase f "csv".toList = true) ∧
    (eqIgnoreAsciiCase f "txt".toList = false → eqIgnoreAsciiCase f "csv".toList = false →
      createReportGenerator f = .error (.typed "std::invalid_argument"
        ("Unsupported report format requested: " ++ String.mk f))) ∧
    f <:+ ("Unsupported report format requested: " ++ String.mk f).toList := by
  have ht := toLower_eq_iff f "txt".toList (by decide)
  have hc := toLower_eq_iff f "csv".toList (by decide)
  have hne : "txt".toList ≠ "csv".toList := by decide
  have key : createReportGenerator f =
      if toLower f = "txt".toList then .ok .TxtReportGenerator
      else if toLower f = "csv".toList then .ok .CsvReportGenerator
      else .error (unsupported f) := rfl
  refine ⟨?_, ?_, ?_, ?_⟩
  · rw [← ht, key]
    by_cases h1 : toLower f = "txt".toList
    · rw [if_pos h1]
      exact ⟨fun _ => h1, fun _ => rfl⟩
    · rw [if_neg h1]
      by_cases h2 : toLower f = "csv".toList
      · rw [if_pos h2]
        exact ⟨fun h => (by cases h), fun h => absurd h h1⟩
      · rw [if_neg h2]
        exact ⟨fun h => (by cases h), fun h => absurd h h1⟩
  · rw [← hc, key]
    by_cases h1 : toLower f = "txt".toList
    · rw [if_pos h1]
      exact ⟨fun h => (by cases h), fun h => absurd (h1.symm.trans h) hne⟩
    · rw [if_neg h1]
      by_cases h2 : toLower f = "csv".toList
      · rw [if_pos h2]
        exact ⟨fun _ => h2, fun _ => rfl⟩
      · rw [if_neg h2]
        exact ⟨fun h => (by cases h), fun h => absurd h h2⟩
  · intro h1 h2
    have h1' : ¬ toLower f = "txt".toList := by
      rw [ht, h1]; simp
    have h2' : ¬ toLower f = "csv".toList := by
      rw [hc, h2]; simp
    rw [key, if_neg h1', if_neg h2']
    rfl
  · rw [String.toList, String.data_append]
    exact List.suffix_append _ _

theorem createReportGenerator_spec_witness :
    eqIgnoreAsciiCase "TxT".toList "txt".toList = true ∧
      createReportGenerator "TxT".toList = .ok .TxtReportGenerator ∧
      createReportGenerator "CSV".toList = .ok .CsvReportGenerator ∧
      createReportGenerator "Pdf".toList = .error (.typed "std::invalid_argument"
        "Unsupported report format requested: Pdf") :=
  ⟨by decide, (createReportGenerator_spec "TxT".toList).1.2 (by decide),
   (createReportGenerator_spec "CSV".toList).2.1.2 (by decide),
   ((createReportGenerator_spec "Pdf".toList).2.2.1 (by decide) (by decide)).trans (by decide)⟩

end Report

/-! # The echo server: proofs -/

namespace EchoServer

theorem trimLoop_eq (fuel : Nat) (message : List Char) (h : message.length ≤ fuel) :
    trimLoop fuel message = withoutLineEnd message := by
  induction fuel generalizing message with
  | zero =>
    have : message = [] := List.length_eq_zero.1 (Nat.le_zero.1 h)
    subst this
    simp [trimLoop, withoutLineEnd]
  | succ fuel ih =>
    rcases List.eq_nil_or_concat message with rfl | ⟨l, back, rfl⟩
    · simp [trimLoop, withoutLineEnd]
    · rw [List.concat_eq_append] at h ⊢
      have hl : l.length ≤ fuel := by
        simp only [List.length_append, List.length_singleton] at h
        omega
      unfold withoutLineEnd
      rw [List.rdropWhile_concat]
      have hg : (l ++ [back]).getLast? = some back := by simp
      simp only [trimLoop, hg, List.dropLast_concat]
      by_cases hb : back = LF ∨ back = CR
      · have hb' : isLineEnd back = true := by
          simpa [isLineEnd] using hb
        rw [if_pos hb, if_pos hb', ih l hl]
        rfl
      · have hb' : ¬ isLineEnd back = true := by
          simpa [isLineEnd] using hb
        rw [if_neg hb, if_neg hb']

/-- The trimming loop removes all trailing `'\n'` and `'\r'`. -/
theorem trim_eq (message : List Char) : trim message = withoutLineEnd message :=
  trimLoop_eq _ _ (Nat.le_refl _)

/-- The string made of the buffer is the received bytes up to the first
`'\0'` among them. -/
theorem message_of_buffer (received : List Char) :
    message_of (received ++ [NUL]) = received.takeWhile fun c => c != NUL := by
  unfold message_of
  induction received with
  | nil => simp
  | cons c cs ih =>
    simp only [List.cons_append, List.takeWhile_cons]
    split
    · rw [ih]
    · rfl

theorem message_of_eq_self {received : List Char} (h : NUL ∉ received) :
    message_of (received ++ [NUL]) = received := by
  rw [message_of_buffer, List.takeWhile_eq_self_iff]
  intro c hc
  simp only [bne_iff_ne, ne_eq]
  rintro rfl
  exact h hc

/-- What one call of `recv` takes: at least one byte when the stream has one,
at most `len`, from the front of the stream. -/
theorem recv_spec (pending : List Char) (arrived len : Nat) :
    (recv pending arrived len).1 ++ (recv pending arrived len).2 = pending ∧
      (recv pending arrived len).1.length ≤ len ∧
      (pending ≠ [] → 1 ≤ len → 1 ≤ (recv pending arrived len).1.length) ∧
      (len < pending.length → (recv pending arrived len).2 ≠ []) := by
  refine ⟨List.take_append_drop _ _, ?_, ?_, ?_⟩
  · simp only [recv, List.length_take]
    omega
  · intro hp hl
    have : 1 ≤ pending.length := by
      cases pending with
      | nil => exact absurd rfl hp
      | cons c cs => simp
    simp only [recv, List.length_take]
    omega
  · intro hl
    simp only [recv, ne_eq, List.drop_eq_nil_iff, not_le]
    omega

/-- One round of the loop of `handle_client` in which `recv` has received
something: the response is made of the received bytes up to the first `'\0'`,
without their trailing `'\n'` and `'\r'`, and the loop goes on with what
`recv` has left. -/
theorem handle_client_round (pending : List Char) (arrived : Nat) (arrivals : List Nat)
    (received rest : List Char) (hpos : 1 ≤ received.length)
    (hrecv : recv pending arrived (BUFFER_SIZE - 1) = (received, rest)) :
    handle_client (arrived :: arrivals) pending =
      (if withoutLineEnd (message_of (received ++ [NUL])) = "hello".toList
        then "world".toList ++ [LF]
        else withoutLineEnd (message_of (received ++ [NUL])) ++ [LF])
        :: handle_client arrivals rest := by
  have hnot : ¬ received.length ≤ 0 := by omega
  simp only [handle_client, hrecv, hnot, if_false, trim_eq, respond]

/-- The message `['a', '\0', 'b', '\n']` is received in one piece; without its
trailing newline it is `['a', '\0', 'b']`, which is not `hello`; yet the reply
is `a` and a newline: what follows the `'\0'` is lost. -/
theorem echo_reply_cut_at_NUL :
    (recv ['a', NUL, 'b', LF] 4 (BUFFER_SIZE - 1)).1 = ['a', NUL, 'b', LF] ∧
      withoutLineEnd ['a', NUL, 'b', LF] = ['a', NUL, 'b'] ∧
      withoutLineEnd ['a', NUL, 'b', LF] ≠ "hello".toList ∧
      handle_client [4] ['a', NUL, 'b', LF] = [['a', LF]] ∧
      handle_client [4] ['a', NUL, 'b', LF] ≠ [withoutLineEnd ['a', NUL, 'b', LF] ++ [LF]] := by
  decide

/-- C27, as the code has it: one round of the loop of `handle_client`, the
client having something still to send.  `recv` takes at least one and at most
`BUFFER_SIZE - 1` bytes from the front of the stream, and what it leaves is
taken by the next rounds, so that what the client sent is answered in more
than one piece when it is longer than that or arrives in parts.  The message
of the round is the received bytes up to the first `'\0'` among them, all of
them when there is none.  With `m` the message without all its trailing
`'\n'` and `'\r'`, the response is `world` and a newline when `m` is `hello`,
and `m` and a newline otherwise; the trimming loop computes `m`, trimming
twice is trimming once, and what is left does not end with `'\n'` or
`'\r'`. -/
theorem echo_reply (pending : List Char) (arrived : Nat) (arrivals : List Nat)
    (received rest : List Char) (hp : pending ≠ [])
    (hrecv : recv pending arrived (BUFFER_SIZE - 1) = (received, rest)) :
    received ++ rest = pending ∧
    1 ≤ received.length ∧ received.length ≤ BUFFER_SIZE - 1 ∧
    (BUFFER_SIZE - 1 < pending.length → rest ≠ []) ∧
    message_of (received ++ [NUL]) = received.takeWhile (fun c => c != NUL) ∧
    (NUL ∉ received → message_of (received ++ [NUL]) = received) ∧
    handle_client (arrived :: arrivals) pending =
      (if withoutLineEnd (message_of (received ++ [NUL])) = "hello".toList
        then "world".toList ++ [LF]
        else withoutLineEnd (message_of (received ++ [NUL])) ++ [LF])
        :: handle_client arrivals rest ∧
    (NUL ∉ received →
      handle_client (arrived :: arrivals) pending =
        (if withoutLineEnd received = "hello".toList then "world".toList ++ [LF]
          else withoutLineEnd received ++ [LF])
          :: handle_client arrivals rest) ∧
    (∀ message, trim message = withoutLineEnd message ∧
      trim (trim message) = trim message ∧
      ∀ c, (trim message).getLast? = some c → c ≠ LF ∧ c ≠ CR) := by
  obtain ⟨h1, h2, h3, h4⟩ := recv_spec pending arrived (BUFFER_SIZE - 1)
  rw [hrecv] at h1 h2 h3 h4
  have hpos : 1 ≤ received.length := h3 hp (by decide)
  have hround := handle_client_round pending arrived arrivals received rest hpos hrecv
  refine ⟨h1, hpos, h2, h4, message_of_buffer _, message_of_eq_self, hround, ?_, ?_⟩
  · intro hn
    rw [hround, message_of_eq_self hn]
  · intro message
    refine ⟨trim_eq message, ?_, ?_⟩
    · rw [trim_eq, trim_eq]
      exact List.rdropWhile_idempotent _ _
    · intro c hc
      rw [trim_eq] at hc
      have hne : withoutLineEnd message ≠ [] := by
        intro h
        rw [h] at hc
        cases hc
      have hlast := List.rdropWhile_last_not isLineEnd message hne
      have : c = (withoutLineEnd message).getLast hne := by
        rw [List.getLast?_eq_getLast _ hne] at hc
        exact (Option.some.inj hc).symm
      unfold withoutLineEnd at this
      rw [← this] at hlast
      simpa [isLineEnd] using hlast

theorem echo_reply_witness :
    "hello".toList ++ [CR, LF] ≠ [] ∧
      recv ("hello".toList ++ [CR, LF]) 7 (BUFFER_SIZE - 1) =
        ("hello".toList ++ [CR, LF], []) ∧
      handle_client [7] ("hello".toList ++ [CR, LF]) = ["world".toList ++ [LF]] ∧
      handle_client [4, 9] ("hi".toList ++ [LF, LF] ++ "you".toList) =
        ["hi".toList ++ [LF], "you".toList ++ [LF]] ∧
      trim ("hi".toList ++ [LF, LF]) = "hi".toList :=
  ⟨by decide, by decide,
   (echo_reply ("hello".toList ++ [CR, LF]) 7 [] ("hello".toList ++ [CR, LF]) []
      (by decide) (by decide)).2.2.2.2.2.2.1.trans (by decide),
   by decide, by decide⟩

/-- A line of `BUFFER_SIZE` bytes, the newline at its end included, is answered
in two pieces when it has arrived in full: the first `BUFFER_SIZE - 1` bytes
with a newline, then an empty line. -/
theorem long_line_answered_twice (line : List Char) (a1 a2 : Nat)
    (hlen : line.length = BUFFER_SIZE - 1) (hnul : NUL ∉ line)
    (hend : ∀ hl : line ≠ [], isLineEnd (line.getLast hl) = false)
    (h1 : BUFFER_SIZE - 1 ≤ a1) :
    handle_client [a1, a2] (line ++ [LF]) = [line ++ [LF], [LF]] := by
  have hc : min (max a1 1) (BUFFER_SIZE - 1) = line.length := by
    rw [hlen]
    simp only [BUFFER_SIZE] at h1 ⊢
    omega
  have hr1 : recv (line ++ [LF]) a1 (BUFFER_SIZE - 1) = (line, [LF]) := by
    simp only [recv, hc]
    rw [List.take_left, List.drop_left]
  have hw : withoutLineEnd line = line := by
    unfold withoutLineEnd
    rw [List.rdropWhile_eq_self_iff]
    intro hne
    rw [hend hne]
    decide
  have hne : line ≠ "hello".toList := by
    intro h
    have hl := congrArg List.length h
    rw [hlen] at hl
    revert hl
    decide
  have e1 := handle_client_round _ a1 [a2] _ _ (by rw [hlen]; decide) hr1
  rw [message_of_eq_self hnul] at e1
  have hr2 : recv [LF] a2 (BUFFER_SIZE - 1) = ([LF], []) := by
    have hc2 : 1 ≤ min (max a2 1) (BUFFER_SIZE - 1) := by
      simp only [BUFFER_SIZE]
      omega
    simp only [recv]
    rw [List.take_of_length_le (by simpa using hc2), List.drop_of_length_le (by simpa using hc2)]
  have e2 := handle_client_round [LF] a2 [] [LF] [] (by simp) hr2
  have hlast : (if withoutLineEnd (message_of ([LF] ++ [NUL])) = "hello".toList
      then "world".toList ++ [LF]
      else withoutLineEnd (message_of ([LF] ++ [NUL])) ++ [LF]) = [LF] := by
    decide
  rw [e1, e2, hw, if_neg hne, hlast]
  rfl

/-- The line of `BUFFER_SIZE - 1` letters `a` and a newline gets two
responses. -/
theorem long_line_example (a2 : Nat) :
    handle_client [BUFFER_SIZE, a2] (List.replicate (BUFFER_SIZE - 1) 'a' ++ [LF]) =
      [List.replicate (BUFFER_SIZE - 1) 'a' ++ [LF], [LF]] := by
  apply long_line_answered_twice
  · exact List.length_replicate _ _
  · intro h
    exact absurd (List.eq_of_mem_replicate h) (by decide)
  · intro hl
    rw [List.eq_of_mem_replicate (List.getLast_mem hl)]
    decide
  · decide

end EchoServer
